import Mathlib

/-!
# Mark-and-sweep collector of `garbageCollector.c`

A shallow embedding of the toy VM and its collector.

* Pointers (`Object*`) are natural numbers, `0` being `NULL`.
* The C heap of `Object` cells is a list indexed by address; a cell is `none` when it is not
  allocated (never allocated, or released by `free`).
* Dereferencing `NULL` or a pointer to a released cell, indexing `stack` outside `0 .. 255`
  and signed overflow of an `int` are undefined behaviour in C; here they yield the faults
  `invalidPointer`, `outOfBounds` and `intOverflow`, so a run that returns `.ok` is a run with
  defined behaviour.
* `assert` failing prints its message and exits; here it yields `Fault.fatal message`.
* `malloc` is a parameter: a function giving the address of the new cell from the current heap,
  required (where it matters) to return a non-null address that is not allocated.
* The anonymous union of `value` with `head`/`tail` is modelled as three fields; the code only
  reads `head`/`tail` of an object whose `type` is `OBJ_PAIR`.
-/

namespace GC

/-- A pointer to an `Object`; `0` is `NULL`. -/
abbrev Ptr := Nat

def NULL : Ptr := 0

def STACK_MAX : Int := 256

def INITIAL_OBJ_MAX : Int := 8

def INT_MAX : Int := 2147483647

def INT_MIN : Int := -2147483648

inductive ObjectType where
  | OBJ_INT
  | OBJ_PAIR
deriving DecidableEq, Repr

open ObjectType

structure Object where
  type : ObjectType
  marked : Nat
  next : Ptr
  value : Int
  head : Ptr
  tail : Ptr
deriving DecidableEq, Repr

/-- The memory holding the `Object` cells, indexed by address. -/
abbrev Heap := List (Option Object)

inductive Fault where
  | fatal (message : String)
  | invalidPointer
  | outOfBounds
  | intOverflow
  | outOfFuel
deriving DecidableEq, Repr

/-- The `VM` struct together with the memory its pointers refer to. -/
structure VM where
  stack : Nat → Ptr
  firstObject : Ptr
  stackSize : Int
  numObjects : Int
  maxObjects : Int
  heap : Heap

/-- Reading the cell a pointer refers to: `none` for `NULL` and for a cell that is not allocated. -/
def load (h : Heap) (p : Ptr) : Option Object :=
  if p = 0 then none else (h[p]?).join

/-- Writing an allocated cell. -/
def store (h : Heap) (p : Ptr) (o : Object) : Heap :=
  h.set p (some o)

/-- The effect of `free(p)`. -/
def free (h : Heap) (p : Ptr) : Heap :=
  h.set p none

/-- The cell at a fresh address `p` comes into existence with contents `o`. -/
def alloc (h : Heap) (p : Ptr) (o : Object) : Heap :=
  (h ++ List.replicate (p + 1 - h.length) none).set p (some o)

/-- The contract of `malloc`: a non-null address that is not allocated. -/
def MallocOK (malloc : Heap → Ptr) : Prop :=
  ∀ h, malloc h ≠ 0 ∧ load h (malloc h) = none

/-- An allocator that never reuses an address. -/
def bumpMalloc (h : Heap) : Ptr := max 1 h.length

/-- An allocator that takes the lowest free address. -/
def firstFit (h : Heap) : Ptr :=
  match (List.range h.length).find? (fun p => p ≠ 0 ∧ (load h p).isNone) with
  | some p => p
  | none => max 1 h.length

/-- An arithmetic result that has to be representable in an `int`. -/
def checkInt (x : Int) : Except Fault Int :=
  if INT_MIN ≤ x ∧ x ≤ INT_MAX then .ok x else .error .intOverflow

def assert (condition : Bool) (message : String) : Except Fault Unit :=
  if condition then .ok () else .error (.fatal message)

def newVM : VM :=
  { stack := fun _ => 0
    firstObject := NULL
    stackSize := 0
    numObjects := 0
    maxObjects := INITIAL_OBJ_MAX
    heap := [] }

def push (vm : VM) (value : Ptr) : Except Fault VM :=
  match assert (decide (vm.stackSize < STACK_MAX)) "Stack overflow!" with
  | .error e => .error e
  | .ok _ =>
    if vm.stackSize < 0 then .error .outOfBounds
    else .ok { vm with
      stack := Function.update vm.stack vm.stackSize.toNat value
      stackSize := vm.stackSize + 1 }

def pop (vm : VM) : Except Fault (VM × Ptr) :=
  match assert (decide (vm.stackSize > 0)) "Stack underflow!" with
  | .error e => .error e
  | .ok _ =>
    if STACK_MAX ≤ vm.stackSize - 1 then .error .outOfBounds
    else .ok ({ vm with stackSize := vm.stackSize - 1 }, vm.stack (vm.stackSize - 1).toNat)

/-- The cell is allocated and its mark is clear. -/
def unmarkedCell : Option Object → Bool
  | some o => decide (o.marked = 0)
  | none => false

/-- The cell is allocated and its mark is set. -/
def markedCell : Option Object → Bool
  | some o => decide (o.marked ≠ 0)
  | none => false

/-- The number of allocated cells whose mark is clear. -/
def unmarkedCount (h : Heap) : Nat :=
  h.countP unmarkedCell

/-- The number of allocated cells whose mark is set. -/
def markedCount (h : Heap) : Nat :=
  h.countP markedCell

/-- The number of allocated cells. -/
def cellCount (h : Heap) : Nat :=
  h.countP Option.isSome

/-- The recursion of `mark`, to depth at most `fuel`. Besides the heap it returns the objects
whose mark it set, in the order of the writes `object->marked = 1`. `object->head` and
`object->tail` are read from the object as loaded on entry: the calls in between only write
`marked` fields. -/
def markAux : Nat → Heap → Ptr → Except Fault (Heap × List Ptr)
  | 0, _, _ => .error .outOfFuel
  | fuel + 1, h, object =>
    match load h object with
    | none => .error .invalidPointer
    | some o =>
      if o.marked ≠ 0 then .ok (h, [])
      else
        let h1 := store h object { o with marked := 1 }
        if o.type = OBJ_PAIR then
          match markAux fuel h1 o.head with
          | .error e => .error e
          | .ok (h2, w1) =>
            match markAux fuel h2 o.tail with
            | .error e => .error e
            | .ok (h3, w2) => .ok (h3, object :: (w1 ++ w2))
        else .ok (h1, [object])

/-- The function `mark`: every call sets a mark that was clear or returns at once, so the depth
of the recursion is at most the number of objects whose mark is clear, plus one. -/
def mark (h : Heap) (object : Ptr) : Except Fault (Heap × List Ptr) :=
  markAux (unmarkedCount h + 1) h object

/-- The loop of `markAll` from index `i`, with `n` iterations left. -/
def markAllLoop (stack : Nat → Ptr) : Nat → Nat → Heap → Except Fault (Heap × List Ptr)
  | 0, _, h => .ok (h, [])
  | n + 1, i, h =>
    if (STACK_MAX : Int) ≤ i then .error .outOfBounds
    else
      match mark h (stack i) with
      | .error e => .error e
      | .ok (h1, w1) =>
        match markAllLoop stack n (i + 1) h1 with
        | .error e => .error e
        | .ok (h2, w2) => .ok (h2, w1 ++ w2)

/-- The function `markAll`, returning also the objects whose mark was set, in order. -/
def markAllLog (vm : VM) : Except Fault (VM × List Ptr) :=
  match markAllLoop vm.stack vm.stackSize.toNat 0 vm.heap with
  | .error e => .error e
  | .ok (h, w) => .ok ({ vm with heap := h }, w)

def markAll (vm : VM) : Except Fault VM :=
  match markAllLog vm with
  | .error e => .error e
  | .ok (vm1, _) => .ok vm1

/-- The place `Object** object` points to in `sweep`: `&vm->firstObject` or `&p->next`. -/
inductive Link where
  | first
  | nextOf (p : Ptr)
deriving DecidableEq, Repr

/-- Reading `*object`. -/
def readLink (vm : VM) : Link → Except Fault Ptr
  | .first => .ok vm.firstObject
  | .nextOf p =>
    match load vm.heap p with
    | none => .error .invalidPointer
    | some o => .ok o.next

/-- Writing `*object = q`. -/
def writeLink (vm : VM) (q : Ptr) : Link → Except Fault VM
  | .first => .ok { vm with firstObject := q }
  | .nextOf p =>
    match load vm.heap p with
    | none => .error .invalidPointer
    | some o => .ok { vm with heap := store vm.heap p { o with next := q } }

/-- The `while` loop of `sweep`, for at most `fuel` iterations. -/
def sweepLoop : Nat → VM → Link → Except Fault VM
  | 0, _, _ => .error .outOfFuel
  | fuel + 1, vm, object =>
    match readLink vm object with
    | .error e => .error e
    | .ok cur =>
      if cur = 0 then .ok vm
      else
        match load vm.heap cur with
        | none => .error .invalidPointer
        | some o =>
          if o.marked = 0 then
            match writeLink vm o.next object with
            | .error e => .error e
            | .ok vm1 =>
              match checkInt (vm1.numObjects - 1) with
              | .error e => .error e
              | .ok n =>
                sweepLoop fuel { vm1 with heap := free vm1.heap cur, numObjects := n } object
          else
            sweepLoop fuel { vm with heap := store vm.heap cur { o with marked := 0 } }
              (.nextOf cur)

/-- The function `sweep`: an iteration releases a cell or clears a mark that was set, so the
loop runs at most as many times as there are allocated cells and set marks, plus one. -/
def sweep (vm : VM) : Except Fault VM :=
  sweepLoop (cellCount vm.heap + markedCount vm.heap + 1) vm .first

/-- What `gc` prints: the number of objects collected and the number remaining. -/
structure Report where
  collected : Int
  remaining : Int
deriving DecidableEq, Repr

def gc (vm : VM) : Except Fault (VM × Report) :=
  let numObjects := vm.numObjects
  match markAll vm with
  | .error e => .error e
  | .ok vm1 =>
    match sweep vm1 with
    | .error e => .error e
    | .ok vm2 =>
      match (if vm2.numObjects = 0 then .ok INITIAL_OBJ_MAX else checkInt (vm2.numObjects * 2)) with
      | .error e => .error e
      | .ok m =>
        let vm3 := { vm2 with maxObjects := m }
        match checkInt (numObjects - vm3.numObjects) with
        | .error e => .error e
        | .ok c => .ok (vm3, { collected := c, remaining := vm3.numObjects })

def newObject (malloc : Heap → Ptr) (vm : VM) (type : ObjectType) : Except Fault (VM × Ptr) :=
  match (if vm.numObjects = vm.maxObjects then (gc vm).map Prod.fst else .ok vm) with
  | .error e => .error e
  | .ok vm1 =>
    let object := malloc vm1.heap
    if object = 0 then .error .invalidPointer
    else
      let o : Object :=
        { type := type, marked := 0, next := vm1.firstObject, value := 0, head := 0, tail := 0 }
      match checkInt (vm1.numObjects + 1) with
      | .error e => .error e
      | .ok n =>
        .ok ({ vm1 with heap := alloc vm1.heap object o, firstObject := object, numObjects := n },
          object)

def pushInt (malloc : Heap → Ptr) (vm : VM) (intValue : Int) : Except Fault VM :=
  match newObject malloc vm OBJ_INT with
  | .error e => .error e
  | .ok (vm1, object) =>
    match load vm1.heap object with
    | none => .error .invalidPointer
    | some o => push { vm1 with heap := store vm1.heap object { o with value := intValue } } object

def pushPair (malloc : Heap → Ptr) (vm : VM) : Except Fault (VM × Ptr) :=
  match newObject malloc vm OBJ_PAIR with
  | .error e => .error e
  | .ok (vm1, object) =>
    match pop vm1 with
    | .error e => .error e
    | .ok (vm2, t) =>
      match load vm2.heap object with
      | none => .error .invalidPointer
      | some o =>
        let vm3 := { vm2 with heap := store vm2.heap object { o with tail := t } }
        match pop vm3 with
        | .error e => .error e
        | .ok (vm4, hd) =>
          match load vm4.heap object with
          | none => .error .invalidPointer
          | some o1 =>
            let vm5 := { vm4 with heap := store vm4.heap object { o1 with head := hd } }
            match push vm5 object with
            | .error e => .error e
            | .ok vm6 => .ok (vm6, object)

/-- The assignment `p->tail = q` a caller may perform on a pair it holds. -/
def setTail (vm : VM) (p q : Ptr) : Except Fault VM :=
  match load vm.heap p with
  | none => .error .invalidPointer
  | some o => .ok { vm with heap := store vm.heap p { o with tail := q } }

/-- The assignment `p->head = q` a caller may perform on a pair it holds. -/
def setHead (vm : VM) (p q : Ptr) : Except Fault VM :=
  match load vm.heap p with
  | none => .error .invalidPointer
  | some o => .ok { vm with heap := store vm.heap p { o with head := q } }

/-- The walk along `next` links from `p`, for at most `fuel` nodes: `none` when a link leads to a
cell that is not allocated or the walk does not end. -/
def walk : Nat → Heap → Ptr → Option (List Ptr)
  | 0, _, _ => none
  | fuel + 1, h, p =>
    if p = 0 then some []
    else
      match load h p with
      | none => none
      | some o => (walk fuel h o.next).map (fun l => p :: l)

/-- The arena list: the objects met walking from `firstObject` through `next` links. -/
def arenaWalk (vm : VM) : Option (List Ptr) :=
  walk (vm.heap.length + 1) vm.heap vm.firstObject

def arena (vm : VM) : List Ptr :=
  (arenaWalk vm).getD []

/-- The stack slots in use, bottom first. -/
def roots (vm : VM) : List Ptr :=
  (List.range vm.stackSize.toNat).map vm.stack

/-- The object `c` is the head or the tail of the pair `p`. -/
def Child (h : Heap) (p c : Ptr) : Prop :=
  ∃ o, load h p = some o ∧ o.type = OBJ_PAIR ∧ (c = o.head ∨ c = o.tail)

/-- The objects reachable from some stack slot in use through pair head/tail links. -/
inductive Reach (vm : VM) : Ptr → Prop where
  | root (p : Ptr) : p ∈ roots vm → Reach vm p
  | child (p c : Ptr) : Reach vm p → Child vm.heap p c → Reach vm c

/-- The arena list ends in `NULL`, has no duplicates, and `numObjects` is its length. -/
def ArenaInv (vm : VM) : Prop :=
  (arenaWalk vm).isSome ∧ (arena vm).Nodup ∧ vm.numObjects = (arena vm).length

/-- The stack size is within the capacity of the array. -/
def StackInv (vm : VM) : Prop :=
  0 ≤ vm.stackSize ∧ vm.stackSize ≤ STACK_MAX

/-- The structural part of well-formedness: the arena and stack invariants hold, and every
stack slot in use and every pair head/tail refers to an object of the arena list. -/
def Closed (vm : VM) : Prop :=
  ArenaInv vm ∧ StackInv vm ∧ (∀ p ∈ roots vm, p ∈ arena vm) ∧
    (∀ p ∈ arena vm, ∀ o ∈ load vm.heap p,
      o.type = OBJ_PAIR → o.head ∈ arena vm ∧ o.tail ∈ arena vm)

/-- Every object of the arena list has its mark clear. -/
def Unmarked (vm : VM) : Prop :=
  ∀ p ∈ arena vm, ∀ o ∈ load vm.heap p, o.marked = 0

/-- A well-formed VM state, as it is between two collections: closed, all marks clear, and
twice the object count representable in an `int` (the collector doubles the count). -/
def WellFormed (vm : VM) : Prop :=
  Closed vm ∧ Unmarked vm ∧ vm.numObjects * 2 ≤ INT_MAX

/-- The list `l` is the chain of `next` links from `p` to `NULL`. -/
def IsList (h : Heap) : Ptr → List Ptr → Prop
  | p, [] => p = 0
  | p, a :: l => p = a ∧ a ≠ 0 ∧ ∃ o, load h a = some o ∧ IsList h o.next l

/-- The objects whose mark is clear. -/
def Open (h : Heap) (p : Ptr) : Prop :=
  ∃ o, load h p = some o ∧ o.marked = 0

/-- A path of links `R` from `p` to `q` all of whose nodes satisfy `A`. -/
inductive Path (R : Ptr → Ptr → Prop) (A : Ptr → Prop) : Ptr → Ptr → Prop where
  | refl (p : Ptr) : A p → Path R A p p
  | step (p c q : Ptr) : A p → R p c → Path R A c q → Path R A p q

/-- What marking changes: the heap `h1` is `h` with the mark of the objects of `w` set, and the
objects of `w` are distinct and had their mark clear in `h`. -/
structure MarkFrame (h h1 : Heap) (w : List Ptr) : Prop where
  length_eq : h1.length = h.length
  load_eq : ∀ q, load h1 q =
    if q ∈ w then (load h q).map (fun o => { o with marked := 1 }) else load h q
  opened : ∀ q ∈ w, Open h q
  nodup : w.Nodup

/-- Every object of `S` is allocated and the head and tail of its pairs are in `S`. -/
def GraphClosed (h : Heap) (S : List Ptr) : Prop :=
  ∀ p ∈ S, ∃ o, load h p = some o ∧ (o.type = OBJ_PAIR → o.head ∈ S ∧ o.tail ∈ S)

/-- The object survives the sweep: it is allocated and its mark is set. -/
def keep (h : Heap) (a : Ptr) : Bool := markedCell (load h a)

/-- The cell whose `next` field the link is, if any, is allocated and not in the list ahead. -/
def LinkOK (vm : VM) (link : Link) (rest : List Ptr) : Prop :=
  ∀ p, link = .nextOf p → p ∉ rest ∧ ∃ o, load vm.heap p = some o

/-- What the loop of `sweep` has done when it returns, `rest` being the list ahead of the link
when it started. -/
structure SweepPost (vm : VM) (link : Link) (rest : List Ptr) (vm1 : VM) : Prop where
  list : ∃ cur, readLink vm1 link = .ok cur ∧ IsList vm1.heap cur (rest.filter (keep vm.heap))
  freed : ∀ a ∈ rest, keep vm.heap a = false → load vm1.heap a = none
  kept : ∀ a ∈ rest, ∀ o, load vm.heap a = some o → o.marked ≠ 0 →
    ∃ n, load vm1.heap a = some { o with marked := 0, next := n }
  other : ∀ a, a ∉ rest → link ≠ .nextOf a → load vm1.heap a = load vm.heap a
  linkCell : ∀ p o, link = .nextOf p → load vm.heap p = some o →
    ∃ n, load vm1.heap p = some { o with next := n }
  firstObject_eq : link ≠ .first → vm1.firstObject = vm.firstObject
  numObjects_eq : vm1.numObjects = vm.numObjects - (rest.countP (fun a => !keep vm.heap a))
  stack_eq : vm1.stack = vm.stack
  stackSize_eq : vm1.stackSize = vm.stackSize
  maxObjects_eq : vm1.maxObjects = vm.maxObjects
  length_eq : vm1.heap.length = vm.heap.length

/-- What a collection has done to a closed state whose marks were clear. -/
structure GcPost (vm vm1 : VM) (r : Report) : Prop where
  wf : WellFormed vm1
  mem_arena : ∀ p, p ∈ arena vm1 ↔ Reach vm p
  sublist : List.Sublist (arena vm1) (arena vm)
  survivor : ∀ p ∈ arena vm1, ∀ o, load vm.heap p = some o →
    ∃ n, load vm1.heap p = some { o with next := n }
  freed : ∀ p ∈ arena vm, ¬ Reach vm p → load vm1.heap p = none
  other : ∀ p, p ∉ arena vm → load vm1.heap p = load vm.heap p
  stack_eq : vm1.stack = vm.stack
  stackSize_eq : vm1.stackSize = vm.stackSize
  numObjects_eq : vm1.numObjects = (arena vm1).length
  maxObjects_eq : vm1.maxObjects =
    if vm1.numObjects = 0 then INITIAL_OBJ_MAX else vm1.numObjects * 2
  collected_eq : r.collected = vm.numObjects - vm1.numObjects
  remaining_eq : r.remaining = vm1.numObjects

/-- One call of the interface that returns: `push`, `pop`, `pushInt`, `pushPair` or `gc`. -/
inductive Step : VM → VM → Prop where
  | push (vm vm1 : VM) (value : Ptr) : push vm value = .ok vm1 → Step vm vm1
  | pop (vm vm1 : VM) (p : Ptr) : pop vm = .ok (vm1, p) → Step vm vm1
  | pushInt (malloc : Heap → Ptr) (vm vm1 : VM) (intValue : Int) :
      MallocOK malloc → pushInt malloc vm intValue = .ok vm1 → Step vm vm1
  | pushPair (malloc : Heap → Ptr) (vm vm1 : VM) (p : Ptr) :
      MallocOK malloc → pushPair malloc vm = .ok (vm1, p) → Step vm vm1
  | gc (vm vm1 : VM) (r : Report) : gc vm = .ok (vm1, r) → Step vm vm1

/-- The states reached from `newVM` by a sequence of calls that return. -/
inductive Reachable : VM → Prop where
  | init : Reachable newVM
  | step (vm vm1 : VM) : Reachable vm → Step vm vm1 → Reachable vm1

/-- Pushing the values of a list, first to last. -/
def pushAll : VM → List Ptr → Except Fault VM
  | vm, [] => .ok vm
  | vm, v :: vs =>
    match push vm v with
    | .error e => .error e
    | .ok vm1 => pushAll vm1 vs

/-- The body of `test1` up to its call of `gc`. -/
def test1State (malloc : Heap → Ptr) : Except Fault VM := do
  let vm := newVM
  let vm ← pushInt malloc vm 1
  let vm ← pushInt malloc vm 2
  pure vm

/-- The body of `test3` up to its call of `gc`. -/
def test3State (malloc : Heap → Ptr) : Except Fault VM := do
  let vm := newVM
  let vm ← pushInt malloc vm 1
  let vm ← pushInt malloc vm 2
  let (vm, _) ← pushPair malloc vm
  let vm ← pushInt malloc vm 3
  let vm ← pushInt malloc vm 4
  let (vm, _) ← pushPair malloc vm
  let (vm, _) ← pushPair malloc vm
  pure vm

/-- The body of `test4` up to its call of `gc`. -/
def test4State (malloc : Heap → Ptr) : Except Fault VM := do
  let vm := newVM
  let vm ← pushInt malloc vm 1
  let vm ← pushInt malloc vm 2
  let (vm, a) ← pushPair malloc vm
  let vm ← pushInt malloc vm 3
  let vm ← pushInt malloc vm 4
  let (vm, b) ← pushPair malloc vm
  let vm ← setTail vm a b
  let vm ← setTail vm b a
  pure vm

/-- A pair whose head and tail are the pair itself, on the stack. -/
def selfPairState (malloc : Heap → Ptr) : Except Fault VM := do
  let vm := newVM
  let vm ← pushInt malloc vm 1
  let vm ← pushInt malloc vm 2
  let (vm, a) ← pushPair malloc vm
  let vm ← setHead vm a a
  let vm ← setTail vm a a
  pure vm

/-- One integer pushed on a fresh VM. -/
def oneIntState (malloc : Heap → Ptr) : Except Fault VM :=
  pushInt malloc newVM 1

/-- The state a run ends in; the fresh VM when it faults. -/
def stateOf (x : Except Fault VM) : VM :=
  match x with
  | .ok vm => vm
  | .error _ => newVM

/-- The state after a collection; the fresh VM when it faults. -/
def collected (vm : VM) : VM :=
  match gc vm with
  | .ok (vm1, _) => vm1
  | .error _ => newVM

instance decArenaInv (vm : VM) : Decidable (ArenaInv vm) := by
  unfold ArenaInv; infer_instance

instance decStackInv (vm : VM) : Decidable (StackInv vm) := by
  unfold StackInv; infer_instance

instance decClosed (vm : VM) : Decidable (Closed vm) := by
  unfold Closed; infer_instance

instance decUnmarked (vm : VM) : Decidable (Unmarked vm) := by
  unfold Unmarked; infer_instance

instance decWellFormed (vm : VM) : Decidable (WellFormed vm) := by
  unfold WellFormed; infer_instance

/-- The invariant of the states reachable through the interface. -/
def Inv (vm : VM) : Prop :=
  ArenaInv vm ∧ StackInv vm ∧ 2 ≤ vm.maxObjects ∧ vm.numObjects ≤ vm.maxObjects

/-- The body of `test1` with its call of `gc`. -/
def test1Run (malloc : Heap → Ptr) : Except Fault (VM × Report) :=
  match test1State malloc with
  | .error e => .error e
  | .ok vm => gc vm

/-- The body of `test3` with its call of `gc`. -/
def test3Run (malloc : Heap → Ptr) : Except Fault (VM × Report) :=
  match test3State malloc with
  | .error e => .error e
  | .ok vm => gc vm

/-- The body of `test4` with its call of `gc`. -/
def test4Run (malloc : Heap → Ptr) : Except Fault (VM × Report) :=
  match test4State malloc with
  | .error e => .error e
  | .ok vm => gc vm

/-- A description of a state: the objects of the arena list with their contents, newest first,
and the stack slots in use, bottom first. -/
structure Shape (vm : VM) (C : List (Ptr × Object)) (S : List Ptr) : Prop where
  inv : ArenaInv vm
  arena_eq : arena vm = C.map Prod.fst
  loads : ∀ e ∈ C, load vm.heap e.1 = some e.2
  roots_eq : roots vm = S
  size_eq : vm.stackSize = S.length

/-- The pair that is its own head and tail, collected. -/
def selfPairRun (malloc : Heap → Ptr) : Except Fault (VM × Report) :=
  match selfPairState malloc with
  | .error e => .error e
  | .ok vm => gc vm

/-- The function `freeVM`: the state in which the VM is released (`free(vm)` ends its life) and
what its call of `gc` printed. -/
def freeVM (vm : VM) : Except Fault (VM × Report) :=
  gc { vm with stackSize := 0 }

/-- The body of `test2` up to its call of `gc`. -/
def test2State (malloc : Heap → Ptr) : Except Fault VM := do
  let vm := newVM
  let vm ← pushInt malloc vm 1
  let vm ← pushInt malloc vm 2
  let (vm, _) ← pop vm
  let (vm, _) ← pop vm
  pure vm

/-- The body of `test2` with its call of `gc`. -/
def test2Run (malloc : Heap → Ptr) : Except Fault (VM × Report) :=
  match test2State malloc with
  | .error e => .error e
  | .ok vm => gc vm

/-- The state after `markAll`; the fresh VM when it faults. -/
def markedState (vm : VM) : VM :=
  stateOf (markAll vm)

/-- The first line of `newObject`: `vm0` is the state in which the new object is allocated,
the state on entry when `numObjects` differs from `maxObjects` and the state `gc` leaves
otherwise. -/
def BeforeAlloc (vm vm0 : VM) : Prop :=
  (vm.numObjects ≠ vm.maxObjects ∧ vm0 = vm) ∨
    (vm.numObjects = vm.maxObjects ∧ ∃ r, gc vm = .ok (vm0, r))

/-- The state `vm6` is `vm0` with a new object `o` at the fresh address `p`, linked at the head
of the arena list, counted, and stored in stack slot `k`, the stack size being `k + 1`. -/
structure Pushed (vm0 vm6 : VM) (p : Ptr) (o : Object) (k : Int) : Prop where
  loads : ∀ q, load vm6.heap q = if q = p then some o else load vm0.heap q
  firstObject_eq : vm6.firstObject = p
  numObjects_eq : vm6.numObjects = vm0.numObjects + 1
  maxObjects_eq : vm6.maxObjects = vm0.maxObjects
  stack_eq : vm6.stack = Function.update vm0.stack k.toNat p
  stackSize_eq : vm6.stackSize = k + 1

/-- Calling `pushInt` for each value of a list, first to last. -/
def pushInts (malloc : Heap → Ptr) : VM → List Int → Except Fault VM
  | vm, [] => .ok vm
  | vm, n :: ns =>
    match pushInt malloc vm n with
    | .error e => .error e
    | .ok vm1 => pushInts malloc vm1 ns

/-- Eight integers pushed on a fresh VM and two of them popped: `numObjects` has reached
`maxObjects` and two objects are garbage. -/
def fullState (malloc : Heap → Ptr) : Except Fault VM := do
  let vm ← pushInts malloc newVM [1, 2, 3, 4, 5, 6, 7, 8]
  let (vm, _) ← pop vm
  let (vm, _) ← pop vm
  pure vm

/-- One call of the interface that returns, or one assignment by the caller to the head or the
tail of an allocated object; a reference handed to `push` or assigned to a head or tail is an
object of the arena list. -/
inductive Op : VM → VM → Prop where
  | push (vm vm1 : VM) (value : Ptr) : value ∈ arena vm → push vm value = .ok vm1 → Op vm vm1
  | pop (vm vm1 : VM) (p : Ptr) : pop vm = .ok (vm1, p) → Op vm vm1
  | pushInt (malloc : Heap → Ptr) (vm vm1 : VM) (intValue : Int) :
      MallocOK malloc → pushInt malloc vm intValue = .ok vm1 → Op vm vm1
  | pushPair (malloc : Heap → Ptr) (vm vm1 : VM) (p : Ptr) :
      MallocOK malloc → pushPair malloc vm = .ok (vm1, p) → Op vm vm1
  | gc (vm vm1 : VM) (r : Report) : gc vm = .ok (vm1, r) → Op vm vm1
  | setHead (vm vm1 : VM) (p q : Ptr) : q ∈ arena vm → setHead vm p q = .ok vm1 → Op vm vm1
  | setTail (vm vm1 : VM) (p q : Ptr) : q ∈ arena vm → setTail vm p q = .ok vm1 → Op vm vm1

/-- The states reached from `newVM` by a sequence of such steps. -/
inductive Attainable : VM → Prop where
  | init : Attainable newVM
  | step (vm vm1 : VM) : Attainable vm → Op vm vm1 → Attainable vm1

/-! ## The heap, marking and sweeping -/

theorem load_zero (h : Heap) : load h 0 = none := by simp [load]

theorem load_some_ne_zero {h : Heap} {p : Nat} {o : Object} (hl : load h p = some o) : p ≠ 0 := by
  intro hp; subst hp; simp [load] at hl

theorem load_some_lt {h : Heap} {p : Nat} {o : Object} (hl : load h p = some o) :
    p < h.length := by
  by_contra hge
  have : h[p]? = none := List.getElem?_eq_none (by omega)
  simp [load, this] at hl

theorem load_some_getElem {h : Heap} {p : Nat} {o : Object} (hl : load h p = some o) :
    h[p]? = some (some o) := by
  unfold load at hl
  split at hl
  · simp at hl
  · cases hc : h[p]? with
    | none => simp [hc] at hl
    | some c => simp [hc] at hl; simp [hl]

theorem load_store {h : Heap} {p : Nat} {o0 : Object} (hl : load h p = some o0) (o : Object)
    (q : Nat) : load (store h p o) q = if q = p then some o else load h q := by
  have hp0 := load_some_ne_zero hl
  have hlt := load_some_lt hl
  unfold load store
  by_cases hq : q = p
  · subst hq; simp [hp0, hlt]
  · have : p ≠ q := fun e => hq e.symm
    simp [hq, List.getElem?_set_ne this]

theorem load_free (h : Heap) (p q : Nat) :
    load (free h p) q = if q = p then none else load h q := by
  unfold load free
  by_cases hq : q = p
  · subst hq
    by_cases h0 : q = 0
    · simp [h0]
    · simp only [h0, if_false, if_true]
      by_cases hlt : q < h.length
      · simp [hlt]
      · rw [List.getElem?_eq_none (by simp only [List.length_set]; omega)]; rfl
  · have : p ≠ q := fun e => hq e.symm
    simp [hq, List.getElem?_set_ne this]

theorem load_alloc (h : Heap) {p : Nat} (hp : p ≠ 0) (o : Object) (q : Nat) :
    load (alloc h p o) q = if q = p then some o else load h q := by
  unfold load alloc
  by_cases hq : q = p
  · subst hq
    have : q < (h ++ List.replicate (q + 1 - h.length) none).length := by
      simp only [List.length_append, List.length_replicate]; omega
    simp only [hp, if_false, if_true]
    rw [List.getElem?_set_self this]; rfl
  · have hne : p ≠ q := fun e => hq e.symm
    simp only [hq, if_false]
    rw [List.getElem?_set_ne hne]
    by_cases h0 : q = 0
    · simp [h0]
    · simp only [h0, if_false]
      by_cases hlt : q < h.length
      · rw [List.getElem?_append_left hlt]
      · rw [List.getElem?_append_right (by omega)]
        rw [List.getElem?_eq_none (by omega : h.length ≤ q)]
        cases hc : (List.replicate (p + 1 - h.length) (none : Option Object))[q - h.length]? with
        | none => rfl
        | some c =>
          have := List.getElem?_mem hc
          rw [List.mem_replicate] at this
          rw [this.2]; rfl

theorem length_store (h : Heap) (p : Nat) (o : Object) : (store h p o).length = h.length := by
  simp [store]

theorem length_free (h : Heap) (p : Nat) : (free h p).length = h.length := by
  simp [free]

theorem unmarkedCount_store_mark {h : Heap} {p : Nat} {o : Object} (hl : load h p = some o)
    (hm : o.marked = 0) :
    unmarkedCount (store h p { o with marked := 1 }) + 1 = unmarkedCount h := by
  have hlt := load_some_lt hl
  have hg := load_some_getElem hl
  have hget : h[p] = some o := by
    rw [List.getElem?_eq_getElem hlt] at hg
    exact Option.some.inj hg
  unfold unmarkedCount store
  rw [List.countP_set _ _ _ _ hlt]
  have := List.boole_getElem_le_countP unmarkedCell h p hlt
  simp only [hget, hm, unmarkedCell, decide_True, decide_False, if_true, Nat.add_zero,
    one_ne_zero, Bool.false_eq_true, if_false] at this ⊢
  omega

theorem MarkFrame.refl (h : Heap) : MarkFrame h h [] :=
  ⟨rfl, fun q => by simp, fun q hq => by simp at hq, List.nodup_nil⟩

theorem MarkFrame.single {h : Heap} {p : Nat} {o : Object} (hl : load h p = some o)
    (hm : o.marked = 0) : MarkFrame h (store h p { o with marked := 1 }) [p] := by
  refine ⟨length_store _ _ _, fun q => ?_, fun q hq => ?_, List.nodup_singleton p⟩
  · rw [load_store hl]
    by_cases hq : q = p
    · subst hq; simp [hl]
    · simp [hq]
  · simp at hq; subst hq; exact ⟨o, hl, hm⟩

theorem MarkFrame.not_mem_of_open {h h1 : Heap} {w : List Ptr} (hf : MarkFrame h h1 w)
    {q : Nat} (ho : Open h1 q) : q ∉ w := by
  intro hq
  obtain ⟨o, hl, hm⟩ := ho
  rw [hf.load_eq q, if_pos hq] at hl
  cases hc : load h q with
  | none => simp [hc] at hl
  | some o0 =>
    simp [hc] at hl
    subst hl
    simp at hm

theorem MarkFrame.open_iff {h h1 : Heap} {w : List Ptr} (hf : MarkFrame h h1 w) (q : Nat) :
    Open h1 q ↔ Open h q ∧ q ∉ w := by
  constructor
  · intro ho
    have hq := hf.not_mem_of_open ho
    obtain ⟨o, hl, hm⟩ := ho
    rw [hf.load_eq q, if_neg hq] at hl
    exact ⟨⟨o, hl, hm⟩, hq⟩
  · rintro ⟨⟨o, hl, hm⟩, hq⟩
    refine ⟨o, ?_, hm⟩
    rw [hf.load_eq q, if_neg hq]; exact hl

theorem MarkFrame.append {h h1 h2 : Heap} {w1 w2 : List Ptr} (h01 : MarkFrame h h1 w1)
    (h12 : MarkFrame h1 h2 w2) : MarkFrame h h2 (w1 ++ w2) := by
  have hdisj : ∀ q ∈ w2, q ∉ w1 := fun q hq => h01.not_mem_of_open (h12.opened q hq)
  refine ⟨h12.length_eq.trans h01.length_eq, fun q => ?_, fun q hq => ?_, ?_⟩
  · rw [h12.load_eq q, h01.load_eq q]
    by_cases hq2 : q ∈ w2
    · have hq1 := hdisj q hq2
      simp [hq1, hq2]
    · by_cases hq1 : q ∈ w1 <;> simp [hq1, hq2]
  · rcases List.mem_append.1 hq with hq1 | hq2
    · exact h01.opened q hq1
    · exact ((h01.open_iff q).1 (h12.opened q hq2)).1
  · refine List.Nodup.append h01.nodup h12.nodup ?_
    intro q hq1 hq2
    exact hdisj q hq2 hq1

theorem markAux_frame : ∀ (fuel : Nat) (h : Heap) (p : Nat) (h1 : Heap) (w : List Ptr),
    markAux fuel h p = .ok (h1, w) → MarkFrame h h1 w := by
  intro fuel
  induction fuel with
  | zero => intro h p h1 w hm; simp [markAux] at hm
  | succ fuel ih =>
    intro h p h1 w hm
    simp only [markAux] at hm
    split at hm
    · simp at hm
    · rename_i o hl
      split at hm
      · simp only [Except.ok.injEq, Prod.mk.injEq] at hm
        obtain ⟨rfl, rfl⟩ := hm
        exact MarkFrame.refl h
      · rename_i hmk
        have hmk0 : o.marked = 0 := by simpa using hmk
        have hs := MarkFrame.single hl hmk0
        split at hm
        · split at hm
          · simp at hm
          · rename_i ha h2 w1 e1
            split at hm
            · simp at hm
            · rename_i hb h3 w2 e2
              simp only [Except.ok.injEq, Prod.mk.injEq] at hm
              obtain ⟨rfl, rfl⟩ := hm
              have f1 := ih _ _ _ _ e1
              have f2 := ih _ _ _ _ e2
              exact hs.append (f1.append f2)
        · simp only [Except.ok.injEq, Prod.mk.injEq] at hm
          obtain ⟨rfl, rfl⟩ := hm
          exact hs

theorem markAux_unmarkedCount : ∀ (fuel : Nat) (h : Heap) (p : Nat) (h1 : Heap) (w : List Ptr),
    markAux fuel h p = .ok (h1, w) → unmarkedCount h1 + w.length = unmarkedCount h := by
  intro fuel
  induction fuel with
  | zero => intro h p h1 w hm; simp [markAux] at hm
  | succ fuel ih =>
    intro h p h1 w hm
    simp only [markAux] at hm
    split at hm
    · simp at hm
    · rename_i o hl
      split at hm
      · simp only [Except.ok.injEq, Prod.mk.injEq] at hm
        obtain ⟨rfl, rfl⟩ := hm
        simp
      · rename_i hmk
        have hmk0 : o.marked = 0 := by simpa using hmk
        have hs := unmarkedCount_store_mark hl hmk0
        split at hm
        · split at hm
          · simp at hm
          · rename_i ha h2 w1 e1
            split at hm
            · simp at hm
            · rename_i hb h3 w2 e2
              simp only [Except.ok.injEq, Prod.mk.injEq] at hm
              obtain ⟨rfl, rfl⟩ := hm
              have f1 := ih _ _ _ _ e1
              have f2 := ih _ _ _ _ e2
              simp only [List.length_cons, List.length_append]
              omega
        · simp only [Except.ok.injEq, Prod.mk.injEq] at hm
          obtain ⟨rfl, rfl⟩ := hm
          simp only [List.length_singleton]
          omega

theorem markAux_ne_outOfFuel : ∀ (fuel : Nat) (h : Heap) (p : Nat),
    unmarkedCount h < fuel → markAux fuel h p ≠ .error .outOfFuel := by
  intro fuel
  induction fuel with
  | zero => intro h p hlt; omega
  | succ fuel ih =>
    intro h p hlt
    simp only [markAux]
    split
    · simp
    · rename_i o hl
      split
      · simp
      · rename_i hmk
        have hmk0 : o.marked = 0 := by simpa using hmk
        have hs := unmarkedCount_store_mark hl hmk0
        split
        · have i1 := ih (store h p { o with marked := 1 }) o.head (by omega)
          split
          · rename_i e e1
            intro he
            simp only [Except.error.injEq] at he
            subst he
            exact i1 e1
          · rename_i ha h2 w1 e1
            have c1 := markAux_unmarkedCount _ _ _ _ _ e1
            have i2 := ih h2 o.tail (by omega)
            split
            · rename_i e e2
              intro he
              simp only [Except.error.injEq] at he
              subst he
              exact i2 e2
            · simp
        · simp

theorem mark_ne_outOfFuel (h : Heap) (p : Nat) : mark h p ≠ .error .outOfFuel :=
  markAux_ne_outOfFuel _ h p (Nat.lt_succ_self _)

theorem Path.mono {R : Ptr → Ptr → Prop} {A B : Ptr → Prop} (hAB : ∀ x, A x → B x)
    {p q : Ptr} (hp : Path R A p q) : Path R B p q := by
  induction hp with
  | refl p ha => exact Path.refl p (hAB p ha)
  | step p c q ha hr _ ih => exact Path.step p c q (hAB p ha) hr ih

theorem Path.source {R : Ptr → Ptr → Prop} {A : Ptr → Prop} {p q : Ptr}
    (hp : Path R A p q) : A p := by
  cases hp with
  | refl _ ha => exact ha
  | step _ c _ ha _ _ => exact ha

theorem Path.target {R : Ptr → Ptr → Prop} {A : Ptr → Prop} {p q : Ptr}
    (hp : Path R A p q) : A q := by
  induction hp with
  | refl p ha => exact ha
  | step p c q _ _ _ ih => exact ih

theorem Path.trans {R : Ptr → Ptr → Prop} {A : Ptr → Prop} {p x q : Ptr}
    (h1 : Path R A p x) (h2 : Path R A x q) : Path R A p q := by
  induction h1 with
  | refl p _ => exact h2
  | step p c x ha hr _ ih => exact Path.step p c q ha hr (ih h2)

theorem Path.avoid {R : Ptr → Ptr → Prop} {A : Ptr → Prop} (p : Ptr) {x q : Ptr}
    (hx : Path R A x q) :
    Path R (fun y => A y ∧ y ≠ p) x q ∨
      (q = p ∨ ∃ c, R p c ∧ Path R (fun y => A y ∧ y ≠ p) c q) := by
  induction hx with
  | refl x ha =>
    by_cases hxp : x = p
    · exact Or.inr (Or.inl hxp)
    · exact Or.inl (Path.refl x ⟨ha, hxp⟩)
  | step x c q ha hr _ ih =>
    rcases ih with ih | ih
    · by_cases hxp : x = p
      · subst hxp
        exact Or.inr (Or.inr ⟨c, hr, ih⟩)
      · exact Or.inl (Path.step x c q ⟨ha, hxp⟩ hr ih)
    · exact Or.inr ih

theorem Path.decomp {R : Ptr → Ptr → Prop} {A : Ptr → Prop} {p q : Ptr}
    (hp : Path R A p q) : q = p ∨ ∃ c, R p c ∧ Path R (fun y => A y ∧ y ≠ p) c q := by
  rcases Path.avoid p hp with h | h
  · exact absurd rfl h.source.2
  · exact h

theorem Path.closed {R : Ptr → Ptr → Prop} {A C : Ptr → Prop}
    (hC : ∀ x q, C x → Path R A x q → C q) {x q : Ptr} (hx : Path R A x q) :
    Path R (fun y => A y ∧ ¬ C y) x q ∨ C q := by
  induction hx with
  | refl x ha =>
    by_cases hc : C x
    · exact Or.inr hc
    · exact Or.inl (Path.refl x ⟨ha, hc⟩)
  | step x c q ha hr hcq ih =>
    rcases ih with ih | ih
    · by_cases hc : C x
      · exact Or.inr (hC x q hc (Path.step x c q ha hr hcq))
      · exact Or.inl (Path.step x c q ⟨ha, hc⟩ hr ih)
    · exact Or.inr ih

theorem Path.congr_rel {R S : Ptr → Ptr → Prop} {A : Ptr → Prop} (hRS : ∀ x y, R x y → S x y)
    {p q : Ptr} (hp : Path R A p q) : Path S A p q := by
  induction hp with
  | refl p ha => exact Path.refl p ha
  | step p c q ha hr _ ih => exact Path.step p c q ha (hRS p c hr) ih

theorem MarkFrame.child_iff {h h1 : Heap} {w : List Ptr} (hf : MarkFrame h h1 w) (p c : Nat) :
    Child h1 p c ↔ Child h p c := by
  unfold Child
  rw [hf.load_eq p]
  by_cases hp : p ∈ w
  · simp only [hp, if_true]
    constructor
    · rintro ⟨o, hl, ht, hc⟩
      cases hc0 : load h p with
      | none => simp [hc0] at hl
      | some o0 =>
        simp [hc0] at hl
        subst hl
        exact ⟨o0, rfl, ht, hc⟩
    · rintro ⟨o, hl, ht, hc⟩
      exact ⟨{ o with marked := 1 }, by simp [hl], ht, hc⟩
  · simp only [hp, if_false]

theorem MarkFrame.path_iff {h h1 : Heap} {w : List Ptr} (hf : MarkFrame h h1 w) (p q : Nat) :
    Path (Child h1) (Open h1) p q ↔ Path (Child h) (fun y => Open h y ∧ y ∉ w) p q := by
  constructor
  · intro hp
    exact (hp.congr_rel (fun x y => (hf.child_iff x y).1)).mono (fun x => (hf.open_iff x).1)
  · intro hp
    exact (hp.congr_rel (fun x y => (hf.child_iff x y).2)).mono (fun x => (hf.open_iff x).2)

theorem markAux_spec : ∀ (fuel : Nat) (h : Heap) (p : Nat) (h1 : Heap) (w : List Ptr),
    markAux fuel h p = .ok (h1, w) → ∀ q, q ∈ w ↔ Path (Child h) (Open h) p q := by
  intro fuel
  induction fuel with
  | zero => intro h p h1 w hm; simp [markAux] at hm
  | succ fuel ih =>
    intro h p h1 w hm q
    simp only [markAux] at hm
    split at hm
    · simp at hm
    · rename_i o hl
      split at hm
      · rename_i hmk
        simp only [Except.ok.injEq, Prod.mk.injEq] at hm
        obtain ⟨rfl, rfl⟩ := hm
        simp only [List.not_mem_nil, false_iff]
        intro hp
        obtain ⟨o1, hl1, hm1⟩ := hp.source
        rw [hl] at hl1
        cases hl1
        exact hmk hm1
      · rename_i hmk
        have hmk0 : o.marked = 0 := by simpa using hmk
        have hs := MarkFrame.single hl hmk0
        have hopen : Open h p := ⟨o, hl, hmk0⟩
        split at hm
        · rename_i hty
          split at hm
          · simp at hm
          · rename_i ha h2 w1 e1
            split at hm
            · simp at hm
            · rename_i hb h3 w2 e2
              simp only [Except.ok.injEq, Prod.mk.injEq] at hm
              obtain ⟨rfl, rfl⟩ := hm
              have f1 := markAux_frame _ _ _ _ _ e1
              have s1 := ih _ _ _ _ e1
              have s2 := ih _ _ _ _ e2
              have f01 := hs.append f1
              constructor
              · intro hq
                rcases List.mem_cons.1 hq with rfl | hq
                · exact Path.refl _ hopen
                · rcases List.mem_append.1 hq with hq | hq
                  · have := (hs.path_iff _ _).1 ((s1 q).1 hq)
                    exact Path.step p o.head q hopen ⟨o, hl, hty, Or.inl rfl⟩
                      (this.mono (fun x hx => hx.1))
                  · have := (f01.path_iff _ _).1 ((s2 q).1 hq)
                    exact Path.step p o.tail q hopen ⟨o, hl, hty, Or.inr rfl⟩
                      (this.mono (fun x hx => hx.1))
              · intro hp
                rcases hp.decomp with rfl | ⟨c, hc, hcq⟩
                · exact List.mem_cons_self _ _
                · refine List.mem_cons_of_mem _ (List.mem_append.2 ?_)
                  have hcq1 : Path (Child h) (fun y => Open h y ∧ y ∉ [p]) c q :=
                    hcq.mono (fun x hx => ⟨hx.1, by simpa using hx.2⟩)
                  obtain ⟨o1, hl1, _, hc1⟩ := hc
                  rw [hl] at hl1
                  cases hl1
                  rcases hc1 with rfl | rfl
                  · exact Or.inl ((s1 q).2 ((hs.path_iff _ _).2 hcq1))
                  · have hclosed : ∀ x y, x ∈ w1 →
                        Path (Child h) (fun y => Open h y ∧ y ∉ [p]) x y → y ∈ w1 := by
                      intro x y hx hxy
                      have h1x := (hs.path_iff _ _).1 ((s1 x).1 hx)
                      exact (s1 y).2 ((hs.path_iff _ _).2 (h1x.trans hxy))
                    rcases Path.closed (C := fun y => y ∈ w1) hclosed hcq1 with hh | hh
                    · refine Or.inr ((s2 q).2 ((f01.path_iff _ _).2 (hh.mono ?_)))
                      intro x hx
                      refine ⟨hx.1.1, ?_⟩
                      intro hmem
                      rcases List.mem_append.1 hmem with hm1 | hm2
                      · exact hx.1.2 hm1
                      · exact hx.2 hm2
                    · exact Or.inl hh
        · rename_i hty
          simp only [Except.ok.injEq, Prod.mk.injEq] at hm
          obtain ⟨rfl, rfl⟩ := hm
          simp only [List.mem_singleton]
          constructor
          · rintro rfl
            exact Path.refl _ hopen
          · intro hp
            rcases hp.decomp with rfl | ⟨c, hc, _⟩
            · rfl
            · obtain ⟨o1, hl1, ht1, _⟩ := hc
              rw [hl] at hl1
              cases hl1
              exact absurd ht1 hty

theorem MarkFrame.graphClosed {h h1 : Heap} {w : List Ptr} (hf : MarkFrame h h1 w)
    {S : List Ptr} (hc : GraphClosed h S) : GraphClosed h1 S := by
  intro p hp
  obtain ⟨o, hl, hch⟩ := hc p hp
  rw [hf.load_eq p]
  by_cases hw : p ∈ w
  · exact ⟨{ o with marked := 1 }, by simp [hw, hl], hch⟩
  · exact ⟨o, by simp [hw, hl], hch⟩

theorem markAux_ok {S : List Ptr} : ∀ (fuel : Nat) (h : Heap) (p : Nat),
    unmarkedCount h < fuel → GraphClosed h S → p ∈ S →
    ∃ h1 w, markAux fuel h p = .ok (h1, w) := by
  intro fuel
  induction fuel with
  | zero => intro h p hlt; omega
  | succ fuel ih =>
    intro h p hlt hc hp
    obtain ⟨o, hl, hch⟩ := hc p hp
    simp only [markAux, hl]
    by_cases hmk : o.marked ≠ 0
    · simp [hmk]
    · have hmk0 : o.marked = 0 := by simpa using hmk
      have hs := MarkFrame.single hl hmk0
      have hcnt := unmarkedCount_store_mark hl hmk0
      simp only [hmk, if_false]
      by_cases hty : o.type = OBJ_PAIR
      · rw [if_pos hty]
        obtain ⟨h2, w1, e1⟩ := ih _ o.head (by omega) (hs.graphClosed hc) (hch hty).1
        have f1 := markAux_frame _ _ _ _ _ e1
        have c1 := markAux_unmarkedCount _ _ _ _ _ e1
        obtain ⟨h3, w2, e2⟩ := ih h2 o.tail (by omega) (f1.graphClosed (hs.graphClosed hc))
          (hch hty).2
        simp [e1, e2]
      · simp [hty]

theorem mark_ok {S : List Ptr} {h : Heap} {p : Nat} (hc : GraphClosed h S) (hp : p ∈ S) :
    ∃ h1 w, mark h p = .ok (h1, w) :=
  markAux_ok _ h p (Nat.lt_succ_self _) hc hp

theorem markAllLoop_frame (stack : Nat → Ptr) : ∀ (n i : Nat) (h h1 : Heap) (w : List Ptr),
    markAllLoop stack n i h = .ok (h1, w) → MarkFrame h h1 w := by
  intro n
  induction n with
  | zero =>
    intro i h h1 w hm
    simp only [markAllLoop, Except.ok.injEq, Prod.mk.injEq] at hm
    obtain ⟨rfl, rfl⟩ := hm
    exact MarkFrame.refl h
  | succ n ih =>
    intro i h h1 w hm
    simp only [markAllLoop] at hm
    split at hm
    · simp at hm
    · split at hm
      · simp at hm
      · rename_i h2 w1 e1
        split at hm
        · simp at hm
        · rename_i h3 w2 e2
          simp only [Except.ok.injEq, Prod.mk.injEq] at hm
          obtain ⟨rfl, rfl⟩ := hm
          exact (markAux_frame _ _ _ _ _ e1).append (ih _ _ _ _ e2)

theorem markAllLoop_spec (stack : Nat → Ptr) : ∀ (n i : Nat) (h h1 : Heap) (w : List Ptr),
    markAllLoop stack n i h = .ok (h1, w) →
    ∀ q, q ∈ w ↔ ∃ j, i ≤ j ∧ j < i + n ∧ Path (Child h) (Open h) (stack j) q := by
  intro n
  induction n with
  | zero =>
    intro i h h1 w hm q
    simp only [markAllLoop, Except.ok.injEq, Prod.mk.injEq] at hm
    obtain ⟨rfl, rfl⟩ := hm
    simp only [List.not_mem_nil, false_iff]
    rintro ⟨j, h1, h2, _⟩
    omega
  | succ n ih =>
    intro i h h1 w hm q
    simp only [markAllLoop] at hm
    split at hm
    · simp at hm
    · split at hm
      · simp at hm
      · rename_i h2 w1 e1
        split at hm
        · simp at hm
        · rename_i h3 w2 e2
          simp only [Except.ok.injEq, Prod.mk.injEq] at hm
          obtain ⟨rfl, rfl⟩ := hm
          have f1 := markAux_frame _ _ _ _ _ e1
          have s1 := markAux_spec _ _ _ _ _ e1
          have s2 := ih _ _ _ _ e2
          constructor
          · intro hq
            rcases List.mem_append.1 hq with hq | hq
            · exact ⟨i, le_refl _, by omega, (s1 q).1 hq⟩
            · obtain ⟨j, hj1, hj2, hp⟩ := (s2 q).1 hq
              exact ⟨j, by omega, by omega, ((f1.path_iff _ _).1 hp).mono (fun x hx => hx.1)⟩
          · rintro ⟨j, hj1, hj2, hp⟩
            by_cases hji : j = i
            · subst hji
              exact List.mem_append.2 (Or.inl ((s1 q).2 hp))
            · have hclosed : ∀ x y, x ∈ w1 → Path (Child h) (Open h) x y → y ∈ w1 := by
                intro x y hx hxy
                exact (s1 y).2 (((s1 x).1 hx).trans hxy)
              rcases Path.closed (C := fun y => y ∈ w1) hclosed hp with hh | hh
              · exact List.mem_append.2 (Or.inr ((s2 q).2
                  ⟨j, by omega, by omega, (f1.path_iff _ _).2 hh⟩))
              · exact List.mem_append.2 (Or.inl hh)

theorem markAllLoop_ok (stack : Nat → Ptr) {S : List Ptr} : ∀ (n i : Nat) (h : Heap),
    GraphClosed h S → (∀ j, i ≤ j → j < i + n → stack j ∈ S) → i + n ≤ 256 →
    ∃ h1 w, markAllLoop stack n i h = .ok (h1, w) := by
  intro n
  induction n with
  | zero => intro i h _ _ _; exact ⟨h, [], rfl⟩
  | succ n ih =>
    intro i h hc hs hb
    simp only [markAllLoop]
    have hi : ¬ ((STACK_MAX : Int) ≤ (i : Int)) := by
      simp only [STACK_MAX]; omega
    simp only [hi, if_false]
    obtain ⟨h2, w1, e1⟩ := mark_ok hc (hs i (le_refl _) (by omega))
    have f1 := markAux_frame _ _ _ _ _ e1
    obtain ⟨h3, w2, e2⟩ := ih (i + 1) h2 (f1.graphClosed hc)
      (fun j hj1 hj2 => hs j (by omega) (by omega)) (by omega)
    simp [e1, e2]

theorem mem_roots {vm : VM} {p : Nat} :
    p ∈ roots vm ↔ ∃ j, j < vm.stackSize.toNat ∧ vm.stack j = p := by
  simp [roots]

theorem reach_iff_path (vm : VM) (q : Nat) :
    Reach vm q ↔ ∃ r ∈ roots vm, Path (Child vm.heap) (fun _ => True) r q := by
  constructor
  · intro hr
    induction hr with
    | root p hp => exact ⟨p, hp, Path.refl p trivial⟩
    | child p c _ hc ih =>
      obtain ⟨r, hr, hp⟩ := ih
      exact ⟨r, hr, hp.trans (Path.step p c c trivial hc (Path.refl c trivial))⟩
  · rintro ⟨r, hr, hp⟩
    have hreach : Reach vm r := Reach.root r hr
    clear hr
    induction hp with
    | refl p _ => exact hreach
    | step p c q _ hc _ ih => exact ih (Reach.child p c hreach hc)

theorem Path.of_graphClosed {h : Heap} {S : List Ptr} (hc : GraphClosed h S)
    (hopen : ∀ p ∈ S, Open h p) {r q : Nat} (hr : r ∈ S)
    (hp : Path (Child h) (fun _ => True) r q) : Path (Child h) (Open h) r q ∧ q ∈ S := by
  induction hp with
  | refl p _ => exact ⟨Path.refl p (hopen p hr), hr⟩
  | step p c q _ hch _ ih =>
    obtain ⟨o, hl, hty, hcc⟩ := hch
    obtain ⟨o1, hl1, hch1⟩ := hc p hr
    rw [hl] at hl1
    cases hl1
    have hcS : c ∈ S := by
      rcases hcc with rfl | rfl
      · exact (hch1 hty).1
      · exact (hch1 hty).2
    have := ih hcS
    exact ⟨Path.step p c q (hopen p hr) ⟨o, hl, hty, hcc⟩ this.1, this.2⟩

theorem walk_isList : ∀ (fuel : Nat) (h : Heap) (p : Nat) (l : List Ptr),
    walk fuel h p = some l → IsList h p l := by
  intro fuel
  induction fuel with
  | zero => intro h p l hw; simp [walk] at hw
  | succ fuel ih =>
    intro h p l hw
    simp only [walk] at hw
    split at hw
    · rename_i hp
      simp only [Option.some.injEq] at hw
      subst hw
      exact hp
    · rename_i hp
      split at hw
      · simp at hw
      · rename_i o hl
        cases hr : walk fuel h o.next with
        | none => simp [hr] at hw
        | some l1 =>
          simp only [hr, Option.map_some', Option.some.injEq] at hw
          subst hw
          exact ⟨rfl, hp, o, hl, ih _ _ _ hr⟩

theorem isList_walk : ∀ (l : List Ptr) (fuel : Nat) (h : Heap) (p : Nat),
    IsList h p l → l.length < fuel → walk fuel h p = some l := by
  intro l
  induction l with
  | nil =>
    intro fuel h p hl hf
    cases fuel with
    | zero => simp at hf
    | succ fuel =>
      have hp : p = 0 := hl
      simp [walk, hp]
  | cons a l ih =>
    intro fuel h p hl hf
    cases fuel with
    | zero => simp at hf
    | succ fuel =>
      obtain ⟨rfl, hp0, o, hlo, hrest⟩ := hl
      simp only [List.length_cons] at hf
      simp [walk, hp0, hlo, ih fuel h o.next hrest (by omega)]

theorem IsList.loaded {h : Heap} : ∀ {l : List Ptr} {p : Nat}, IsList h p l →
    ∀ a ∈ l, ∃ o, load h a = some o := by
  intro l
  induction l with
  | nil => intro p _ a ha; simp at ha
  | cons b l ih =>
    intro p hl a ha
    obtain ⟨rfl, _, o, hlo, hrest⟩ := hl
    rcases List.mem_cons.1 ha with rfl | ha
    · exact ⟨o, hlo⟩
    · exact ih hrest a ha

theorem IsList.congr {h h1 : Heap} : ∀ {l : List Ptr} {p : Nat},
    (∀ a ∈ l, ∀ o, load h a = some o → ∃ o1, load h1 a = some o1 ∧ o1.next = o.next) →
    IsList h p l → IsList h1 p l := by
  intro l
  induction l with
  | nil => intro p _ hl; exact hl
  | cons b l ih =>
    intro p hc hl
    obtain ⟨rfl, hp0, o, hlo, hrest⟩ := hl
    obtain ⟨o1, hl1, hn⟩ := hc p (List.mem_cons_self _ _) o hlo
    refine ⟨rfl, hp0, o1, hl1, ?_⟩
    rw [hn]
    exact ih (fun a ha => hc a (List.mem_cons_of_mem _ ha)) hrest

theorem cellCount_free {h : Heap} {p : Nat} {o : Object} (hl : load h p = some o) :
    cellCount (free h p) + 1 = cellCount h := by
  have hlt := load_some_lt hl
  have hg := load_some_getElem hl
  have hget : h[p] = some o := by
    rw [List.getElem?_eq_getElem hlt] at hg
    exact Option.some.inj hg
  unfold cellCount free
  rw [List.countP_set _ _ _ _ hlt]
  have := List.boole_getElem_le_countP Option.isSome h p hlt
  simp only [hget, Option.isSome_some, Option.isSome_none, if_true, Nat.add_zero,
    Bool.false_eq_true, if_false] at this ⊢
  omega

theorem length_le_cellCount : ∀ (l : List Ptr) (h : Heap), l.Nodup →
    (∀ a ∈ l, ∃ o, load h a = some o) → l.length ≤ cellCount h := by
  intro l
  induction l with
  | nil => intro h _ _; simp
  | cons a l ih =>
    intro h hnd hall
    obtain ⟨o, hlo⟩ := hall a (List.mem_cons_self _ _)
    have hnd1 := List.nodup_cons.1 hnd
    have := ih (free h a) hnd1.2 (by
      intro b hb
      obtain ⟨ob, hlb⟩ := hall b (List.mem_cons_of_mem _ hb)
      refine ⟨ob, ?_⟩
      rw [load_free]
      have : b ≠ a := fun e => hnd1.1 (e ▸ hb)
      simp [this, hlb])
    have hc := cellCount_free hlo
    simp only [List.length_cons]
    omega

theorem cellCount_le_length (h : Heap) : cellCount h ≤ h.length :=
  List.countP_le_length _

theorem arenaWalk_isList {vm : VM} {l : List Ptr} (hw : arenaWalk vm = some l) :
    IsList vm.heap vm.firstObject l :=
  walk_isList _ _ _ _ hw

theorem arenaWalk_of_isList (vm : VM) {l : List Ptr} (hl : IsList vm.heap vm.firstObject l)
    (hnd : l.Nodup) : arenaWalk vm = some l := by
  refine isList_walk l _ _ _ hl ?_
  have h1 := length_le_cellCount l vm.heap hnd hl.loaded
  have h2 := cellCount_le_length vm.heap
  omega

theorem arena_of_isList (vm : VM) {l : List Ptr} (hl : IsList vm.heap vm.firstObject l)
    (hnd : l.Nodup) : arena vm = l := by
  simp [arena, arenaWalk_of_isList vm hl hnd]

theorem arena_isList {vm : VM} (hw : (arenaWalk vm).isSome) :
    IsList vm.heap vm.firstObject (arena vm) := by
  obtain ⟨l, hl⟩ := Option.isSome_iff_exists.1 hw
  have := arenaWalk_isList hl
  simpa [arena, hl] using this

theorem writeLink_ok {vm : VM} {link : Link} {rest : List Ptr} (hk : LinkOK vm link rest)
    (q : Nat) : ∃ vm1, writeLink vm q link = .ok vm1 ∧ readLink vm1 link = .ok q ∧
      (∀ b, link ≠ .nextOf b → load vm1.heap b = load vm.heap b) ∧
      (∀ p o, link = .nextOf p → load vm.heap p = some o →
        load vm1.heap p = some { o with next := q }) ∧
      (link ≠ .first → vm1.firstObject = vm.firstObject) ∧
      vm1.numObjects = vm.numObjects ∧ vm1.stack = vm.stack ∧ vm1.stackSize = vm.stackSize ∧
      vm1.maxObjects = vm.maxObjects ∧ vm1.heap.length = vm.heap.length := by
  cases link with
  | first =>
    refine ⟨{ vm with firstObject := q }, rfl, rfl, fun b _ => rfl, ?_, ?_, rfl, rfl, rfl, rfl,
      rfl⟩
    · intro p o hp; cases hp
    · intro hne; exact absurd rfl hne
  | nextOf p =>
    obtain ⟨_, o, hl⟩ := hk p rfl
    refine ⟨{ vm with heap := store vm.heap p { o with next := q } }, ?_, ?_, ?_, ?_, ?_, rfl,
      rfl, rfl, rfl, ?_⟩
    · simp [writeLink, hl]
    · simp [readLink, load_store hl]
    · intro b hb
      have : b ≠ p := fun e => hb (by rw [e])
      simp [load_store hl, this]
    · intro p1 o1 hp1 hl1
      cases hp1
      rw [hl] at hl1
      cases hl1
      simp [load_store hl]
    · intro _; rfl
    · simp [length_store]

theorem keep_congr {h h1 : Heap} {l : List Ptr} (hl : ∀ a ∈ l, load h1 a = load h a) :
    l.filter (keep h1) = l.filter (keep h) := by
  apply List.filter_congr
  intro a ha
  simp [keep, hl a ha]

theorem countP_keep_congr {h h1 : Heap} {l : List Ptr} (hl : ∀ a ∈ l, load h1 a = load h a) :
    l.countP (fun a => !keep h1 a) = l.countP (fun a => !keep h a) := by
  apply List.countP_congr
  intro a ha
  simp [keep, hl a ha]

theorem sweepLoop_spec : ∀ (rest : List Ptr) (fuel : Nat) (vm : VM) (link : Link) (cur : Nat),
    readLink vm link = .ok cur → IsList vm.heap cur rest → rest.Nodup → LinkOK vm link rest →
    (∀ vm1, sweepLoop fuel vm link = .ok vm1 → SweepPost vm link rest vm1) ∧
    (rest.length < fuel → INT_MIN + rest.length ≤ vm.numObjects → vm.numObjects ≤ INT_MAX →
      ∃ vm1, sweepLoop fuel vm link = .ok vm1) := by
  intro rest
  induction rest with
  | nil =>
    intro fuel vm link cur hread hlist _ _
    have hcur : cur = 0 := hlist
    subst hcur
    cases fuel with
    | zero =>
      refine ⟨fun vm1 h => by simp [sweepLoop] at h, fun h => by simp at h⟩
    | succ fuel =>
      have hred : sweepLoop (fuel + 1) vm link = .ok vm := by simp [sweepLoop, hread]
      refine ⟨fun vm1 h => ?_, fun _ _ _ => ⟨vm, hred⟩⟩
      rw [hred] at h
      cases h
      exact ⟨⟨0, hread, rfl⟩, fun a ha => by simp at ha, fun a ha => by simp at ha,
        fun _ _ _ => rfl, fun p o _ hl => ⟨o.next, hl⟩, fun _ => rfl, by simp, rfl, rfl, rfl,
        rfl⟩
  | cons a rest ih =>
    intro fuel vm link cur hread hlist hnd hk
    obtain ⟨rfl, ha0, o, hlo, hrest⟩ := hlist
    obtain ⟨hanot, hnd1⟩ := List.nodup_cons.1 hnd
    have hlinka : link ≠ .nextOf cur := by
      intro e
      exact (hk cur e).1 (List.mem_cons_self _ _)
    cases fuel with
    | zero =>
      refine ⟨fun vm1 h => by simp [sweepLoop] at h, fun h => by simp at h⟩
    | succ fuel =>
      by_cases hmk : o.marked = 0
      · -- the object is released
        obtain ⟨vm1, hw, hr1, hoth1, hcell1, hfirst1, hnum1, hst1, hss1, hmx1, hlen1⟩ :=
          writeLink_ok hk o.next
        have hkeepa : keep vm.heap cur = false := by simp [keep, hlo, markedCell, hmk]
        by_cases hrange : INT_MIN ≤ vm.numObjects - 1 ∧ vm.numObjects - 1 ≤ INT_MAX
        · have hci : checkInt (vm1.numObjects - 1) = .ok (vm.numObjects - 1) := by
            rw [hnum1]; unfold checkInt; rw [if_pos hrange]
          have hred : sweepLoop (fuel + 1) vm link =
              sweepLoop fuel { vm1 with heap := free vm1.heap cur, numObjects := vm.numObjects - 1 } link := by
            simp [sweepLoop, hread, ha0, hlo, hmk, hw, hci]
          -- the state after releasing the object
          have hload2 : ∀ b, b ≠ cur → link ≠ .nextOf b →
              load (free vm1.heap cur) b = load vm.heap b := by
            intro b hb hlb
            rw [load_free, if_neg hb, hoth1 b hlb]
          have hread2 : readLink { vm1 with heap := free vm1.heap cur, numObjects := vm.numObjects - 1 } link = .ok o.next := by
            cases link with
            | first => simpa [readLink] using hr1
            | nextOf p =>
              have hpa : p ≠ cur := fun e => hlinka (by rw [e])
              obtain ⟨_, op, hlp⟩ := hk p rfl
              have := hcell1 p op rfl hlp
              simp [readLink, load_free, hpa, this]
          have hlist2 : IsList (free vm1.heap cur) o.next rest := by
            refine IsList.congr ?_ hrest
            intro b hb ob hlb
            have hba : b ≠ cur := fun e => hanot (e ▸ hb)
            by_cases hlb1 : link = .nextOf b
            · exact absurd (List.mem_cons_of_mem _ hb) (hk b hlb1).1
            · exact ⟨ob, by rw [hload2 b hba hlb1, hlb], rfl⟩
          have hrestload : ∀ b ∈ rest, load (free vm1.heap cur) b = load vm.heap b := by
            intro b hb
            have hba : b ≠ cur := fun e => hanot (e ▸ hb)
            refine hload2 b hba ?_
            intro e
            exact (hk b e).1 (List.mem_cons_of_mem _ hb)
          have hk2 : LinkOK { vm1 with heap := free vm1.heap cur, numObjects := vm.numObjects - 1 } link rest := by
            intro p hp
            obtain ⟨hpn, op, hlp⟩ := hk p hp
            have hpa : p ≠ cur := fun e => hlinka (by rw [hp, e])
            refine ⟨fun hm => hpn (List.mem_cons_of_mem _ hm), { op with next := o.next }, ?_⟩
            show load (free vm1.heap cur) p = _
            rw [load_free, if_neg hpa, hcell1 p op hp hlp]
          obtain ⟨ih1, ih2⟩ := ih fuel { vm1 with heap := free vm1.heap cur, numObjects := vm.numObjects - 1 } link o.next hread2 hlist2 hnd1 hk2
          rw [hred]
          refine ⟨fun vm2 h2 => ?_, fun hf hlo1 hhi => ?_⟩
          · have post := ih1 vm2 h2
            refine ⟨?_, ?_, ?_, ?_, ?_, ?_, ?_, ?_, ?_, ?_, ?_⟩
            · obtain ⟨c, hc1, hc2⟩ := post.list
              refine ⟨c, hc1, ?_⟩
              rw [List.filter_cons_of_neg (by simp [hkeepa])]
              rw [← keep_congr hrestload]
              exact hc2
            · intro b hb hkb
              rcases List.mem_cons.1 hb with rfl | hb
              · rw [post.other _ hanot hlinka]
                show load (free vm1.heap b) b = none
                rw [load_free, if_pos rfl]
              · refine post.freed b hb ?_
                show keep (free vm1.heap cur) b = false
                simpa [keep, hrestload b hb] using hkb
            · intro b hb ob hlb hmb
              rcases List.mem_cons.1 hb with rfl | hb
              · rw [hlo] at hlb
                cases hlb
                exact absurd hmk hmb
              · exact post.kept b hb ob (by
                  show load (free vm1.heap cur) b = _
                  rw [hrestload b hb, hlb]) hmb
            · intro b hb hlb
              have hba : b ≠ cur := fun e => hb (e ▸ List.mem_cons_self _ _)
              have hbr : b ∉ rest := fun hm => hb (List.mem_cons_of_mem _ hm)
              rw [post.other b hbr hlb]
              exact hload2 b hba hlb
            · intro p op hp hlp
              have hpa : p ≠ cur := fun e => hlinka (by rw [hp, e])
              obtain ⟨n, hn⟩ := post.linkCell p { op with next := o.next } hp (by
                show load (free vm1.heap cur) p = _
                rw [load_free, if_neg hpa, hcell1 p op hp hlp])
              exact ⟨n, hn⟩
            · intro hne
              rw [post.firstObject_eq hne]
              exact hfirst1 hne
            · rw [post.numObjects_eq]
              show vm.numObjects - 1 - _ = _
              rw [countP_keep_congr hrestload, List.countP_cons_of_pos]
              · push_cast; ring
              · simp [hkeepa]
            · rw [post.stack_eq]; exact hst1
            · rw [post.stackSize_eq]; exact hss1
            · rw [post.maxObjects_eq]; exact hmx1
            · rw [post.length_eq]
              show (free vm1.heap cur).length = _
              rw [length_free, hlen1]
          · simp only [List.length_cons, Nat.cast_add, Nat.cast_one] at hf hlo1
            exact ih2 (by omega) (by show _ ≤ vm.numObjects - 1; omega)
              (by show vm.numObjects - 1 ≤ _; omega)
        · have hci : checkInt (vm1.numObjects - 1) = .error .intOverflow := by
            rw [hnum1]; unfold checkInt; rw [if_neg hrange]
          have hred : sweepLoop (fuel + 1) vm link = .error .intOverflow := by
            simp [sweepLoop, hread, ha0, hlo, hmk, hw, hci]
          rw [hred]
          refine ⟨fun vm2 h2 => by simp at h2, fun _ hlo1 hhi => ?_⟩
          exfalso
          apply hrange
          simp only [List.length_cons, Nat.cast_add, Nat.cast_one] at hlo1
          constructor <;> omega
      · -- the object survives
        have hkeepa : keep vm.heap cur = true := by simp [keep, hlo, markedCell, hmk]
        have hred : sweepLoop (fuel + 1) vm link =
            sweepLoop fuel { vm with heap := store vm.heap cur { o with marked := 0 } }
              (.nextOf cur) := by
          simp [sweepLoop, hread, ha0, hlo, hmk]
        have hload2 : ∀ b, b ≠ cur →
            load (store vm.heap cur { o with marked := 0 }) b = load vm.heap b := by
          intro b hb
          rw [load_store hlo, if_neg hb]
        have hloada : load (store vm.heap cur { o with marked := 0 }) cur =
            some { o with marked := 0 } := by
          rw [load_store hlo, if_pos rfl]
        have hrestload : ∀ b ∈ rest,
            load (store vm.heap cur { o with marked := 0 }) b = load vm.heap b :=
          fun b hb => hload2 b (fun e => hanot (e ▸ hb))
        have hread2 : readLink { vm with heap := store vm.heap cur { o with marked := 0 } }
            (.nextOf cur) = .ok o.next := by
          simp [readLink, hloada]
        have hlist2 : IsList (store vm.heap cur { o with marked := 0 }) o.next rest := by
          refine IsList.congr ?_ hrest
          intro b hb ob hlb
          exact ⟨ob, by rw [hrestload b hb, hlb], rfl⟩
        have hk2 : LinkOK { vm with heap := store vm.heap cur { o with marked := 0 } }
            (.nextOf cur) rest := by
          intro p hp
          cases hp
          exact ⟨hanot, _, hloada⟩
        obtain ⟨ih1, ih2⟩ := ih fuel { vm with heap := store vm.heap cur { o with marked := 0 } }
          (.nextOf cur) o.next hread2 hlist2 hnd1 hk2
        rw [hred]
        refine ⟨fun vm2 h2 => ?_, fun hf hlo1 hhi => ?_⟩
        · have post := ih1 vm2 h2
          obtain ⟨c, hc1, hc2⟩ := post.list
          have hc1' : ∃ oc, load vm2.heap cur = some oc ∧ oc.next = c := by
            simp only [readLink] at hc1
            split at hc1
            · simp at hc1
            · rename_i oc hoc
              simp only [Except.ok.injEq] at hc1
              exact ⟨oc, hoc, hc1⟩
          obtain ⟨oc, hoc, hocn⟩ := hc1'
          have hlinkload : ∀ p, link = .nextOf p → load vm2.heap p = load vm.heap p := by
            intro p hp
            obtain ⟨hpn, op, hlp⟩ := hk p hp
            have hpa : p ≠ cur := fun e => hlinka (by rw [hp, e])
            rw [post.other p (fun hm => hpn (List.mem_cons_of_mem _ hm))
              (fun e => hpa (by cases e; rfl))]
            exact hload2 p hpa
          refine ⟨?_, ?_, ?_, ?_, ?_, ?_, ?_, ?_, ?_, ?_, ?_⟩
          · refine ⟨cur, ?_, ?_⟩
            · cases link with
              | first =>
                have := post.firstObject_eq (by simp)
                simp only [readLink] at hread ⊢
                rw [this]
                exact hread
              | nextOf p =>
                simp only [readLink] at hread ⊢
                rw [hlinkload p rfl]
                exact hread
            · rw [List.filter_cons_of_pos (by simp [hkeepa])]
              refine ⟨rfl, ha0, oc, hoc, ?_⟩
              rw [hocn, ← keep_congr hrestload]
              exact hc2
          · intro b hb hkb
            rcases List.mem_cons.1 hb with rfl | hb
            · rw [hkeepa] at hkb; cases hkb
            · refine post.freed b hb ?_
              show keep (store vm.heap cur { o with marked := 0 }) b = false
              simpa [keep, hrestload b hb] using hkb
          · intro b hb ob hlb hmb
            rcases List.mem_cons.1 hb with rfl | hb
            · rw [hlo] at hlb
              cases hlb
              obtain ⟨n, hn⟩ := post.linkCell b { o with marked := 0 } rfl hloada
              exact ⟨n, hn⟩
            · exact post.kept b hb ob (by
                show load (store vm.heap cur { o with marked := 0 }) b = _
                rw [hrestload b hb, hlb]) hmb
          · intro b hb hlb
            have hba : b ≠ cur := fun e => hb (e ▸ List.mem_cons_self _ _)
            have hbr : b ∉ rest := fun hm => hb (List.mem_cons_of_mem _ hm)
            rw [post.other b hbr (fun e => hba (by cases e; rfl))]
            exact hload2 b hba
          · intro p op hp hlp
            refine ⟨op.next, ?_⟩
            rw [hlinkload p hp, hlp]
          · intro _
            exact post.firstObject_eq (by simp)
          · rw [post.numObjects_eq]
            show vm.numObjects - _ = _
            rw [countP_keep_congr hrestload, List.countP_cons_of_neg]
            simp [hkeepa]
          · exact post.stack_eq
          · exact post.stackSize_eq
          · exact post.maxObjects_eq
          · rw [post.length_eq]
            show (store vm.heap cur { o with marked := 0 }).length = _
            rw [length_store]
        · simp only [List.length_cons, Nat.cast_add, Nat.cast_one] at hf hlo1
          exact ih2 (by omega) (by show _ ≤ vm.numObjects; omega) hhi

theorem Closed.isList_arena {vm : VM} (hc : Closed vm) :
    IsList vm.heap vm.firstObject (arena vm) :=
  GC.arena_isList hc.1.1

theorem Closed.graph {vm : VM} (hc : Closed vm) : GraphClosed vm.heap (arena vm) := by
  intro p hp
  obtain ⟨o, hl⟩ := hc.isList_arena.loaded p hp
  exact ⟨o, hl, hc.2.2.2 p hp o (by simp [hl])⟩

theorem Closed.toNat_le {vm : VM} (hc : Closed vm) : vm.stackSize.toNat ≤ 256 := by
  have := hc.2.1.2
  simp only [STACK_MAX] at this
  omega

theorem Closed.stack_mem {vm : VM} (hc : Closed vm) (j : Nat) (hj : j < vm.stackSize.toNat) :
    vm.stack j ∈ arena vm :=
  hc.2.2.1 _ (mem_roots.2 ⟨j, hj, rfl⟩)

theorem markAllLoop_closed {vm : VM} (hc : Closed vm) :
    ∃ h1 w, markAllLoop vm.stack vm.stackSize.toNat 0 vm.heap = .ok (h1, w) ∧
      MarkFrame vm.heap h1 w := by
  obtain ⟨h1, w, e⟩ := markAllLoop_ok vm.stack vm.stackSize.toNat 0 vm.heap hc.graph
    (fun j _ hj => hc.stack_mem j (by omega)) (by have := hc.toNat_le; omega)
  exact ⟨h1, w, e, markAllLoop_frame _ _ _ _ _ _ e⟩

theorem Closed.open_of_mem {vm : VM} (hc : Closed vm) (hu : Unmarked vm) (p : Nat)
    (hp : p ∈ arena vm) : Open vm.heap p := by
  obtain ⟨o, hl⟩ := hc.isList_arena.loaded p hp
  exact ⟨o, hl, hu p hp o (by simp [hl])⟩

theorem Closed.reach_mem {vm : VM} (hc : Closed vm) {q : Nat} (hr : Reach vm q) :
    q ∈ arena vm := by
  induction hr with
  | root p hp => exact hc.2.2.1 p hp
  | child p c _ hch ih =>
    obtain ⟨o, hl, hty, hcc⟩ := hch
    have := hc.2.2.2 p ih o (by simp [hl]) hty
    rcases hcc with rfl | rfl
    · exact this.1
    · exact this.2

theorem markAllLoop_reach {vm : VM} (hc : Closed vm) (hu : Unmarked vm) {h1 : Heap}
    {w : List Ptr} (e : markAllLoop vm.stack vm.stackSize.toNat 0 vm.heap = .ok (h1, w))
    (q : Nat) : q ∈ w ↔ Reach vm q := by
  rw [markAllLoop_spec _ _ _ _ _ _ e q, reach_iff_path]
  constructor
  · rintro ⟨j, _, hj, hp⟩
    exact ⟨vm.stack j, mem_roots.2 ⟨j, by omega, rfl⟩, hp.mono (fun _ _ => trivial)⟩
  · rintro ⟨r, hr, hp⟩
    obtain ⟨j, hj, rfl⟩ := mem_roots.1 hr
    exact ⟨j, Nat.zero_le _, by omega,
      (Path.of_graphClosed hc.graph (hc.open_of_mem hu) (hc.2.2.1 _ hr) hp).1⟩

theorem MarkFrame.isList {h h1 : Heap} {w : List Ptr} (hf : MarkFrame h h1 w) {p : Nat}
    {l : List Ptr} (hl : IsList h p l) : IsList h1 p l := by
  refine IsList.congr ?_ hl
  intro a _ o hlo
  rw [hf.load_eq a]
  by_cases hw : a ∈ w
  · exact ⟨{ o with marked := 1 }, by simp [hw, hlo], rfl⟩
  · exact ⟨o, by simp [hw, hlo], rfl⟩

theorem sweep_spec (vm : VM) (l : List Ptr) (hl : IsList vm.heap vm.firstObject l)
    (hnd : l.Nodup) :
    (∀ vm1, sweep vm = .ok vm1 → SweepPost vm .first l vm1) ∧
    (INT_MIN + l.length ≤ vm.numObjects → vm.numObjects ≤ INT_MAX →
      ∃ vm1, sweep vm = .ok vm1) := by
  have hk : LinkOK vm .first l := by intro p hp; cases hp
  obtain ⟨h1, h2⟩ := sweepLoop_spec l (cellCount vm.heap + markedCount vm.heap + 1) vm .first
    vm.firstObject rfl hl hnd hk
  refine ⟨h1, fun hlo hhi => h2 ?_ hlo hhi⟩
  have := length_le_cellCount l vm.heap hnd hl.loaded
  omega

theorem countP_not_keep (h : Heap) (l : List Ptr) :
    l.countP (fun a => !keep h a) + (l.filter (keep h)).length = l.length := by
  induction l with
  | nil => simp
  | cons a l ih =>
    by_cases hk : keep h a = true
    · simp [hk, List.countP_cons]; omega
    · have hk : keep h a = false := by simpa using hk
      simp [hk, List.countP_cons]; omega

theorem markAll_eq {vm : VM} {h1 : Heap} {w : List Ptr}
    (e : markAllLoop vm.stack vm.stackSize.toNat 0 vm.heap = .ok (h1, w)) :
    markAll vm = .ok { vm with heap := h1 } := by
  simp [markAll, markAllLog, e]

theorem Closed.keep_iff {vm : VM} (hc : Closed vm) (hu : Unmarked vm) {h1 : Heap}
    {w : List Ptr} (hf : MarkFrame vm.heap h1 w) {a : Nat} (ha : a ∈ arena vm) :
    keep h1 a = true ↔ a ∈ w := by
  obtain ⟨o, hl, hm⟩ := hc.open_of_mem hu a ha
  unfold keep
  rw [hf.load_eq a]
  by_cases haw : a ∈ w
  · simp [haw, hl, markedCell]
  · simp [haw, hl, markedCell, hm]

/-! ## The operations and the reachable states -/

theorem push_ok {vm vm1 : VM} {v : Ptr} (h : push vm v = .ok vm1) :
    0 ≤ vm.stackSize ∧ vm.stackSize < STACK_MAX ∧
      vm1 = { vm with stack := Function.update vm.stack vm.stackSize.toNat v,
                      stackSize := vm.stackSize + 1 } := by
  unfold push assert at h
  by_cases h1 : vm.stackSize < STACK_MAX
  · by_cases h2 : vm.stackSize < 0
    · simp [h1, h2] at h
    · simp only [h1, h2, decide_True, if_true, if_false, Except.ok.injEq] at h
      exact ⟨by omega, h1, h.symm⟩
  · simp [h1] at h

theorem pop_ok {vm vm1 : VM} {p : Ptr} (h : pop vm = .ok (vm1, p)) :
    0 < vm.stackSize ∧ vm.stackSize ≤ STACK_MAX ∧
      vm1 = { vm with stackSize := vm.stackSize - 1 } ∧
      p = vm.stack (vm.stackSize - 1).toNat := by
  unfold pop assert at h
  by_cases h1 : vm.stackSize > 0
  · by_cases h2 : STACK_MAX ≤ vm.stackSize - 1
    · simp [h1, h2] at h
    · simp only [h1, h2, decide_True, if_true, if_false, Except.ok.injEq, Prod.mk.injEq] at h
      exact ⟨h1, by omega, h.1.symm, h.2.symm⟩
  · simp [h1] at h

theorem checkInt_ok {x y : Int} (h : checkInt x = .ok y) :
    y = x ∧ INT_MIN ≤ x ∧ x ≤ INT_MAX := by
  unfold checkInt at h
  split at h
  · rename_i hr
    simp only [Except.ok.injEq] at h
    exact ⟨h.symm, hr⟩
  · simp at h

theorem gc_inv {vm vm1 : VM} {r : Report} (h : gc vm = .ok (vm1, r)) :
    ∃ h1 w vm2, markAllLoop vm.stack vm.stackSize.toNat 0 vm.heap = .ok (h1, w) ∧
      sweep { vm with heap := h1 } = .ok vm2 ∧
      vm1 = { vm2 with maxObjects :=
        if vm2.numObjects = 0 then INITIAL_OBJ_MAX else vm2.numObjects * 2 } ∧
      r = { collected := vm.numObjects - vm2.numObjects, remaining := vm2.numObjects } ∧
      (vm2.numObjects ≠ 0 → vm2.numObjects * 2 ≤ INT_MAX) := by
  unfold gc markAll markAllLog at h
  cases e : markAllLoop vm.stack vm.stackSize.toNat 0 vm.heap with
  | error x => simp [e] at h
  | ok hw =>
    obtain ⟨h1, w⟩ := hw
    simp only [e] at h
    cases es : sweep { vm with heap := h1 } with
    | error x => simp [es] at h
    | ok vm2 =>
      simp only [es] at h
      refine ⟨h1, w, vm2, rfl, es, ?_⟩
      cases hm : (if vm2.numObjects = 0 then Except.ok INITIAL_OBJ_MAX
          else checkInt (vm2.numObjects * 2)) with
      | error x => rw [hm] at h; simp at h
      | ok m =>
        rw [hm] at h
        simp only at h
        cases hc : checkInt (vm.numObjects - vm2.numObjects) with
        | error x => rw [hc] at h; simp at h
        | ok c =>
          rw [hc] at h
          simp only [Except.ok.injEq, Prod.mk.injEq] at h
          have hc1 := (checkInt_ok hc).1
          subst hc1
          by_cases h0 : vm2.numObjects = 0
          · rw [if_pos h0] at hm ⊢
            simp only [Except.ok.injEq] at hm
            subst hm
            exact ⟨h.1.symm, h.2.symm, fun hne => absurd h0 hne⟩
          · rw [if_neg h0] at hm ⊢
            have hm1 := checkInt_ok hm
            obtain ⟨hm2, _, hm3⟩ := hm1
            subst hm2
            exact ⟨h.1.symm, h.2.symm, fun _ => hm3⟩

theorem arenaInv_iff (vm : VM) :
    ArenaInv vm ↔ ∃ l, IsList vm.heap vm.firstObject l ∧ l.Nodup ∧ vm.numObjects = l.length := by
  constructor
  · rintro ⟨h1, h2, h3⟩
    exact ⟨arena vm, arena_isList h1, h2, h3⟩
  · rintro ⟨l, h1, h2, h3⟩
    have ha := arena_of_isList vm h1 h2
    refine ⟨?_, ?_, ?_⟩
    · rw [arenaWalk_of_isList vm h1 h2]; rfl
    · rw [ha]; exact h2
    · rw [ha]; exact h3

theorem gc_frame {vm vm1 : VM} {r : Report} (ha : ArenaInv vm) (h : gc vm = .ok (vm1, r)) :
    ArenaInv vm1 ∧ vm1.stack = vm.stack ∧ vm1.stackSize = vm.stackSize ∧
      vm1.maxObjects = (if vm1.numObjects = 0 then INITIAL_OBJ_MAX else vm1.numObjects * 2) ∧
      r.collected = vm.numObjects - vm1.numObjects ∧ r.remaining = vm1.numObjects ∧
      List.Sublist (arena vm1) (arena vm) := by
  obtain ⟨h1, w, vm2, e, es, rfl, rfl, _⟩ := gc_inv h
  have hf := markAllLoop_frame _ _ _ _ _ _ e
  have hlist1 : IsList h1 vm.firstObject (arena vm) := hf.isList (arena_isList ha.1)
  have post := (sweep_spec { vm with heap := h1 } (arena vm) hlist1 ha.2.1).1 vm2 es
  have hfirst : IsList vm2.heap vm2.firstObject ((arena vm).filter (keep h1)) := by
    obtain ⟨c, hc1, hc2⟩ := post.list
    simp only [readLink, Except.ok.injEq] at hc1
    rw [hc1]; exact hc2
  have hnd2 : ((arena vm).filter (keep h1)).Nodup := ha.2.1.filter _
  have hnum2 : vm2.numObjects = ((arena vm).filter (keep h1)).length := by
    have h1' := post.numObjects_eq
    have h2' := countP_not_keep h1 (arena vm)
    have h3' := ha.2.2
    simp only at h1'
    omega
  refine ⟨(arenaInv_iff _).2 ⟨_, hfirst, hnd2, hnum2⟩, post.stack_eq, post.stackSize_eq, rfl,
    rfl, rfl, ?_⟩
  have hA := arena_of_isList { vm2 with maxObjects :=
    if vm2.numObjects = 0 then INITIAL_OBJ_MAX else vm2.numObjects * 2 } hfirst hnd2
  rw [hA]
  exact List.filter_sublist _

theorem gc_maxObjects {vm vm1 : VM} {r : Report} (h : gc vm = .ok (vm1, r)) :
    vm1.maxObjects = (if vm1.numObjects = 0 then INITIAL_OBJ_MAX else vm1.numObjects * 2) ∧
      r.remaining = vm1.numObjects ∧ r.collected = vm.numObjects - vm1.numObjects := by
  obtain ⟨h1, w, vm2, e, es, rfl, rfl, _⟩ := gc_inv h
  exact ⟨rfl, rfl, rfl⟩

theorem gc_post_aux {vm vm2 : VM} (hc : Closed vm) (hu : Unmarked vm) {h1 : Heap}
    {w : List Ptr} (e : markAllLoop vm.stack vm.stackSize.toNat 0 vm.heap = .ok (h1, w))
    (hs2 : sweep { vm with heap := h1 } = .ok vm2)
    (hb : vm2.numObjects ≠ 0 → vm2.numObjects * 2 ≤ INT_MAX) :
    GcPost vm
      { vm2 with maxObjects :=
        if vm2.numObjects = 0 then INITIAL_OBJ_MAX else vm2.numObjects * 2 }
      { collected := vm.numObjects - vm2.numObjects, remaining := vm2.numObjects } := by
  have hf := markAllLoop_frame _ _ _ _ _ _ e
  have hreach := markAllLoop_reach hc hu e
  have hlist := hc.isList_arena
  have hnd : (arena vm).Nodup := hc.1.2.1
  have hnum : vm.numObjects = (arena vm).length := hc.1.2.2
  have hlist1 : IsList h1 vm.firstObject (arena vm) := hf.isList hlist
  have post := (sweep_spec { vm with heap := h1 } (arena vm) hlist1 hnd).1 vm2 hs2
  have hkeep : ∀ a ∈ arena vm, (keep h1 a = true ↔ Reach vm a) := fun a ha =>
    (hc.keep_iff hu hf ha).trans (hreach a)
  have hnum2 : vm2.numObjects = ((arena vm).filter (keep h1)).length := by
    have h1' := post.numObjects_eq
    have h2' := countP_not_keep h1 (arena vm)
    simp only at h1'
    omega
  have hfirst : IsList vm2.heap vm2.firstObject ((arena vm).filter (keep h1)) := by
    obtain ⟨c, hc1, hc2⟩ := post.list
    simp only [readLink, Except.ok.injEq] at hc1
    rw [hc1]; exact hc2
  have hnd2 : ((arena vm).filter (keep h1)).Nodup := hnd.filter _
  have harena3 : ∀ m, arena { vm2 with maxObjects := m } = (arena vm).filter (keep h1) :=
    fun m => arena_of_isList { vm2 with maxObjects := m } hfirst hnd2
  have hwalk3 : ∀ m, (arenaWalk { vm2 with maxObjects := m }).isSome := by
    intro m
    rw [arenaWalk_of_isList { vm2 with maxObjects := m } hfirst hnd2]
    rfl
  have hmem : ∀ p, p ∈ (arena vm).filter (keep h1) ↔ Reach vm p := by
    intro p
    rw [List.mem_filter]
    constructor
    · rintro ⟨hp, hk⟩
      exact (hkeep p hp).1 hk
    · intro hr
      have hp := hc.reach_mem hr
      exact ⟨hp, (hkeep p hp).2 hr⟩
  have hsurv : ∀ p ∈ (arena vm).filter (keep h1), ∀ o, load vm.heap p = some o →
      ∃ n, load vm2.heap p = some { o with next := n } := by
    intro p hp o hl
    obtain ⟨hp1, hk⟩ := List.mem_filter.1 hp
    have hpw : p ∈ w := (hc.keep_iff hu hf hp1).1 hk
    have hl1 : load h1 p = some { o with marked := 1 } := by
      rw [hf.load_eq p]; simp [hpw, hl]
    obtain ⟨n, hn⟩ := post.kept p hp1 _ hl1 (by simp)
    have hm0 : o.marked = 0 := hu p hp1 o (by simp [hl])
    refine ⟨n, ?_⟩
    rw [hn]
    cases o
    simp only at hm0
    subst hm0
    rfl
  refine ⟨⟨⟨⟨hwalk3 _, ?_, ?_⟩, ?_, ?_, ?_⟩, ?_, ?_⟩, ?_, ?_, ?_, ?_, ?_, post.stack_eq,
    post.stackSize_eq, ?_, rfl, rfl, rfl⟩
  · rw [harena3]; exact hnd2
  · rw [harena3]; exact hnum2
  · show 0 ≤ vm2.stackSize ∧ vm2.stackSize ≤ STACK_MAX
    rw [post.stackSize_eq]; exact hc.2.1
  · intro p hp
    rw [harena3]
    have hp' : p ∈ roots vm := by
      simpa [roots, post.stack_eq, post.stackSize_eq] using hp
    exact (hmem p).2 (Reach.root p hp')
  · intro p hp o ho hty
    rw [harena3] at hp ⊢
    have hp1 := (List.mem_filter.1 hp).1
    obtain ⟨o0, hl0⟩ := hlist.loaded p hp1
    obtain ⟨n, hn⟩ := hsurv p hp o0 hl0
    have ho' : load vm2.heap p = some o := by simpa using ho
    rw [hn] at ho'
    cases ho'
    have hr := (hmem p).1 hp
    exact ⟨(hmem _).2 (Reach.child p _ hr ⟨o0, hl0, hty, Or.inl rfl⟩),
      (hmem _).2 (Reach.child p _ hr ⟨o0, hl0, hty, Or.inr rfl⟩)⟩
  · intro p hp o ho
    rw [harena3] at hp
    have hp1 := (List.mem_filter.1 hp).1
    obtain ⟨o0, hl0⟩ := hlist.loaded p hp1
    obtain ⟨n, hn⟩ := hsurv p hp o0 hl0
    have ho' : load vm2.heap p = some o := by simpa using ho
    rw [hn] at ho'
    cases ho'
    exact hu p hp1 o0 (by simp [hl0])
  · show vm2.numObjects * 2 ≤ INT_MAX
    by_cases h0 : vm2.numObjects = 0
    · rw [h0]; decide
    · exact hb h0
  · intro p; rw [harena3]; exact hmem p
  · rw [harena3]; exact List.filter_sublist _
  · intro p hp o hl
    rw [harena3] at hp
    exact hsurv p hp o hl
  · intro p hp hnr
    refine post.freed p hp ?_
    cases hk : keep h1 p with
    | false => rfl
    | true => exact absurd ((hkeep p hp).1 hk) hnr
  · intro p hp
    rw [post.other p hp (by simp)]
    show load h1 p = load vm.heap p
    rw [hf.load_eq p]
    have : p ∉ w := fun hpw => hp (hc.reach_mem ((hreach p).1 hpw))
    simp [this]
  · rw [harena3]; exact hnum2

theorem gc_post {vm vm1 : VM} {r : Report} (hc : Closed vm) (hu : Unmarked vm)
    (hg : gc vm = .ok (vm1, r)) : GcPost vm vm1 r := by
  obtain ⟨h1, w, vm2, e, es, rfl, rfl, hb⟩ := gc_inv hg
  exact gc_post_aux hc hu e es hb

theorem gc_ok {vm : VM} (hc : Closed vm) (hmax : vm.numObjects * 2 ≤ INT_MAX) :
    ∃ vm1 r, gc vm = .ok (vm1, r) := by
  obtain ⟨h1, w, e, hf⟩ := markAllLoop_closed hc
  have hnd : (arena vm).Nodup := hc.1.2.1
  have hnum : vm.numObjects = (arena vm).length := hc.1.2.2
  have hlist1 : IsList h1 vm.firstObject (arena vm) := hf.isList hc.isList_arena
  obtain ⟨hpost, hex⟩ := sweep_spec { vm with heap := h1 } (arena vm) hlist1 hnd
  obtain ⟨vm2, hs2⟩ := hex (by show INT_MIN + _ ≤ vm.numObjects; simp only [INT_MIN]; omega)
    (by show vm.numObjects ≤ INT_MAX; simp only [INT_MAX] at hmax ⊢; omega)
  have post := hpost vm2 hs2
  have hnum2 : vm2.numObjects = ((arena vm).filter (keep h1)).length := by
    have h1' := post.numObjects_eq
    have h2' := countP_not_keep h1 (arena vm)
    simp only at h1'
    omega
  have hle : ((arena vm).filter (keep h1)).length ≤ (arena vm).length :=
    List.length_filter_le _ _
  have hm : (if vm2.numObjects = 0 then Except.ok INITIAL_OBJ_MAX
      else checkInt (vm2.numObjects * 2)) =
      (Except.ok (if vm2.numObjects = 0 then INITIAL_OBJ_MAX else vm2.numObjects * 2) :
        Except Fault Int) := by
    by_cases h0 : vm2.numObjects = 0
    · simp [h0]
    · simp only [h0, if_false]
      unfold checkInt
      rw [if_pos]
      simp only [INT_MIN, INT_MAX] at hmax ⊢
      constructor <;> omega
  have hcol : checkInt (vm.numObjects - vm2.numObjects) =
      .ok (vm.numObjects - vm2.numObjects) := by
    unfold checkInt
    rw [if_pos]
    simp only [INT_MIN, INT_MAX] at hmax ⊢
    constructor <;> omega
  refine ⟨{ vm2 with maxObjects :=
      if vm2.numObjects = 0 then INITIAL_OBJ_MAX else vm2.numObjects * 2 },
    { collected := vm.numObjects - vm2.numObjects, remaining := vm2.numObjects }, ?_⟩
  simp only [gc, markAll_eq e, hs2, hm, hcol]

theorem gc_wellFormed {vm : VM} (hw : WellFormed vm) :
    ∃ vm1 r, gc vm = .ok (vm1, r) ∧ GcPost vm vm1 r := by
  obtain ⟨vm1, r, hg⟩ := gc_ok hw.1 hw.2.2
  exact ⟨vm1, r, hg, gc_post hw.1 hw.2.1 hg⟩

theorem newObject_inv {malloc : Heap → Ptr} {vm vm1 : VM} {ty : ObjectType} {obj : Ptr}
    (h : newObject malloc vm ty = .ok (vm1, obj)) :
    ∃ vm0, ((vm.numObjects ≠ vm.maxObjects ∧ vm0 = vm) ∨
        (vm.numObjects = vm.maxObjects ∧ ∃ r, gc vm = .ok (vm0, r))) ∧
      obj = malloc vm0.heap ∧ obj ≠ 0 ∧ vm0.numObjects + 1 ≤ INT_MAX ∧
      vm1 = { vm0 with
        heap := alloc vm0.heap obj
          { type := ty, marked := 0, next := vm0.firstObject, value := 0, head := 0, tail := 0 },
        firstObject := obj,
        numObjects := vm0.numObjects + 1 } := by
  unfold newObject at h
  cases hvm0 : (if vm.numObjects = vm.maxObjects then (gc vm).map Prod.fst
      else Except.ok vm) with
  | error x => rw [hvm0] at h; simp at h
  | ok vm0 =>
    rw [hvm0] at h
    have hpre : (vm.numObjects ≠ vm.maxObjects ∧ vm0 = vm) ∨
        (vm.numObjects = vm.maxObjects ∧ ∃ r, gc vm = .ok (vm0, r)) := by
      by_cases hc : vm.numObjects = vm.maxObjects
      · right
        refine ⟨hc, ?_⟩
        rw [if_pos hc] at hvm0
        cases hg : gc vm with
        | error x => simp [hg, Except.map] at hvm0
        | ok pr =>
          obtain ⟨a, b⟩ := pr
          simp only [hg, Except.map, Except.ok.injEq] at hvm0
          subst hvm0
          exact ⟨b, rfl⟩
      · left
        rw [if_neg hc] at hvm0
        simp only [Except.ok.injEq] at hvm0
        exact ⟨hc, hvm0.symm⟩
    refine ⟨vm0, hpre, ?_⟩
    simp only at h
    by_cases hobj : malloc vm0.heap = 0
    · rw [if_pos hobj] at h; simp at h
    · rw [if_neg hobj] at h
      cases hn : checkInt (vm0.numObjects + 1) with
      | error x => rw [hn] at h; simp at h
      | ok n =>
        rw [hn] at h
        obtain ⟨hn1, _, hn3⟩ := checkInt_ok hn
        subst hn1
        simp only [Except.ok.injEq, Prod.mk.injEq] at h
        obtain ⟨h1, h2⟩ := h
        subst h2
        exact ⟨rfl, hobj, hn3, h1.symm⟩

theorem arenaInv_congr {vm vm1 : VM} (hh : vm1.heap = vm.heap)
    (hf : vm1.firstObject = vm.firstObject) (hn : vm1.numObjects = vm.numObjects)
    (ha : ArenaInv vm) : ArenaInv vm1 := by
  obtain ⟨l, h1, h2, h3⟩ := (arenaInv_iff vm).1 ha
  exact (arenaInv_iff vm1).2 ⟨l, by rw [hh, hf]; exact h1, h2, by rw [hn]; exact h3⟩

theorem arena_congr {vm vm1 : VM} (hh : vm1.heap = vm.heap)
    (hf : vm1.firstObject = vm.firstObject) : arena vm1 = arena vm := by
  unfold arena arenaWalk
  rw [hh, hf]

theorem isList_store {h : Heap} {p : Nat} {o o1 : Object} (hl : load h p = some o)
    (hn : o1.next = o.next) {x : Nat} {l : List Ptr} (hx : IsList h x l) :
    IsList (store h p o1) x l := by
  refine IsList.congr ?_ hx
  intro a _ oa hla
  rw [load_store hl]
  by_cases hap : a = p
  · subst hap
    rw [hl] at hla
    cases hla
    exact ⟨o1, by simp, hn⟩
  · exact ⟨oa, by simp [hap, hla], rfl⟩

theorem arenaInv_store {vm : VM} {p : Nat} {o o1 : Object} (hl : load vm.heap p = some o)
    (hn : o1.next = o.next) (ha : ArenaInv vm) :
    ArenaInv { vm with heap := store vm.heap p o1 } ∧
      arena { vm with heap := store vm.heap p o1 } = arena vm := by
  obtain ⟨h1, h2, h3⟩ := ha
  have hl1 : IsList (store vm.heap p o1) vm.firstObject (arena vm) :=
    isList_store hl hn (arena_isList h1)
  exact ⟨(arenaInv_iff _).2 ⟨arena vm, hl1, h2, h3⟩,
    arena_of_isList { vm with heap := store vm.heap p o1 } hl1 h2⟩

theorem arenaInv_alloc {vm : VM} {obj : Nat} (o : Object) (hobj : obj ≠ 0)
    (hfree : load vm.heap obj = none) (ho : o.next = vm.firstObject) (ha : ArenaInv vm) :
    ArenaInv { vm with heap := alloc vm.heap obj o, firstObject := obj,
                       numObjects := vm.numObjects + 1 } ∧
      arena { vm with heap := alloc vm.heap obj o, firstObject := obj,
                      numObjects := vm.numObjects + 1 } = obj :: arena vm := by
  obtain ⟨h1, h2, h3⟩ := ha
  have hl := arena_isList h1
  have hnot : obj ∉ arena vm := by
    intro hm
    obtain ⟨oo, hoo⟩ := hl.loaded obj hm
    rw [hfree] at hoo
    cases hoo
  have hl1 : IsList (alloc vm.heap obj o) obj (obj :: arena vm) := by
    refine ⟨rfl, hobj, o, by rw [load_alloc _ hobj]; simp, ?_⟩
    rw [ho]
    refine IsList.congr ?_ hl
    intro a ham oa hla
    have : a ≠ obj := fun e => hnot (e ▸ ham)
    exact ⟨oa, by rw [load_alloc _ hobj]; simp [this, hla], rfl⟩
  have hnd : (obj :: arena vm).Nodup := List.nodup_cons.2 ⟨hnot, h2⟩
  refine ⟨(arenaInv_iff _).2 ⟨obj :: arena vm, hl1, hnd, ?_⟩, ?_⟩
  · show vm.numObjects + 1 = _
    rw [h3]; simp
  · exact arena_of_isList { vm with heap := alloc vm.heap obj o, firstObject := obj, numObjects := vm.numObjects + 1 } hl1 hnd

theorem ArenaInv.numObjects_nonneg {vm : VM} (ha : ArenaInv vm) : 0 ≤ vm.numObjects := by
  rw [ha.2.2]; exact Int.natCast_nonneg _

theorem inv_newVM : Inv newVM := by
  refine ⟨by decide, by decide, by decide, by decide⟩

theorem inv_push {vm vm1 : VM} {v : Ptr} (hi : Inv vm) (h : push vm v = .ok vm1) : Inv vm1 := by
  obtain ⟨h0, h1, rfl⟩ := push_ok h
  obtain ⟨ha, _, hm, hn⟩ := hi
  refine ⟨arenaInv_congr rfl rfl rfl ha, ⟨?_, ?_⟩, hm, hn⟩
  · show 0 ≤ vm.stackSize + 1; omega
  · show vm.stackSize + 1 ≤ STACK_MAX; omega

theorem inv_pop {vm vm1 : VM} {p : Ptr} (hi : Inv vm) (h : pop vm = .ok (vm1, p)) :
    Inv vm1 := by
  obtain ⟨h0, h1, rfl, _⟩ := pop_ok h
  obtain ⟨ha, _, hm, hn⟩ := hi
  refine ⟨arenaInv_congr rfl rfl rfl ha, ⟨?_, ?_⟩, hm, hn⟩
  · show 0 ≤ vm.stackSize - 1; omega
  · show vm.stackSize - 1 ≤ STACK_MAX; omega

theorem inv_gc {vm vm1 : VM} {r : Report} (hi : Inv vm) (h : gc vm = .ok (vm1, r)) :
    Inv vm1 := by
  obtain ⟨ha, hs, _, _⟩ := hi
  obtain ⟨ha1, _, hss, hmax, _⟩ := gc_frame ha h
  have hnn := ha1.numObjects_nonneg
  refine ⟨ha1, by unfold StackInv; rw [hss]; exact hs, ?_, ?_⟩
  · rw [hmax]
    split
    · simp [INITIAL_OBJ_MAX]
    · omega
  · rw [hmax]
    split
    · rename_i h0; rw [h0]; simp [INITIAL_OBJ_MAX]
    · omega

theorem inv_newObject {malloc : Heap → Ptr} (hm : MallocOK malloc) {vm vm1 : VM}
    {ty : ObjectType} {obj : Ptr} (hi : Inv vm) (h : newObject malloc vm ty = .ok (vm1, obj)) :
    Inv vm1 ∧ vm1.stack = vm.stack ∧ vm1.stackSize = vm.stackSize ∧
      ∃ o, load vm1.heap obj = some o ∧ o.type = ty := by
  obtain ⟨vm0, hpre, hobj, hobj0, _, rfl⟩ := newObject_inv h
  have h0 : Inv vm0 ∧ vm0.stack = vm.stack ∧ vm0.stackSize = vm.stackSize ∧
      vm0.numObjects + 1 ≤ vm0.maxObjects := by
    rcases hpre with ⟨hne, rfl⟩ | ⟨_, r, hg⟩
    · have := hi.2.2.2
      exact ⟨hi, rfl, rfl, by omega⟩
    · have hi0 := inv_gc hi hg
      obtain ⟨ha1, hst, hss, hmax, _⟩ := gc_frame hi.1 hg
      refine ⟨hi0, hst, hss, ?_⟩
      have hnn := ha1.numObjects_nonneg
      rw [hmax]
      split
      · rename_i h0; rw [h0]; simp [INITIAL_OBJ_MAX]
      · omega
  obtain ⟨⟨ha0, hs0, hm0, _⟩, hst, hss, hle⟩ := h0
  have hfree := (hm vm0.heap).2
  rw [← hobj] at hfree
  refine ⟨⟨(arenaInv_alloc _ hobj0 hfree rfl ha0).1, hs0, hm0, hle⟩, hst, hss,
    { type := ty, marked := 0, next := vm0.firstObject, value := 0, head := 0, tail := 0 },
    ?_, rfl⟩
  show load (alloc vm0.heap obj _) obj = _
  rw [load_alloc _ hobj0]; simp

theorem inv_store {vm : VM} {p : Nat} {o : Object} (hi : Inv vm)
    (hl : load vm.heap p = some o) (o1 : Object) (hn : o1.next = o.next) :
    Inv { vm with heap := store vm.heap p o1 } :=
  ⟨(arenaInv_store hl hn hi.1).1, hi.2.1, hi.2.2.1, hi.2.2.2⟩

theorem pushInt_inv {malloc : Heap → Ptr} {vm vm2 : VM} {n : Int}
    (h : pushInt malloc vm n = .ok vm2) :
    ∃ vm1 obj o, newObject malloc vm OBJ_INT = .ok (vm1, obj) ∧ load vm1.heap obj = some o ∧
      push { vm1 with heap := store vm1.heap obj { o with value := n } } obj = .ok vm2 := by
  unfold pushInt at h
  cases hn : newObject malloc vm OBJ_INT with
  | error x => rw [hn] at h; simp at h
  | ok pr =>
    obtain ⟨vm1, obj⟩ := pr
    rw [hn] at h
    simp only at h
    cases hl : load vm1.heap obj with
    | none => rw [hl] at h; simp at h
    | some o =>
      rw [hl] at h
      exact ⟨vm1, obj, o, rfl, hl, h⟩

theorem pushPair_inv {malloc : Heap → Ptr} {vm vm6 : VM} {p : Ptr}
    (h : pushPair malloc vm = .ok (vm6, p)) :
    ∃ vm1 vm2 t o vm4 hd o1, newObject malloc vm OBJ_PAIR = .ok (vm1, p) ∧
      pop vm1 = .ok (vm2, t) ∧ load vm2.heap p = some o ∧
      pop { vm2 with heap := store vm2.heap p { o with tail := t } } = .ok (vm4, hd) ∧
      load vm4.heap p = some o1 ∧
      push { vm4 with heap := store vm4.heap p { o1 with head := hd } } p = .ok vm6 := by
  unfold pushPair at h
  cases hn : newObject malloc vm OBJ_PAIR with
  | error x => rw [hn] at h; simp at h
  | ok pr =>
    obtain ⟨vm1, obj⟩ := pr
    rw [hn] at h
    simp only at h
    cases hp1 : pop vm1 with
    | error x => rw [hp1] at h; simp at h
    | ok pr1 =>
      obtain ⟨vm2, t⟩ := pr1
      rw [hp1] at h
      simp only at h
      cases hl : load vm2.heap obj with
      | none => rw [hl] at h; simp at h
      | some o =>
        rw [hl] at h
        simp only at h
        cases hp2 : pop { vm2 with heap := store vm2.heap obj { o with tail := t } } with
        | error x => rw [hp2] at h; simp at h
        | ok pr2 =>
          obtain ⟨vm4, hd⟩ := pr2
          rw [hp2] at h
          simp only at h
          cases hl1 : load vm4.heap obj with
          | none => rw [hl1] at h; simp at h
          | some o1 =>
            rw [hl1] at h
            simp only at h
            cases hp3 : push { vm4 with heap := store vm4.heap obj { o1 with head := hd } }
                obj with
            | error x => rw [hp3] at h; simp at h
            | ok vm7 =>
              rw [hp3] at h
              simp only [Except.ok.injEq, Prod.mk.injEq] at h
              obtain ⟨rfl, rfl⟩ := h
              exact ⟨vm1, vm2, t, o, vm4, hd, o1, rfl, hp1, hl, hp2, hl1, hp3⟩

theorem inv_pushInt {malloc : Heap → Ptr} (hm : MallocOK malloc) {vm vm2 : VM} {n : Int}
    (hi : Inv vm) (h : pushInt malloc vm n = .ok vm2) : Inv vm2 := by
  obtain ⟨vm1, obj, o, hn, hl, hp⟩ := pushInt_inv h
  have hi1 := (inv_newObject hm hi hn).1
  exact inv_push (inv_store hi1 hl { o with value := n } rfl) hp

theorem inv_pushPair {malloc : Heap → Ptr} (hm : MallocOK malloc) {vm vm6 : VM} {p : Ptr}
    (hi : Inv vm) (h : pushPair malloc vm = .ok (vm6, p)) : Inv vm6 := by
  obtain ⟨vm1, vm2, t, o, vm4, hd, o1, hn, hp1, hl, hp2, hl1, hp3⟩ := pushPair_inv h
  have hi1 := (inv_newObject hm hi hn).1
  have hi2 := inv_pop hi1 hp1
  have hi4 := inv_pop (inv_store hi2 hl { o with tail := t } rfl) hp2
  exact inv_push (inv_store hi4 hl1 { o1 with head := hd } rfl) hp3

theorem inv_step {vm vm1 : VM} (hi : Inv vm) (hs : Step vm vm1) : Inv vm1 := by
  cases hs with
  | push _ _ v h => exact inv_push hi h
  | pop _ _ p h => exact inv_pop hi h
  | pushInt malloc _ _ n hm h => exact inv_pushInt hm hi h
  | pushPair malloc _ _ p hm h => exact inv_pushPair hm hi h
  | gc _ _ r h => exact inv_gc hi h

theorem reachable_inv {vm : VM} (hr : Reachable vm) : Inv vm := by
  induction hr with
  | init => exact inv_newVM
  | step vm vm1 _ hs ih => exact inv_step ih hs

theorem mallocOK_bumpMalloc : MallocOK bumpMalloc := by
  intro h
  refine ⟨?_, ?_⟩
  · exact Nat.pos_iff_ne_zero.1 (lt_of_lt_of_le Nat.one_pos (le_max_left 1 h.length))
  · unfold load bumpMalloc
    have : h.length ≤ max 1 h.length := le_max_right _ _
    rw [List.getElem?_eq_none this]
    simp

theorem mallocOK_firstFit : MallocOK firstFit := by
  intro h
  unfold firstFit
  cases hf : (List.range h.length).find? (fun p => p ≠ 0 ∧ (load h p).isNone) with
  | none =>
    simp only
    refine ⟨Nat.pos_iff_ne_zero.1 (lt_of_lt_of_le Nat.one_pos (le_max_left 1 h.length)), ?_⟩
    unfold load
    have : h.length ≤ max 1 h.length := le_max_right _ _
    rw [List.getElem?_eq_none this]
    simp
  | some p =>
    have := List.find?_some hf
    simp only [ne_eq, decide_not, Bool.and_eq_true, Bool.not_eq_eq_eq_not, Bool.not_true,
      decide_eq_false_iff_not, Option.isNone_iff_eq_none, decide_eq_true_eq] at this
    exact this

theorem countP_store (f : Option Object → Bool) {h : Heap} {p : Nat} {o : Object}
    (hl : load h p = some o) (o1 : Object) :
    (store h p o1).countP f + (if f (some o) then 1 else 0) =
      h.countP f + (if f (some o1) then 1 else 0) := by
  have hlt := load_some_lt hl
  have hg := load_some_getElem hl
  have hget : h[p] = some o := by
    rw [List.getElem?_eq_getElem hlt] at hg
    exact Option.some.inj hg
  unfold store
  rw [List.countP_set _ _ _ _ hlt]
  have := List.boole_getElem_le_countP f h p hlt
  rw [hget] at this ⊢
  omega

theorem countP_free (f : Option Object → Bool) {h : Heap} {p : Nat} {o : Object}
    (hl : load h p = some o) :
    (free h p).countP f + (if f (some o) then 1 else 0) =
      h.countP f + (if f none then 1 else 0) := by
  have hlt := load_some_lt hl
  have hg := load_some_getElem hl
  have hget : h[p] = some o := by
    rw [List.getElem?_eq_getElem hlt] at hg
    exact Option.some.inj hg
  unfold free
  rw [List.countP_set _ _ _ _ hlt]
  have := List.boole_getElem_le_countP f h p hlt
  rw [hget] at this ⊢
  omega

theorem cellCount_store {h : Heap} {p : Nat} {o : Object} (hl : load h p = some o)
    (o1 : Object) : cellCount (store h p o1) = cellCount h := by
  have c := countP_store Option.isSome hl o1
  unfold cellCount
  simp only [Option.isSome_some, if_true] at c
  omega

theorem markedCount_store_same {h : Heap} {p : Nat} {o : Object} (hl : load h p = some o)
    (o1 : Object) (hm : o1.marked = o.marked) : markedCount (store h p o1) = markedCount h := by
  have c := countP_store markedCell hl o1
  unfold markedCount
  simp only [markedCell, hm] at c
  omega

theorem markedCount_store_unmark {h : Heap} {p : Nat} {o : Object} (hl : load h p = some o)
    (hm : o.marked ≠ 0) (o1 : Object) (hm1 : o1.marked = 0) :
    markedCount (store h p o1) + 1 = markedCount h := by
  have c := countP_store markedCell hl o1
  unfold markedCount
  simp only [markedCell, hm1] at c
  rw [if_pos (by simpa using hm), if_neg (by simp)] at c
  omega

theorem markedCount_free_le {h : Heap} {p : Nat} {o : Object} (hl : load h p = some o) :
    markedCount (free h p) ≤ markedCount h := by
  have c := countP_free markedCell hl
  have hnone : markedCell none = false := rfl
  unfold markedCount
  rw [hnone] at c
  simp only [Bool.false_eq_true, if_false] at c
  split at c <;> omega

theorem writeLink_counts {vm vm1 : VM} {q : Nat} {link : Link}
    (h : writeLink vm q link = .ok vm1) :
    cellCount vm1.heap = cellCount vm.heap ∧ markedCount vm1.heap = markedCount vm.heap ∧
      (∀ a o, load vm.heap a = some o → ∃ o1, load vm1.heap a = some o1 ∧
        o1.marked = o.marked) := by
  cases link with
  | first =>
    simp only [writeLink, Except.ok.injEq] at h
    subst h
    exact ⟨rfl, rfl, fun a o hl => ⟨o, hl, rfl⟩⟩
  | nextOf p =>
    simp only [writeLink] at h
    cases hl : load vm.heap p with
    | none => rw [hl] at h; simp at h
    | some o =>
      rw [hl] at h
      simp only [Except.ok.injEq] at h
      subst h
      refine ⟨cellCount_store hl _, markedCount_store_same hl _ rfl, ?_⟩
      intro a oa hla
      show ∃ o1, load (store vm.heap p _) a = some o1 ∧ _
      rw [load_store hl]
      by_cases hap : a = p
      · subst hap
        rw [hl] at hla
        cases hla
        exact ⟨{ o with next := q }, by simp, rfl⟩
      · exact ⟨oa, by simp [hap, hla], rfl⟩

theorem readLink_error {vm : VM} {link : Link} {e : Fault} (h : readLink vm link = .error e) :
    e = .invalidPointer := by
  cases link with
  | first => simp [readLink] at h
  | nextOf p =>
    simp only [readLink] at h
    split at h
    · simp only [Except.error.injEq] at h; exact h.symm
    · simp at h

theorem writeLink_error {vm : VM} {q : Nat} {link : Link} {e : Fault}
    (h : writeLink vm q link = .error e) : e = .invalidPointer := by
  cases link with
  | first => simp [writeLink] at h
  | nextOf p =>
    simp only [writeLink] at h
    split at h
    · simp only [Except.error.injEq] at h; exact h.symm
    · simp at h

theorem checkInt_error {x : Int} {e : Fault} (h : checkInt x = .error e) :
    e = .intOverflow := by
  unfold checkInt at h
  split at h
  · simp at h
  · simp only [Except.error.injEq] at h; exact h.symm

theorem sweepLoop_ne_outOfFuel : ∀ (fuel : Nat) (vm : VM) (link : Link),
    cellCount vm.heap + markedCount vm.heap < fuel →
    sweepLoop fuel vm link ≠ .error .outOfFuel := by
  intro fuel
  induction fuel with
  | zero => intro vm link h; omega
  | succ fuel ih =>
    intro vm link hlt
    simp only [sweepLoop]
    cases hr : readLink vm link with
    | error e =>
      have := readLink_error hr
      subst this
      simp
    | ok cur =>
      simp only
      by_cases hc : cur = 0
      · simp [hc]
      · rw [if_neg hc]
        cases hl : load vm.heap cur with
        | none => simp
        | some o =>
          simp only
          by_cases hm : o.marked = 0
          · rw [if_pos hm]
            cases hw : writeLink vm o.next link with
            | error e =>
              have := writeLink_error hw
              subst this
              simp
            | ok vm1 =>
              simp only
              cases hn : checkInt (vm1.numObjects - 1) with
              | error e =>
                have := checkInt_error hn
                subst this
                simp
              | ok n =>
                simp only
                obtain ⟨c1, c2, c3⟩ := writeLink_counts hw
                obtain ⟨o1, hl1, hm1⟩ := c3 cur o hl
                apply ih
                show cellCount (free vm1.heap cur) + markedCount (free vm1.heap cur) < fuel
                have f1 := cellCount_free hl1
                have f2 := markedCount_free_le hl1
                omega
          · rw [if_neg hm]
            apply ih
            show cellCount (store vm.heap cur { o with marked := 0 }) +
              markedCount (store vm.heap cur { o with marked := 0 }) < fuel
            have f1 := cellCount_store hl { o with marked := 0 }
            have f2 := markedCount_store_unmark hl hm { o with marked := 0 } rfl
            omega

theorem sweep_ne_outOfFuel (vm : VM) : sweep vm ≠ .error .outOfFuel :=
  sweepLoop_ne_outOfFuel _ vm .first (Nat.lt_succ_self _)

theorem markAux_error : ∀ (fuel : Nat) (h : Heap) (p : Nat) (e : Fault),
    markAux fuel h p = .error e → e = .invalidPointer ∨ e = .outOfFuel := by
  intro fuel
  induction fuel with
  | zero =>
    intro h p e he
    simp only [markAux, Except.error.injEq] at he
    exact Or.inr he.symm
  | succ fuel ih =>
    intro h p e he
    simp only [markAux] at he
    split at he
    · simp only [Except.error.injEq] at he
      exact Or.inl he.symm
    · split at he
      · simp at he
      · split at he
        · split at he
          · rename_i e1 h1
            simp only [Except.error.injEq] at he
            subst he
            exact ih _ _ _ h1
          · split at he
            · rename_i e2 h2
              simp only [Except.error.injEq] at he
              subst he
              exact ih _ _ _ h2
            · simp at he
        · simp at he

theorem mark_error {h : Heap} {p : Nat} {e : Fault} (he : mark h p = .error e) :
    e = .invalidPointer := by
  rcases markAux_error _ _ _ _ he with h1 | h1
  · exact h1
  · subst h1
    exact absurd he (mark_ne_outOfFuel h p)

theorem markAllLoop_error (stack : Nat → Ptr) : ∀ (n i : Nat) (h : Heap) (e : Fault),
    markAllLoop stack n i h = .error e →
    e = .invalidPointer ∨ (e = .outOfBounds ∧ 256 < i + n) := by
  intro n
  induction n with
  | zero => intro i h e he; simp [markAllLoop] at he
  | succ n ih =>
    intro i h e he
    simp only [markAllLoop] at he
    split at he
    · rename_i hi
      simp only [Except.error.injEq] at he
      simp only [STACK_MAX] at hi
      exact Or.inr ⟨he.symm, by omega⟩
    · split at he
      · rename_i e1 h1
        simp only [Except.error.injEq] at he
        subst he
        exact Or.inl (mark_error h1)
      · split at he
        · rename_i e2 h2
          simp only [Except.error.injEq] at he
          subst he
          rcases ih _ _ _ h2 with h3 | ⟨h3, h4⟩
          · exact Or.inl h3
          · exact Or.inr ⟨h3, by omega⟩
        · simp at he

theorem gc_ne_outOfFuel (vm : VM) : gc vm ≠ .error .outOfFuel := by
  intro h
  unfold gc markAll markAllLog at h
  cases e : markAllLoop vm.stack vm.stackSize.toNat 0 vm.heap with
  | error x =>
    rw [e] at h
    simp only [Except.error.injEq] at h
    subst h
    rcases markAllLoop_error _ _ _ _ _ e with h1 | ⟨h1, _⟩ <;> cases h1
  | ok hw =>
    obtain ⟨h1, w⟩ := hw
    simp only [e] at h
    cases es : sweep { vm with heap := h1 } with
    | error x =>
      rw [es] at h
      simp only [Except.error.injEq] at h
      subst h
      exact sweep_ne_outOfFuel _ es
    | ok vm2 =>
      simp only [es] at h
      cases hm : (if vm2.numObjects = 0 then Except.ok INITIAL_OBJ_MAX
          else checkInt (vm2.numObjects * 2)) with
      | error x =>
        rw [hm] at h
        simp only [Except.error.injEq] at h
        subst h
        split at hm
        · simp at hm
        · cases checkInt_error hm
      | ok m =>
        rw [hm] at h
        simp only at h
        cases hc : checkInt (vm.numObjects - vm2.numObjects) with
        | error x =>
          rw [hc] at h
          simp only [Except.error.injEq] at h
          subst h
          cases checkInt_error hc
        | ok c => rw [hc] at h; simp at h

theorem IsList.head_eq {h : Heap} {p : Nat} {l : List Ptr} (hl : IsList h p l) :
    p = l.headD 0 := by
  cases l with
  | nil => exact hl
  | cons a l => exact hl.1

theorem IsList.next_eq {h h1 : Heap} : ∀ {l : List Ptr} {x x1 : Nat},
    IsList h x l → IsList h1 x1 l →
    ∀ a ∈ l, ∀ o o1, load h a = some o → load h1 a = some o1 → o.next = o1.next := by
  intro l
  induction l with
  | nil => intro x x1 _ _ a ha; simp at ha
  | cons b l ih =>
    intro x x1 hl hl1 a ha o o1 hlo hlo1
    obtain ⟨_, _, ob, hb, hrest⟩ := hl
    obtain ⟨_, _, ob1, hb1, hrest1⟩ := hl1
    by_cases hab : a = b
    · subst hab
      rw [hb] at hlo
      rw [hb1] at hlo1
      cases hlo
      cases hlo1
      rw [hrest.head_eq, hrest1.head_eq]
    · rcases List.mem_cons.1 ha with hab1 | ha1
      · exact absurd hab1 hab
      · exact ih hrest hrest1 a ha1 o o1 hlo hlo1

theorem GcPost.reach {vm vm1 : VM} {r : Report} (hp : GcPost vm vm1 r) {p : Nat}
    (hr : Reach vm p) : Reach vm1 p := by
  induction hr with
  | root p hp1 =>
    refine Reach.root p ?_
    simpa [roots, hp.stack_eq, hp.stackSize_eq] using hp1
  | child p c hrp hc ih =>
    obtain ⟨o, hl, hty, hcc⟩ := hc
    obtain ⟨n, hn⟩ := hp.survivor p ((hp.mem_arena p).2 hrp) o hl
    exact Reach.child p c ih ⟨_, hn, hty, hcc⟩

theorem GcPost.idem {vm vm1 vm2 : VM} {r r2 : Report} (hp : GcPost vm vm1 r)
    (hp2 : GcPost vm1 vm2 r2) :
    arena vm2 = arena vm1 ∧ (∀ p, load vm2.heap p = load vm1.heap p) ∧
      vm2.firstObject = vm1.firstObject ∧ vm2.numObjects = vm1.numObjects ∧
      vm2.maxObjects = vm1.maxObjects ∧ r2.collected = 0 := by
  have hsub : ∀ p ∈ arena vm1, p ∈ arena vm2 := fun p hp1 =>
    (hp2.mem_arena p).2 (hp.reach ((hp.mem_arena p).1 hp1))
  have hnd1 : (arena vm1).Nodup := hp.wf.1.1.2.1
  have hlen : (arena vm1).length ≤ (arena vm2).length :=
    (List.subperm_of_subset hnd1 hsub).length_le
  have harena : arena vm2 = arena vm1 := hp2.sublist.eq_of_length_le hlen
  have hnum : vm2.numObjects = vm1.numObjects := by
    rw [hp2.numObjects_eq, hp.numObjects_eq, harena]
  have hl1 := hp.wf.1.isList_arena
  have hl2 := hp2.wf.1.isList_arena
  rw [harena] at hl2
  refine ⟨harena, ?_, ?_, hnum, ?_, ?_⟩
  · intro p
    by_cases hpa : p ∈ arena vm1
    · obtain ⟨o, hlo⟩ := hl1.loaded p hpa
      obtain ⟨n, hn⟩ := hp2.survivor p (hsub p hpa) o hlo
      have := IsList.next_eq hl1 hl2 p hpa o _ hlo hn
      rw [hn, hlo]
      simp only at this
      rw [← this]
    · exact hp2.other p hpa
  · rw [hl2.head_eq, hl1.head_eq]
  · rw [hp2.maxObjects_eq, hp.maxObjects_eq, hnum]
  · rw [hp2.collected_eq, hnum]; simp

theorem reachable_oneInt : Reachable (stateOf (oneIntState bumpMalloc)) :=
  Reachable.step newVM _ Reachable.init
    (Step.pushInt bumpMalloc newVM _ 1 mallocOK_bumpMalloc rfl)

theorem reachable_oneIntCollected :
    Reachable (collected (stateOf (oneIntState bumpMalloc))) :=
  Reachable.step _ _ reachable_oneInt
    (Step.gc (stateOf (oneIntState bumpMalloc)) _ { collected := 0, remaining := 1 } rfl)

/-! ## The test sequences, for any allocator -/

theorem push_eq_of_lt {vm : VM} (h0 : 0 ≤ vm.stackSize) (h1 : vm.stackSize < STACK_MAX)
    (v : Ptr) : push vm v = .ok { vm with
      stack := Function.update vm.stack vm.stackSize.toNat v, stackSize := vm.stackSize + 1 } := by
  unfold push assert
  simp [h1, not_lt.2 h0]

theorem pushAll_ok : ∀ (vs : List Ptr) (vm : VM), 0 ≤ vm.stackSize →
    vm.stackSize + vs.length ≤ STACK_MAX →
    ∃ vm1, pushAll vm vs = .ok vm1 ∧ vm1.stackSize = vm.stackSize + vs.length := by
  intro vs
  induction vs with
  | nil => intro vm _ _; exact ⟨vm, rfl, by simp⟩
  | cons v vs ih =>
    intro vm h0 h1
    simp only [List.length_cons, Nat.cast_add, Nat.cast_one] at h1
    have hp := push_eq_of_lt h0 (by omega) v
    obtain ⟨vm1, e1, e2⟩ := ih { vm with
      stack := Function.update vm.stack vm.stackSize.toNat v, stackSize := vm.stackSize + 1 }
      (by show 0 ≤ vm.stackSize + 1; omega) (by show vm.stackSize + 1 + _ ≤ _; omega)
    refine ⟨vm1, ?_, ?_⟩
    · simp only [pushAll, hp]
      exact e1
    · rw [e2]
      show vm.stackSize + 1 + _ = _
      simp only [List.length_cons, Nat.cast_add, Nat.cast_one]
      ring

theorem roots_push (vm : VM) (h0 : 0 ≤ vm.stackSize) (v : Ptr) :
    roots { vm with stack := Function.update vm.stack vm.stackSize.toNat v,
                    stackSize := vm.stackSize + 1 } = roots vm ++ [v] := by
  unfold roots
  have hn : (vm.stackSize + 1).toNat = vm.stackSize.toNat + 1 := by omega
  simp only [hn, List.range_succ, List.map_append, List.map_cons, List.map_nil,
    Function.update_same]
  congr 1
  apply List.map_congr_left
  intro i hi
  have : i ≠ vm.stackSize.toNat := by
    have := List.mem_range.1 hi
    omega
  simp [Function.update_noteq this]

theorem roots_pop (vm : VM) (h0 : 0 < vm.stackSize) :
    roots vm = roots { vm with stackSize := vm.stackSize - 1 } ++
      [vm.stack (vm.stackSize - 1).toNat] := by
  unfold roots
  have hn : vm.stackSize.toNat = (vm.stackSize - 1).toNat + 1 := by omega
  simp only
  rw [hn, List.range_succ, List.map_append]
  simp

theorem shape_newVM : Shape newVM [] [] :=
  ⟨by decide, by decide, fun e he => by simp at he, by decide, by decide⟩

theorem newObject_noGc {malloc : Heap → Ptr} (hm : MallocOK malloc) {vm : VM}
    (hne : vm.numObjects ≠ vm.maxObjects) (h1 : INT_MIN ≤ vm.numObjects + 1)
    (h2 : vm.numObjects + 1 ≤ INT_MAX) (ty : ObjectType) :
    newObject malloc vm ty = .ok ({ vm with
      heap := alloc vm.heap (malloc vm.heap)
        { type := ty, marked := 0, next := vm.firstObject, value := 0, head := 0, tail := 0 },
      firstObject := malloc vm.heap,
      numObjects := vm.numObjects + 1 }, malloc vm.heap) := by
  unfold newObject
  rw [if_neg hne]
  simp only
  rw [if_neg (hm vm.heap).1]
  unfold checkInt
  rw [if_pos ⟨h1, h2⟩]

theorem Shape.numObjects_eq {vm : VM} {C : List (Ptr × Object)} {S : List Ptr}
    (hs : Shape vm C S) : vm.numObjects = C.length := by
  rw [hs.inv.2.2, hs.arena_eq, List.length_map]

theorem Shape.fresh {vm : VM} {C : List (Ptr × Object)} {S : List Ptr} (hs : Shape vm C S)
    {a : Nat} (ha : load vm.heap a = none) : a ∉ C.map Prod.fst := by
  intro hm
  obtain ⟨e, he, rfl⟩ := List.mem_map.1 hm
  rw [hs.loads e he] at ha
  cases ha

theorem shape_alloc {vm : VM} {C : List (Ptr × Object)} {S : List Ptr} (hs : Shape vm C S)
    {a : Nat} (ha0 : a ≠ 0) (ha : load vm.heap a = none) (o : Object)
    (ho : o.next = vm.firstObject) :
    Shape { vm with heap := alloc vm.heap a o, firstObject := a,
                    numObjects := vm.numObjects + 1 } ((a, o) :: C) S := by
  obtain ⟨h1, h2⟩ := arenaInv_alloc o ha0 ha ho hs.inv
  refine ⟨h1, ?_, ?_, hs.roots_eq, hs.size_eq⟩
  · rw [h2, hs.arena_eq]; rfl
  · intro e he
    show load (alloc vm.heap a o) e.1 = some e.2
    rw [load_alloc _ ha0]
    rcases List.mem_cons.1 he with rfl | he
    · simp
    · have hne : e.1 ≠ a := by
        intro heq
        exact hs.fresh ha (List.mem_map.2 ⟨e, he, heq⟩)
      rw [if_neg hne]
      exact hs.loads e he

theorem shape_store_head {vm : VM} {C : List (Ptr × Object)} {S : List Ptr} {a : Nat}
    {o : Object} (hs : Shape vm ((a, o) :: C) S) (o1 : Object) (ho : o1.next = o.next) :
    Shape { vm with heap := store vm.heap a o1 } ((a, o1) :: C) S := by
  have hl : load vm.heap a = some o := hs.loads (a, o) (List.mem_cons_self _ _)
  obtain ⟨h1, h2⟩ := arenaInv_store hl ho hs.inv
  have hnd : (arena vm).Nodup := hs.inv.2.1
  rw [hs.arena_eq] at hnd
  have hanot : a ∉ C.map Prod.fst := (List.nodup_cons.1 hnd).1
  refine ⟨h1, ?_, ?_, hs.roots_eq, hs.size_eq⟩
  · rw [h2, hs.arena_eq]; rfl
  · intro e he
    show load (store vm.heap a o1) e.1 = some e.2
    rw [load_store hl]
    rcases List.mem_cons.1 he with rfl | he
    · simp
    · have hne : e.1 ≠ a := by
        intro heq
        exact hanot (List.mem_map.2 ⟨e, he, heq⟩)
      rw [if_neg hne]
      exact hs.loads e (List.mem_cons_of_mem _ he)

theorem shape_store {vm : VM} {C : List (Ptr × Object)} {S : List Ptr} (hs : Shape vm C S)
    {a : Nat} {o : Object} (hl : load vm.heap a = some o) (o1 : Object)
    (ho : o1.next = o.next) :
    Shape { vm with heap := store vm.heap a o1 }
      (C.map (fun e => if e.1 = a then (a, o1) else e)) S := by
  obtain ⟨h1, h2⟩ := arenaInv_store hl ho hs.inv
  refine ⟨h1, ?_, ?_, hs.roots_eq, hs.size_eq⟩
  · rw [h2, hs.arena_eq, List.map_map]
    apply List.map_congr_left
    intro e _
    by_cases he : e.1 = a
    · simp [he]
    · simp [he]
  · intro e he
    show load (store vm.heap a o1) e.1 = some e.2
    obtain ⟨e0, he0, rfl⟩ := List.mem_map.1 he
    rw [load_store hl]
    by_cases hea : e0.1 = a
    · simp [hea]
    · simp [hea, hs.loads e0 he0]

theorem shape_push {vm : VM} {C : List (Ptr × Object)} {S : List Ptr} (hs : Shape vm C S)
    (hlt : S.length < 256) (v : Ptr) :
    ∃ vm1, push vm v = .ok vm1 ∧ Shape vm1 C (S ++ [v]) ∧ vm1.heap = vm.heap ∧
      vm1.firstObject = vm.firstObject ∧ vm1.maxObjects = vm.maxObjects := by
  have h0 : 0 ≤ vm.stackSize := by rw [hs.size_eq]; exact Int.natCast_nonneg _
  have h1 : vm.stackSize < STACK_MAX := by
    rw [hs.size_eq]; simp only [STACK_MAX]; omega
  refine ⟨_, push_eq_of_lt h0 h1 v, ⟨arenaInv_congr rfl rfl rfl hs.inv, ?_, hs.loads, ?_, ?_⟩,
    rfl, rfl, rfl⟩
  · rw [← hs.arena_eq]; exact arena_congr rfl rfl
  · rw [roots_push vm h0 v, hs.roots_eq]
  · show vm.stackSize + 1 = _
    rw [hs.size_eq]; simp

theorem shape_pop {vm : VM} {C : List (Ptr × Object)} {S : List Ptr} {x : Ptr}
    (hs : Shape vm C (S ++ [x])) (hle : S.length < 256) :
    ∃ vm1, pop vm = .ok (vm1, x) ∧ Shape vm1 C S ∧ vm1.heap = vm.heap ∧
      vm1.firstObject = vm.firstObject ∧ vm1.maxObjects = vm.maxObjects := by
  have hsz : vm.stackSize = S.length + 1 := by
    rw [hs.size_eq]; simp
  have h0 : 0 < vm.stackSize := by omega
  have hpop := roots_pop vm h0
  rw [hs.roots_eq] at hpop
  have hlen : (roots { vm with stackSize := vm.stackSize - 1 }).length = S.length := by
    simp [roots, hsz]
  obtain ⟨hr1, hr2⟩ := List.append_inj' hpop (by simp)
  have hx : vm.stack (vm.stackSize - 1).toNat = x := by
    simpa using hr2.symm
  have hpopeq : pop vm = .ok ({ vm with stackSize := vm.stackSize - 1 }, x) := by
    unfold pop assert
    have h3 : ¬ (STACK_MAX ≤ vm.stackSize - 1) := by simp only [STACK_MAX]; omega
    simp only [gt_iff_lt, h0, decide_True, if_true, h3, if_false, hx]
  refine ⟨_, hpopeq, ⟨arenaInv_congr rfl rfl rfl hs.inv, ?_, hs.loads, hr1.symm, ?_⟩,
    rfl, rfl, rfl⟩
  · rw [← hs.arena_eq]; exact arena_congr rfl rfl
  · show vm.stackSize - 1 = _
    omega

theorem pushInt_shape {malloc : Heap → Ptr} (hm : MallocOK malloc) {vm : VM}
    {C : List (Ptr × Object)} {S : List Ptr} (hs : Shape vm C S)
    (hne : vm.numObjects ≠ vm.maxObjects) (hC : C.length < 2147483647) (hlt : S.length < 256)
    (n : Int) :
    ∃ a vm1, pushInt malloc vm n = .ok vm1 ∧ a ≠ 0 ∧ a ∉ C.map Prod.fst ∧
      Shape vm1
        ((a, { type := OBJ_INT, marked := 0, next := vm.firstObject, value := n, head := 0,
               tail := 0 }) :: C) (S ++ [a]) ∧
      vm1.firstObject = a ∧ vm1.maxObjects = vm.maxObjects := by
  have hnum := hs.numObjects_eq
  have hnew := newObject_noGc hm hne (by rw [hnum]; simp only [INT_MIN]; omega)
    (by rw [hnum]; simp only [INT_MAX]; omega) OBJ_INT
  have ha0 := (hm vm.heap).1
  have hfree := (hm vm.heap).2
  have hsA := shape_alloc hs ha0 hfree
    { type := OBJ_INT, marked := 0, next := vm.firstObject, value := 0, head := 0, tail := 0 }
    rfl
  have hlA := hsA.loads _ (List.mem_cons_self _ _)
  have hsB := shape_store_head hsA
    { type := OBJ_INT, marked := 0, next := vm.firstObject, value := n, head := 0, tail := 0 }
    rfl
  obtain ⟨vm1, hp, hs1, _, hf1, hm1⟩ := shape_push hsB hlt (malloc vm.heap)
  refine ⟨malloc vm.heap, vm1, ?_, ha0, hs.fresh hfree, hs1, hf1, hm1⟩
  unfold pushInt
  rw [hnew]
  simp only at hlA ⊢
  rw [hlA]
  exact hp

theorem pushPair_shape {malloc : Heap → Ptr} (hm : MallocOK malloc) {vm : VM}
    {C : List (Ptr × Object)} {S : List Ptr} {x y : Ptr} (hs : Shape vm C (S ++ [x, y]))
    (hne : vm.numObjects ≠ vm.maxObjects) (hC : C.length < 2147483647)
    (hlt : S.length < 254) :
    ∃ a vm1, pushPair malloc vm = .ok (vm1, a) ∧ a ≠ 0 ∧ a ∉ C.map Prod.fst ∧
      Shape vm1
        ((a, { type := OBJ_PAIR, marked := 0, next := vm.firstObject, value := 0, head := x,
               tail := y }) :: C) (S ++ [a]) ∧
      vm1.firstObject = a ∧ vm1.maxObjects = vm.maxObjects := by
  have hnum := hs.numObjects_eq
  have hnew := newObject_noGc hm hne (by rw [hnum]; simp only [INT_MIN]; omega)
    (by rw [hnum]; simp only [INT_MAX]; omega) OBJ_PAIR
  have ha0 := (hm vm.heap).1
  have hfree := (hm vm.heap).2
  have hsA := shape_alloc hs ha0 hfree
    { type := OBJ_PAIR, marked := 0, next := vm.firstObject, value := 0, head := 0, tail := 0 }
    rfl
  have hsplit : S ++ [x, y] = (S ++ [x]) ++ [y] := by simp
  rw [hsplit] at hsA
  obtain ⟨vm2, hp2, hs2, _, hf2, hm2⟩ := shape_pop hsA (by simp; omega)
  have hl2 := hs2.loads _ (List.mem_cons_self _ _)
  have hs3 := shape_store_head hs2
    { type := OBJ_PAIR, marked := 0, next := vm.firstObject, value := 0, head := 0, tail := y }
    rfl
  obtain ⟨vm4, hp4, hs4, _, hf4, hm4⟩ := shape_pop hs3 (by omega)
  have hl4 := hs4.loads _ (List.mem_cons_self _ _)
  have hs5 := shape_store_head hs4
    { type := OBJ_PAIR, marked := 0, next := vm.firstObject, value := 0, head := x, tail := y }
    rfl
  obtain ⟨vm6, hp6, hs6, _, hf6, hm6⟩ := shape_push hs5 (by omega) (malloc vm.heap)
  refine ⟨malloc vm.heap, vm6, ?_, ha0, hs.fresh hfree, hs6, ?_, ?_⟩
  · unfold pushPair
    rw [hnew]
    simp only at hp2 hl2 hp4 hl4 hp6 ⊢
    rw [hp2]
    simp only
    rw [hl2]
    simp only
    rw [hp4]
    simp only
    rw [hl4]
    simp only
    rw [hp6]
  · rw [hf6]; show vm4.firstObject = _; rw [hf4]; show vm2.firstObject = _; rw [hf2]
  · rw [hm6]; show vm4.maxObjects = _; rw [hm4]; show vm2.maxObjects = _; rw [hm2]

theorem setTail_shape {vm : VM} {C : List (Ptr × Object)} {S : List Ptr} (hs : Shape vm C S)
    {p : Nat} {o : Object} (hmem : (p, o) ∈ C) (q : Ptr) :
    ∃ vm1, setTail vm p q = .ok vm1 ∧
      Shape vm1 (C.map (fun e => if e.1 = p then (p, { o with tail := q }) else e)) S ∧
      vm1.firstObject = vm.firstObject ∧ vm1.maxObjects = vm.maxObjects := by
  have hl : load vm.heap p = some o := hs.loads _ hmem
  refine ⟨{ vm with heap := store vm.heap p { o with tail := q } }, ?_,
    shape_store hs hl { o with tail := q } rfl, rfl, rfl⟩
  unfold setTail
  rw [hl]

theorem setHead_shape {vm : VM} {C : List (Ptr × Object)} {S : List Ptr} (hs : Shape vm C S)
    {p : Nat} {o : Object} (hmem : (p, o) ∈ C) (q : Ptr) :
    ∃ vm1, setHead vm p q = .ok vm1 ∧
      Shape vm1 (C.map (fun e => if e.1 = p then (p, { o with head := q }) else e)) S ∧
      vm1.firstObject = vm.firstObject ∧ vm1.maxObjects = vm.maxObjects := by
  have hl : load vm.heap p = some o := hs.loads _ hmem
  refine ⟨{ vm with heap := store vm.heap p { o with head := q } }, ?_,
    shape_store hs hl { o with head := q } rfl, rfl, rfl⟩
  unfold setHead
  rw [hl]

theorem Shape.mem_of_load {vm : VM} {C : List (Ptr × Object)} {S : List Ptr}
    (hs : Shape vm C S) {p : Nat} (hp : p ∈ arena vm) {o : Object}
    (ho : load vm.heap p = some o) : (p, o) ∈ C := by
  rw [hs.arena_eq] at hp
  obtain ⟨e, he, rfl⟩ := List.mem_map.1 hp
  rw [hs.loads e he] at ho
  cases ho
  exact he

theorem Shape.isClosed {vm : VM} {C : List (Ptr × Object)} {S : List Ptr} (hs : Shape vm C S)
    (hlen : S.length ≤ 256) (hroots : ∀ r ∈ S, r ∈ C.map Prod.fst)
    (hch : ∀ e ∈ C, e.2.type = OBJ_PAIR →
      e.2.head ∈ C.map Prod.fst ∧ e.2.tail ∈ C.map Prod.fst) : Closed vm := by
  refine ⟨hs.inv, ⟨?_, ?_⟩, ?_, ?_⟩
  · rw [hs.size_eq]; exact Int.natCast_nonneg _
  · rw [hs.size_eq]; simp only [STACK_MAX]; omega
  · intro p hp
    rw [hs.roots_eq] at hp
    rw [hs.arena_eq]
    exact hroots p hp
  · intro p hp o ho hty
    have hmem := hs.mem_of_load hp (by simpa using ho)
    rw [hs.arena_eq]
    exact hch (p, o) hmem hty

theorem Shape.unmarked {vm : VM} {C : List (Ptr × Object)} {S : List Ptr} (hs : Shape vm C S)
    (hm : ∀ e ∈ C, e.2.marked = 0) : Unmarked vm := by
  intro p hp o ho
  exact hm (p, o) (hs.mem_of_load hp (by simpa using ho))

theorem Shape.child {vm : VM} {C : List (Ptr × Object)} {S : List Ptr} (hs : Shape vm C S)
    {p : Nat} {o : Object} (hmem : (p, o) ∈ C) (hty : o.type = OBJ_PAIR) :
    Child vm.heap p o.head ∧ Child vm.heap p o.tail :=
  ⟨⟨o, hs.loads _ hmem, hty, Or.inl rfl⟩, ⟨o, hs.loads _ hmem, hty, Or.inr rfl⟩⟩

theorem Shape.child_inv {vm : VM} {C : List (Ptr × Object)} {S : List Ptr}
    (hs : Shape vm C S) {p c : Nat} {o : Object} (hmem : (p, o) ∈ C)
    (hc : Child vm.heap p c) : o.type = OBJ_PAIR ∧ (c = o.head ∨ c = o.tail) := by
  obtain ⟨o1, hl, hty, hcc⟩ := hc
  rw [hs.loads _ hmem] at hl
  cases hl
  exact ⟨hty, hcc⟩

theorem gc_count {vm : VM} (hw : WellFormed vm) {R : List Ptr} (hR : ∀ p, Reach vm p ↔ p ∈ R)
    (hnd : R.Nodup) :
    ∃ vm1 r, gc vm = .ok (vm1, r) ∧ vm1.numObjects = R.length ∧
      (arena vm1).length = R.length ∧ r.remaining = R.length := by
  obtain ⟨vm1, r, hg, post⟩ := gc_wellFormed hw
  have hperm : (arena vm1).Perm R :=
    (List.perm_ext_iff_of_nodup post.wf.1.1.2.1 hnd).2
      (fun p => (post.mem_arena p).trans (hR p))
  have hlen := hperm.length_eq
  refine ⟨vm1, r, hg, ?_, hlen, ?_⟩
  · rw [post.numObjects_eq, hlen]
  · rw [post.remaining_eq, post.numObjects_eq, hlen]

theorem test3State_shape {malloc : Heap → Ptr} (hm : MallocOK malloc) :
    ∃ a1 a2 a3 a4 a5 a6 a7 vm, test3State malloc = .ok vm ∧ vm.maxObjects = 8 ∧
      Shape vm
        [(a7, { type := OBJ_PAIR, marked := 0, next := a6, value := 0, head := a3, tail := a6 }),
         (a6, { type := OBJ_PAIR, marked := 0, next := a5, value := 0, head := a4, tail := a5 }),
         (a5, { type := OBJ_INT, marked := 0, next := a4, value := 4, head := 0, tail := 0 }),
         (a4, { type := OBJ_INT, marked := 0, next := a3, value := 3, head := 0, tail := 0 }),
         (a3, { type := OBJ_PAIR, marked := 0, next := a2, value := 0, head := a1, tail := a2 }),
         (a2, { type := OBJ_INT, marked := 0, next := a1, value := 2, head := 0, tail := 0 }),
         (a1, { type := OBJ_INT, marked := 0, next := 0, value := 1, head := 0, tail := 0 })]
        [a7] := by
  obtain ⟨a1, v1, e1, _, _, s1, f1, m1⟩ := pushInt_shape hm shape_newVM (by decide) (by simp)
    (by simp) 1
  have n1 := s1.numObjects_eq
  obtain ⟨a2, v2, e2, _, _, s2, f2, m2⟩ := pushInt_shape hm s1 (by rw [n1, m1]; simp [newVM, INITIAL_OBJ_MAX])
    (by simp) (by simp) 2
  have n2 := s2.numObjects_eq
  obtain ⟨a3, v3, e3, _, _, s3, f3, m3⟩ := pushPair_shape hm (S := []) (x := a1) (y := a2)
    (by simpa using s2) (by rw [n2, m2, m1]; simp [newVM, INITIAL_OBJ_MAX]) (by simp) (by simp)
  have n3 := s3.numObjects_eq
  obtain ⟨a4, v4, e4, _, _, s4, f4, m4⟩ := pushInt_shape hm s3 (by rw [n3, m3, m2, m1]; simp [newVM, INITIAL_OBJ_MAX])
    (by simp) (by simp) 3
  have n4 := s4.numObjects_eq
  obtain ⟨a5, v5, e5, _, _, s5, f5, m5⟩ := pushInt_shape hm s4
    (by rw [n4, m4, m3, m2, m1]; simp [newVM, INITIAL_OBJ_MAX]) (by simp) (by simp) 4
  have n5 := s5.numObjects_eq
  obtain ⟨a6, v6, e6, _, _, s6, f6, m6⟩ := pushPair_shape hm (S := [a3]) (x := a4) (y := a5)
    (by simpa using s5) (by rw [n5, m5, m4, m3, m2, m1]; simp [newVM, INITIAL_OBJ_MAX]) (by simp) (by simp)
  have n6 := s6.numObjects_eq
  obtain ⟨a7, v7, e7, _, _, s7, f7, m7⟩ := pushPair_shape hm (S := []) (x := a3) (y := a6)
    (by simpa using s6) (by rw [n6, m6, m5, m4, m3, m2, m1]; simp [newVM, INITIAL_OBJ_MAX]) (by simp) (by simp)
  refine ⟨a1, a2, a3, a4, a5, a6, a7, v7, ?_, ?_, ?_⟩
  · simp [test3State, e1, e2, e3, e4, e5, e6, e7, bind, Except.bind, pure, Except.pure]
  · rw [m7, m6, m5, m4, m3, m2, m1]; rfl
  · have hf0 : newVM.firstObject = 0 := rfl
    rw [f6, f5, f4, f3, f2, f1, hf0] at s7
    simpa using s7

theorem test3Run_count {malloc : Heap → Ptr} (hm : MallocOK malloc) :
    ∃ vm1 r, test3Run malloc = .ok (vm1, r) ∧ vm1.numObjects = 7 ∧
      (arena vm1).length = 7 ∧ r.remaining = 7 ∧ r.collected = 0 := by
  obtain ⟨a1, a2, a3, a4, a5, a6, a7, vm, e, hmax, hs⟩ := test3State_shape hm
  have hnum := hs.numObjects_eq
  have hc : Closed vm := hs.isClosed (by simp) (by simp) (by simp)
  have hu : Unmarked vm := hs.unmarked (by simp)
  have hw : WellFormed vm := ⟨hc, hu, by rw [hnum]; simp [INT_MAX]⟩
  have hnd : (arena vm).Nodup := hc.1.2.1
  rw [hs.arena_eq] at hnd
  have r7 : Reach vm a7 := Reach.root a7 (by rw [hs.roots_eq]; simp)
  have c7 := hs.child (p := a7) (List.mem_cons_self _ _) rfl
  have r3 : Reach vm a3 := Reach.child a7 a3 r7 c7.1
  have r6 : Reach vm a6 := Reach.child a7 a6 r7 c7.2
  have c6 := hs.child (p := a6)
    (o := { type := OBJ_PAIR, marked := 0, next := a5, value := 0, head := a4, tail := a5 })
    (by simp) rfl
  have c3 := hs.child (p := a3)
    (o := { type := OBJ_PAIR, marked := 0, next := a2, value := 0, head := a1, tail := a2 })
    (by simp) rfl
  have r4 : Reach vm a4 := Reach.child a6 a4 r6 c6.1
  have r5 : Reach vm a5 := Reach.child a6 a5 r6 c6.2
  have r1 : Reach vm a1 := Reach.child a3 a1 r3 c3.1
  have r2 : Reach vm a2 := Reach.child a3 a2 r3 c3.2
  have hR : ∀ p, Reach vm p ↔ p ∈ [a7, a6, a5, a4, a3, a2, a1] := by
    intro p
    constructor
    · intro hp
      have := hc.reach_mem hp
      rw [hs.arena_eq] at this
      simpa using this
    · intro hp
      simp only [List.mem_cons, List.mem_singleton, List.not_mem_nil, or_false] at hp
      rcases hp with rfl | rfl | rfl | rfl | rfl | rfl | rfl <;> assumption
  obtain ⟨vm1, r, hg, h1, h2, h3⟩ := gc_count hw hR (by simpa using hnd)
  refine ⟨vm1, r, ?_, by simpa using h1, by simpa using h2, by simpa using h3, ?_⟩
  · simp only [test3Run, e]
    exact hg
  · have := (gc_maxObjects hg).2.2
    rw [this, hnum, h1]
    simp

theorem Shape.nodup {vm : VM} {C : List (Ptr × Object)} {S : List Ptr} (hs : Shape vm C S) :
    (C.map Prod.fst).Nodup := by
  rw [← hs.arena_eq]; exact hs.inv.2.1

theorem test4State_shape {malloc : Heap → Ptr} (hm : MallocOK malloc) :
    ∃ a1 a2 a3 a4 a5 a6 vm, test4State malloc = .ok vm ∧ vm.maxObjects = 8 ∧
      Shape vm
        [(a6, { type := OBJ_PAIR, marked := 0, next := a5, value := 0, head := a4, tail := a3 }),
         (a5, { type := OBJ_INT, marked := 0, next := a4, value := 4, head := 0, tail := 0 }),
         (a4, { type := OBJ_INT, marked := 0, next := a3, value := 3, head := 0, tail := 0 }),
         (a3, { type := OBJ_PAIR, marked := 0, next := a2, value := 0, head := a1, tail := a6 }),
         (a2, { type := OBJ_INT, marked := 0, next := a1, value := 2, head := 0, tail := 0 }),
         (a1, { type := OBJ_INT, marked := 0, next := 0, value := 1, head := 0, tail := 0 })]
        [a3, a6] := by
  obtain ⟨a1, v1, e1, _, _, s1, f1, m1⟩ := pushInt_shape hm shape_newVM (by decide) (by simp)
    (by simp) 1
  have n1 := s1.numObjects_eq
  obtain ⟨a2, v2, e2, _, _, s2, f2, m2⟩ := pushInt_shape hm s1
    (by rw [n1, m1]; simp [newVM, INITIAL_OBJ_MAX]) (by simp) (by simp) 2
  have n2 := s2.numObjects_eq
  obtain ⟨a3, v3, e3, _, _, s3, f3, m3⟩ := pushPair_shape hm (S := []) (x := a1) (y := a2)
    (by simpa using s2) (by rw [n2, m2, m1]; simp [newVM, INITIAL_OBJ_MAX]) (by simp) (by simp)
  have n3 := s3.numObjects_eq
  obtain ⟨a4, v4, e4, _, _, s4, f4, m4⟩ := pushInt_shape hm s3
    (by rw [n3, m3, m2, m1]; simp [newVM, INITIAL_OBJ_MAX]) (by simp) (by simp) 3
  have n4 := s4.numObjects_eq
  obtain ⟨a5, v5, e5, _, _, s5, f5, m5⟩ := pushInt_shape hm s4
    (by rw [n4, m4, m3, m2, m1]; simp [newVM, INITIAL_OBJ_MAX]) (by simp) (by simp) 4
  have n5 := s5.numObjects_eq
  obtain ⟨a6, v6, e6, _, _, s6, f6, m6⟩ := pushPair_shape hm (S := [a3]) (x := a4) (y := a5)
    (by simpa using s5) (by rw [n5, m5, m4, m3, m2, m1]; simp [newVM, INITIAL_OBJ_MAX])
    (by simp) (by simp)
  have hf0 : newVM.firstObject = 0 := rfl
  rw [f5, f4, f3, f2, f1, hf0] at s6
  have hnd := s6.nodup
  simp only [List.map_cons, List.map_nil, List.nodup_cons, List.mem_cons, List.mem_singleton,
    List.not_mem_nil, or_false, not_or, not_false_eq_true, List.nodup_nil, and_true] at hnd
  obtain ⟨⟨h65, h64, h63, h62, h61⟩, ⟨h54, h53, h52, h51⟩, ⟨h43, h42, h41⟩, ⟨h32, h31⟩,
    h21⟩ := hnd
  obtain ⟨v7, e7, s7, f7, m7⟩ := setTail_shape s6 (p := a3)
    (o := { type := OBJ_PAIR, marked := 0, next := a2, value := 0, head := a1, tail := a2 })
    (by simp) a6
  simp only [List.map_cons, List.map_nil, h63, h53, h43, Ne.symm h32, Ne.symm h31, if_true,
    if_false] at s7
  obtain ⟨v8, e8, s8, f8, m8⟩ := setTail_shape s7 (p := a6)
    (o := { type := OBJ_PAIR, marked := 0, next := a5, value := 0, head := a4, tail := a5 })
    (by simp) a3
  simp only [List.map_cons, List.map_nil, Ne.symm h65, Ne.symm h64, Ne.symm h63, Ne.symm h62,
    Ne.symm h61, if_true, if_false] at s8
  refine ⟨a1, a2, a3, a4, a5, a6, v8, ?_, ?_, ?_⟩
  · simp [test4State, e1, e2, e3, e4, e5, e6, e7, e8, bind, Except.bind, pure, Except.pure]
  · rw [m8, m7, m6, m5, m4, m3, m2, m1]; rfl
  · simpa using s8

theorem test4Run_count {malloc : Heap → Ptr} (hm : MallocOK malloc) :
    ∃ vm1 r, test4Run malloc = .ok (vm1, r) ∧ vm1.numObjects = 4 ∧
      (arena vm1).length = 4 ∧ r.remaining = 4 ∧ r.collected = 2 := by
  obtain ⟨a1, a2, a3, a4, a5, a6, vm, e, hmax, hs⟩ := test4State_shape hm
  have hnum := hs.numObjects_eq
  have hc : Closed vm := hs.isClosed (by simp) (by simp) (by simp)
  have hu : Unmarked vm := hs.unmarked (by simp)
  have hw : WellFormed vm := ⟨hc, hu, by rw [hnum]; simp [INT_MAX]⟩
  have hnd := hs.nodup
  simp only [List.map_cons, List.map_nil, List.nodup_cons, List.mem_cons, List.mem_singleton,
    List.not_mem_nil, or_false, not_or, not_false_eq_true, List.nodup_nil, and_true] at hnd
  obtain ⟨⟨h65, h64, h63, h62, h61⟩, ⟨h54, h53, h52, h51⟩, ⟨h43, h42, h41⟩, ⟨h32, h31⟩,
    h21⟩ := hnd
  have hR : ∀ p, Reach vm p ↔ p ∈ [a3, a6, a1, a4] := by
    intro p
    constructor
    · intro hp
      induction hp with
      | root p hp =>
        rw [hs.roots_eq] at hp
        simp only [List.mem_cons, List.mem_singleton, List.not_mem_nil, or_false] at hp ⊢
        rcases hp with rfl | rfl <;> simp
      | child p c _ hch ih =>
        simp only [List.mem_cons, List.mem_singleton, List.not_mem_nil, or_false] at ih ⊢
        rcases ih with rfl | rfl | rfl | rfl
        · have := hs.child_inv (p := p)
            (o := { type := OBJ_PAIR, marked := 0, next := a2, value := 0, head := a1,
                    tail := a6 }) (by simp) hch
          rcases this.2 with rfl | rfl <;> simp
        · have := hs.child_inv (p := p)
            (o := { type := OBJ_PAIR, marked := 0, next := a5, value := 0, head := a4,
                    tail := a3 }) (by simp) hch
          rcases this.2 with rfl | rfl <;> simp
        · have := hs.child_inv (p := p)
            (o := { type := OBJ_INT, marked := 0, next := 0, value := 1, head := 0,
                    tail := 0 }) (by simp) hch
          exact absurd this.1 (by simp)
        · have := hs.child_inv (p := p)
            (o := { type := OBJ_INT, marked := 0, next := a3, value := 3, head := 0,
                    tail := 0 }) (by simp) hch
          exact absurd this.1 (by simp)
    · intro hp
      have r3 : Reach vm a3 := Reach.root a3 (by rw [hs.roots_eq]; simp)
      have r6 : Reach vm a6 := Reach.root a6 (by rw [hs.roots_eq]; simp)
      have c3 := hs.child (p := a3)
        (o := { type := OBJ_PAIR, marked := 0, next := a2, value := 0, head := a1, tail := a6 })
        (by simp) rfl
      have c6 := hs.child (p := a6)
        (o := { type := OBJ_PAIR, marked := 0, next := a5, value := 0, head := a4, tail := a3 })
        (by simp) rfl
      have r1 : Reach vm a1 := Reach.child a3 a1 r3 c3.1
      have r4 : Reach vm a4 := Reach.child a6 a4 r6 c6.1
      simp only [List.mem_cons, List.mem_singleton, List.not_mem_nil, or_false] at hp
      rcases hp with rfl | rfl | rfl | rfl <;> assumption
  have hndR : [a3, a6, a1, a4].Nodup := by
    simp only [List.nodup_cons, List.mem_cons, List.mem_singleton, List.not_mem_nil, or_false,
      not_or, not_false_eq_true, List.nodup_nil, and_true]
    exact ⟨⟨Ne.symm h63, h31, Ne.symm h43⟩, ⟨h61, h64⟩, Ne.symm h41⟩
  obtain ⟨vm1, r, hg, h1, h2, h3⟩ := gc_count hw hR hndR
  refine ⟨vm1, r, ?_, by simpa using h1, by simpa using h2, by simpa using h3, ?_⟩
  · simp only [test4Run, e]
    exact hg
  · have := (gc_maxObjects hg).2.2
    rw [this, hnum, h1]
    simp

theorem selfPairState_shape {malloc : Heap → Ptr} (hm : MallocOK malloc) :
    ∃ a1 a2 a3 vm, selfPairState malloc = .ok vm ∧ vm.maxObjects = 8 ∧
      Shape vm
        [(a3, { type := OBJ_PAIR, marked := 0, next := a2, value := 0, head := a3, tail := a3 }),
         (a2, { type := OBJ_INT, marked := 0, next := a1, value := 2, head := 0, tail := 0 }),
         (a1, { type := OBJ_INT, marked := 0, next := 0, value := 1, head := 0, tail := 0 })]
        [a3] := by
  obtain ⟨a1, v1, e1, _, _, s1, f1, m1⟩ := pushInt_shape hm shape_newVM (by decide) (by simp)
    (by simp) 1
  have n1 := s1.numObjects_eq
  obtain ⟨a2, v2, e2, _, _, s2, f2, m2⟩ := pushInt_shape hm s1
    (by rw [n1, m1]; simp [newVM, INITIAL_OBJ_MAX]) (by simp) (by simp) 2
  have n2 := s2.numObjects_eq
  obtain ⟨a3, v3, e3, _, _, s3, f3, m3⟩ := pushPair_shape hm (S := []) (x := a1) (y := a2)
    (by simpa using s2) (by rw [n2, m2, m1]; simp [newVM, INITIAL_OBJ_MAX]) (by simp) (by simp)
  have hf0 : newVM.firstObject = 0 := rfl
  rw [f2, f1, hf0] at s3
  have hnd := s3.nodup
  simp only [List.map_cons, List.map_nil, List.nodup_cons, List.mem_cons, List.mem_singleton,
    List.not_mem_nil, or_false, not_or, not_false_eq_true, List.nodup_nil, and_true] at hnd
  obtain ⟨⟨h32, h31⟩, h21⟩ := hnd
  obtain ⟨v4, e4, s4, f4, m4⟩ := setHead_shape s3 (p := a3)
    (o := { type := OBJ_PAIR, marked := 0, next := a2, value := 0, head := a1, tail := a2 })
    (by simp) a3
  simp only [List.map_cons, List.map_nil, Ne.symm h32, Ne.symm h31, if_true, if_false] at s4
  obtain ⟨v5, e5, s5, f5, m5⟩ := setTail_shape s4 (p := a3)
    (o := { type := OBJ_PAIR, marked := 0, next := a2, value := 0, head := a3, tail := a2 })
    (by simp) a3
  simp only [List.map_cons, List.map_nil, Ne.symm h32, Ne.symm h31, if_true, if_false] at s5
  refine ⟨a1, a2, a3, v5, ?_, ?_, ?_⟩
  · simp [selfPairState, e1, e2, e3, e4, e5, bind, Except.bind, pure, Except.pure]
  · rw [m5, m4, m3, m2, m1]; rfl
  · simpa using s5

theorem selfPairRun_count {malloc : Heap → Ptr} (hm : MallocOK malloc) :
    ∃ vm1 r, selfPairRun malloc = .ok (vm1, r) ∧ vm1.numObjects = 1 ∧
      (arena vm1).length = 1 ∧ r.remaining = 1 ∧ r.collected = 2 := by
  obtain ⟨a1, a2, a3, vm, e, hmax, hs⟩ := selfPairState_shape hm
  have hnum := hs.numObjects_eq
  have hc : Closed vm := hs.isClosed (by simp) (by simp) (by simp)
  have hu : Unmarked vm := hs.unmarked (by simp)
  have hw : WellFormed vm := ⟨hc, hu, by rw [hnum]; simp [INT_MAX]⟩
  have hR : ∀ p, Reach vm p ↔ p ∈ [a3] := by
    intro p
    constructor
    · intro hp
      induction hp with
      | root p hp =>
        rw [hs.roots_eq] at hp
        exact hp
      | child p c _ hch ih =>
        simp only [List.mem_singleton] at ih ⊢
        subst ih
        have := hs.child_inv (p := p)
          (o := { type := OBJ_PAIR, marked := 0, next := a2, value := 0, head := p,
                  tail := p }) (by simp) hch
        rcases this.2 with rfl | rfl <;> rfl
    · intro hp
      simp only [List.mem_singleton] at hp
      subst hp
      exact Reach.root p (by rw [hs.roots_eq]; simp)
  obtain ⟨vm1, r, hg, h1, h2, h3⟩ := gc_count hw hR (List.nodup_singleton a3)
  refine ⟨vm1, r, ?_, by simpa using h1, by simpa using h2, by simpa using h3, ?_⟩
  · simp only [selfPairRun, e]
    exact hg
  · have := (gc_maxObjects hg).2.2
    rw [this, hnum, h1]
    simp

/-! ## Allocation, the stack operations and closed states -/

theorem IsList.unique {h : Heap} : ∀ {l l1 : List Ptr} {p : Nat},
    IsList h p l → IsList h p l1 → l = l1 := by
  intro l
  induction l with
  | nil =>
    intro l1 p hl hl1
    have hp : p = 0 := hl
    subst hp
    cases l1 with
    | nil => rfl
    | cons a l1 =>
      obtain ⟨h1, h2, _⟩ := hl1
      exact absurd h1.symm h2
  | cons a l ih =>
    intro l1 p hl hl1
    obtain ⟨h1, h2, o, ho, hrest⟩ := hl
    subst h1
    cases l1 with
    | nil => exact absurd hl1 h2
    | cons b l1 =>
      obtain ⟨g1, _, o1, ho1, hrest1⟩ := hl1
      subst g1
      rw [ho] at ho1
      cases ho1
      rw [ih hrest hrest1]

theorem IsList.suffix {h : Heap} : ∀ {l : List Ptr} {p : Nat}, IsList h p l →
    ∀ a ∈ l, ∃ l1, IsList h a (a :: l1) ∧ l1.length < l.length := by
  intro l
  induction l with
  | nil => intro p _ a ha; simp at ha
  | cons b l ih =>
    intro p hl a ha
    obtain ⟨h1, h2, o, ho, hrest⟩ := hl
    rcases List.mem_cons.1 ha with rfl | ha
    · exact ⟨l, ⟨rfl, h2, o, ho, hrest⟩, by simp⟩
    · obtain ⟨l1, hl1, hlen⟩ := ih hrest a ha
      exact ⟨l1, hl1, by simp only [List.length_cons]; omega⟩

theorem IsList.distinct {h : Heap} : ∀ {l : List Ptr} {p : Nat}, IsList h p l → l.Nodup := by
  intro l
  induction l with
  | nil => intro p _; exact List.nodup_nil
  | cons a l ih =>
    intro p hl
    obtain ⟨h1, h2, o, ho, hrest⟩ := hl
    refine List.nodup_cons.2 ⟨?_, ih hrest⟩
    intro ha
    obtain ⟨l1, hl1, hlen⟩ := IsList.suffix hrest a ha
    have hl0 : IsList h a (a :: l) := ⟨rfl, h2, o, ho, hrest⟩
    have := IsList.unique hl0 hl1
    simp only [List.cons.injEq, true_and] at this
    rw [this] at hlen
    exact absurd hlen (lt_irrefl _)

theorem arena_nodup {vm : VM} (hw : (arenaWalk vm).isSome) : (arena vm).Nodup :=
  (arena_isList hw).distinct

theorem writeLink_stack {vm vm1 : VM} {q : Nat} {link : Link}
    (h : writeLink vm q link = .ok vm1) :
    vm1.stack = vm.stack ∧ vm1.stackSize = vm.stackSize := by
  cases link with
  | first =>
    simp only [writeLink, Except.ok.injEq] at h
    subst h
    exact ⟨rfl, rfl⟩
  | nextOf p =>
    simp only [writeLink] at h
    cases hl : load vm.heap p with
    | none => rw [hl] at h; simp at h
    | some o =>
      rw [hl] at h
      simp only [Except.ok.injEq] at h
      subst h
      exact ⟨rfl, rfl⟩

theorem sweepLoop_stack : ∀ (fuel : Nat) (vm : VM) (link : Link) (vm1 : VM),
    sweepLoop fuel vm link = .ok vm1 →
    vm1.stack = vm.stack ∧ vm1.stackSize = vm.stackSize := by
  intro fuel
  induction fuel with
  | zero => intro vm link vm1 h; simp [sweepLoop] at h
  | succ fuel ih =>
    intro vm link vm1 h
    simp only [sweepLoop] at h
    cases hr : readLink vm link with
    | error x => rw [hr] at h; simp at h
    | ok cur =>
      rw [hr] at h
      simp only at h
      by_cases hc : cur = 0
      · rw [if_pos hc] at h
        simp only [Except.ok.injEq] at h
        subst h
        exact ⟨rfl, rfl⟩
      · rw [if_neg hc] at h
        cases hl : load vm.heap cur with
        | none => rw [hl] at h; simp at h
        | some o =>
          rw [hl] at h
          simp only at h
          by_cases hm : o.marked = 0
          · rw [if_pos hm] at h
            cases hw : writeLink vm o.next link with
            | error x => rw [hw] at h; simp at h
            | ok vm2 =>
              rw [hw] at h
              simp only at h
              cases hn : checkInt (vm2.numObjects - 1) with
              | error x => rw [hn] at h; simp at h
              | ok n =>
                rw [hn] at h
                simp only at h
                obtain ⟨e1, e2⟩ := ih _ _ _ h
                obtain ⟨w1, w2⟩ := writeLink_stack hw
                exact ⟨e1.trans w1, e2.trans w2⟩
          · rw [if_neg hm] at h
            exact ih { vm with heap := store vm.heap cur { o with marked := 0 } } _ _ h

/-- Whatever the state, a collection that returns has left the stack as it was. -/
theorem gc_stack {vm vm1 : VM} {r : Report} (h : gc vm = .ok (vm1, r)) :
    vm1.stack = vm.stack ∧ vm1.stackSize = vm.stackSize := by
  obtain ⟨h1, w, vm2, _, es, rfl, _, _⟩ := gc_inv h
  exact sweepLoop_stack _ { vm with heap := h1 } _ vm2 es

theorem keep_eq_true {h : Heap} {a : Nat} :
    keep h a = true ↔ ∃ o, load h a = some o ∧ o.marked ≠ 0 := by
  unfold keep
  cases hl : load h a with
  | none => simp [markedCell]
  | some o => simp [markedCell]

theorem keep_eq_false_of {h : Heap} {a : Nat} {o : Object} (hl : load h a = some o)
    (hm : o.marked = 0) : keep h a = false := by
  unfold keep
  rw [hl]
  simp [markedCell, hm]

/-- What `sweep` does to a state whose arena list ends in `NULL`. -/
theorem sweep_post {vm vm1 : VM} (hw : (arenaWalk vm).isSome) (hs : sweep vm = .ok vm1) :
    (arenaWalk vm1).isSome ∧ arena vm1 = (arena vm).filter (keep vm.heap) ∧
      SweepPost vm .first (arena vm) vm1 := by
  have hl := arena_isList hw
  have hnd := arena_nodup hw
  have post := (sweep_spec vm (arena vm) hl hnd).1 vm1 hs
  obtain ⟨cur, hcur, hlist⟩ := post.list
  simp only [readLink, Except.ok.injEq] at hcur
  subst hcur
  have hnd1 : ((arena vm).filter (keep vm.heap)).Nodup := hnd.filter _
  have hwalk := arenaWalk_of_isList vm1 hlist hnd1
  exact ⟨by rw [hwalk]; rfl, arena_of_isList vm1 hlist hnd1, post⟩

theorem gc_eq_of (vm : VM) {vm2 : VM} {h1 : Heap} {w : List Ptr}
    (e : markAllLoop vm.stack vm.stackSize.toNat 0 vm.heap = .ok (h1, w))
    (hs2 : sweep { vm with heap := h1 } = .ok vm2)
    (hb : vm2.numObjects ≠ 0 → INT_MIN ≤ vm2.numObjects * 2 ∧ vm2.numObjects * 2 ≤ INT_MAX)
    (hc : INT_MIN ≤ vm.numObjects - vm2.numObjects ∧ vm.numObjects - vm2.numObjects ≤ INT_MAX) :
    gc vm = .ok ({ vm2 with maxObjects :=
        if vm2.numObjects = 0 then INITIAL_OBJ_MAX else vm2.numObjects * 2 },
      { collected := vm.numObjects - vm2.numObjects, remaining := vm2.numObjects }) := by
  have hm : (if vm2.numObjects = 0 then Except.ok INITIAL_OBJ_MAX
      else checkInt (vm2.numObjects * 2)) =
      (Except.ok (if vm2.numObjects = 0 then INITIAL_OBJ_MAX else vm2.numObjects * 2) :
        Except Fault Int) := by
    by_cases h0 : vm2.numObjects = 0
    · simp [h0]
    · simp only [h0, if_false]
      unfold checkInt
      rw [if_pos (hb h0)]
  have hcol : checkInt (vm.numObjects - vm2.numObjects) =
      .ok (vm.numObjects - vm2.numObjects) := by
    unfold checkInt
    rw [if_pos hc]
  simp only [gc, markAll_eq e, hs2, hm, hcol]

/-- A collection with an empty stack releases every object of the arena list. -/
theorem gc_empty {vm : VM} (ha : ArenaInv vm) (hu : Unmarked vm) (h0 : vm.stackSize = 0)
    (hn : vm.numObjects ≤ INT_MAX) :
    ∃ vm1 r, gc vm = .ok (vm1, r) ∧ vm1.firstObject = 0 ∧ vm1.numObjects = 0 ∧
      vm1.maxObjects = 8 ∧ r.collected = vm.numObjects ∧ r.remaining = 0 ∧
      arena vm1 = [] ∧ (arenaWalk vm1).isSome ∧ (∀ p ∈ arena vm, load vm1.heap p = none) ∧
      (∀ p, p ∉ arena vm → load vm1.heap p = load vm.heap p) ∧ vm1.stackSize = 0 := by
  obtain ⟨hw, hnd, hnum⟩ := ha
  have hl := arena_isList hw
  have e : markAllLoop vm.stack vm.stackSize.toNat 0 vm.heap = .ok (vm.heap, []) := by
    rw [h0]; rfl
  obtain ⟨hpost, hex⟩ := sweep_spec vm (arena vm) hl hnd
  obtain ⟨vm2, hs2⟩ := hex (by rw [hnum]; simp only [INT_MIN]; omega) hn
  obtain ⟨hw2, har2, post⟩ := sweep_post hw hs2
  have hkeep : ∀ a ∈ arena vm, keep vm.heap a = false := by
    intro a ha
    obtain ⟨o, ho⟩ := hl.loaded a ha
    exact keep_eq_false_of ho (hu a ha o (by rw [ho]; rfl))
  have hfil : (arena vm).filter (keep vm.heap) = [] := by
    rw [List.filter_eq_nil_iff]
    intro a ha
    rw [hkeep a ha]
    simp
  have hcount : (arena vm).countP (fun a => !keep vm.heap a) = (arena vm).length := by
    have := countP_not_keep vm.heap (arena vm)
    rw [hfil] at this
    simpa using this
  have hnum2 : vm2.numObjects = 0 := by
    have := post.numObjects_eq
    rw [hcount] at this
    omega
  have hg := gc_eq_of vm e hs2 (fun h => absurd hnum2 h)
    (by rw [hnum2]; simp only [INT_MIN, INT_MAX] at hn ⊢; omega)
  rw [hfil] at har2
  have hfirst : vm2.firstObject = 0 := by
    obtain ⟨cur, hcur, hlist⟩ := post.list
    simp only [readLink, Except.ok.injEq] at hcur
    rw [hfil] at hlist
    rw [hcur]
    exact hlist
  refine ⟨_, _, hg, hfirst, hnum2, ?_, ?_, hnum2, ?_, ?_, ?_, ?_, ?_⟩
  · show (if vm2.numObjects = 0 then INITIAL_OBJ_MAX else vm2.numObjects * 2) = 8
    rw [if_pos hnum2]; rfl
  · show vm.numObjects - vm2.numObjects = vm.numObjects
    rw [hnum2]; simp
  · rw [← har2]; exact arena_congr rfl rfl
  · rw [← hw2]; rfl
  · intro p hp
    exact post.freed p hp (hkeep p hp)
  · intro p hp
    exact post.other p hp (by simp)
  · show vm2.stackSize = 0
    rw [post.stackSize_eq]; exact h0

theorem test2State_shape {malloc : Heap → Ptr} (hm : MallocOK malloc) :
    ∃ a1 a2 vm, test2State malloc = .ok vm ∧ vm.maxObjects = 8 ∧
      Shape vm
        [(a2, { type := OBJ_INT, marked := 0, next := a1, value := 2, head := 0, tail := 0 }),
         (a1, { type := OBJ_INT, marked := 0, next := 0, value := 1, head := 0, tail := 0 })]
        [] := by
  obtain ⟨a1, v1, e1, _, _, s1, f1, m1⟩ := pushInt_shape hm shape_newVM (by decide) (by simp)
    (by simp) 1
  have n1 := s1.numObjects_eq
  obtain ⟨a2, v2, e2, _, _, s2, f2, m2⟩ := pushInt_shape hm s1
    (by rw [n1, m1]; simp [newVM, INITIAL_OBJ_MAX]) (by simp) (by simp) 2
  have hsplit : ([] ++ [a1]) ++ [a2] = ([a1] : List Ptr) ++ [a2] := rfl
  rw [hsplit] at s2
  obtain ⟨v3, e3, s3, _, f3, m3⟩ := shape_pop s2 (by simp)
  have hs3 : Shape v3 _ ([] ++ [a1]) := s3
  obtain ⟨v4, e4, s4, _, f4, m4⟩ := shape_pop hs3 (by simp)
  refine ⟨a1, a2, v4, ?_, ?_, ?_⟩
  · simp [test2State, e1, e2, e3, e4, bind, Except.bind, pure, Except.pure]
  · rw [m4, m3, m2, m1]; rfl
  · have hf0 : newVM.firstObject = 0 := rfl
    rw [f1, hf0] at s4
    exact s4

theorem test2Run_count {malloc : Heap → Ptr} (hm : MallocOK malloc) :
    ∃ vm1 r, test2Run malloc = .ok (vm1, r) ∧ vm1.numObjects = 0 ∧ vm1.firstObject = 0 ∧
      r.collected = 2 ∧ r.remaining = 0 := by
  obtain ⟨a1, a2, vm, e, hmax, hs⟩ := test2State_shape hm
  have hnum := hs.numObjects_eq
  obtain ⟨vm1, r, hg, h1, h2, _, h4, h5, _⟩ := gc_empty hs.inv (hs.unmarked (by simp))
    (by rw [hs.size_eq]; rfl) (by rw [hnum]; simp [INT_MAX])
  refine ⟨vm1, r, ?_, h2, h1, ?_, h5⟩
  · simp only [test2Run, e]
    exact hg
  · rw [h4, hnum]; rfl

theorem newObject_eq {malloc : Heap → Ptr} (hm : MallocOK malloc) {vm vm0 : VM}
    (hpre : BeforeAlloc vm vm0) (h1 : INT_MIN ≤ vm0.numObjects + 1)
    (h2 : vm0.numObjects + 1 ≤ INT_MAX) (ty : ObjectType) :
    newObject malloc vm ty = .ok ({ vm0 with
      heap := alloc vm0.heap (malloc vm0.heap)
        { type := ty, marked := 0, next := vm0.firstObject, value := 0, head := 0, tail := 0 },
      firstObject := malloc vm0.heap,
      numObjects := vm0.numObjects + 1 }, malloc vm0.heap) := by
  have hif : (if vm.numObjects = vm.maxObjects then (gc vm).map Prod.fst else Except.ok vm)
      = .ok vm0 := by
    rcases hpre with ⟨hne, rfl⟩ | ⟨heq, r, hg⟩
    · rw [if_neg hne]
    · rw [if_pos heq, hg]
      rfl
  unfold newObject
  rw [hif]
  simp only
  rw [if_neg (hm vm0.heap).1]
  unfold checkInt
  rw [if_pos ⟨h1, h2⟩]

theorem newObject_pre {malloc : Heap → Ptr} {vm vm1 : VM} {ty : ObjectType} {obj : Ptr}
    (h : newObject malloc vm ty = .ok (vm1, obj)) :
    ∃ vm0, BeforeAlloc vm vm0 ∧ obj = malloc vm0.heap ∧ obj ≠ 0 ∧
      INT_MIN ≤ vm0.numObjects + 1 ∧ vm0.numObjects + 1 ≤ INT_MAX ∧
      vm1 = { vm0 with
        heap := alloc vm0.heap obj
          { type := ty, marked := 0, next := vm0.firstObject, value := 0, head := 0, tail := 0 },
        firstObject := obj,
        numObjects := vm0.numObjects + 1 } := by
  obtain ⟨vm0, hpre, h1, h2, h3, h4⟩ := newObject_inv h
  refine ⟨vm0, hpre, h1, h2, ?_, h3, h4⟩
  by_contra hlt
  have hne : checkInt (vm0.numObjects + 1) = .error .intOverflow := by
    unfold checkInt
    rw [if_neg (fun hh => hlt hh.1)]
  have hif : (if vm.numObjects = vm.maxObjects then (gc vm).map Prod.fst else Except.ok vm)
      = .ok vm0 := by
    rcases hpre with ⟨hne, rfl⟩ | ⟨heq, r, hg⟩
    · rw [if_neg hne]
    · rw [if_pos heq, hg]
      rfl
  unfold newObject at h
  rw [hif] at h
  simp only at h
  rw [← h1, if_neg h2, hne] at h
  cases h

theorem BeforeAlloc.stack_same {vm vm0 : VM} (hpre : BeforeAlloc vm vm0) :
    vm0.stack = vm.stack ∧ vm0.stackSize = vm.stackSize := by
  rcases hpre with ⟨_, rfl⟩ | ⟨_, r, hg⟩
  · exact ⟨rfl, rfl⟩
  · exact gc_stack hg

theorem BeforeAlloc.keepsClosed {vm vm0 : VM} (hpre : BeforeAlloc vm vm0) (hc : Closed vm)
    (hu : Unmarked vm) : Closed vm0 ∧ Unmarked vm0 ∧ List.Sublist (arena vm0) (arena vm) ∧
      (∀ p ∈ arena vm0, ∀ o, load vm.heap p = some o →
        ∃ n, load vm0.heap p = some { o with next := n }) := by
  rcases hpre with ⟨_, rfl⟩ | ⟨_, r, hg⟩
  · exact ⟨hc, hu, List.Sublist.refl _, fun p _ o ho => ⟨o.next, ho⟩⟩
  · have post := gc_post hc hu hg
    exact ⟨post.wf.1, post.wf.2.1, post.sublist, post.survivor⟩

theorem BeforeAlloc.keepsArena {vm vm0 : VM} (hpre : BeforeAlloc vm vm0) (ha : ArenaInv vm) :
    ArenaInv vm0 ∧ vm0.numObjects ≤ vm.numObjects := by
  rcases hpre with ⟨_, rfl⟩ | ⟨_, r, hg⟩
  · exact ⟨ha, le_refl _⟩
  · obtain ⟨ha0, _, _, _, _, _, hsub⟩ := gc_frame ha hg
    refine ⟨ha0, ?_⟩
    rw [ha0.2.2, ha.2.2]
    exact_mod_cast hsub.length_le

/-- On a closed state whose object count can be doubled, the first line of `newObject`
returns. -/
theorem beforeAlloc_exists {vm : VM} (hc : Closed vm) (hb : vm.numObjects * 2 ≤ INT_MAX) :
    ∃ vm0, BeforeAlloc vm vm0 := by
  by_cases h : vm.numObjects = vm.maxObjects
  · obtain ⟨vm0, r, hg⟩ := gc_ok hc hb
    exact ⟨vm0, Or.inr ⟨h, r, hg⟩⟩
  · exact ⟨vm, Or.inl ⟨h, rfl⟩⟩

theorem pushInt_result {malloc : Heap → Ptr} (hm : MallocOK malloc) {vm vm2 : VM} {n : Int}
    (h : pushInt malloc vm n = .ok vm2) :
    ∃ vm0 obj, BeforeAlloc vm vm0 ∧ obj = malloc vm0.heap ∧ obj ≠ 0 ∧
      load vm0.heap obj = none ∧ 0 ≤ vm0.stackSize ∧ vm0.stackSize < 256 ∧
      Pushed vm0 vm2 obj
        { type := OBJ_INT, marked := 0, next := vm0.firstObject, value := n, head := 0,
          tail := 0 } vm0.stackSize := by
  obtain ⟨vm1, obj, o, hnew, hl, hpush⟩ := pushInt_inv h
  obtain ⟨vm0, hpre, hobj, hobj0, _, _, rfl⟩ := newObject_pre hnew
  have hfree := (hm vm0.heap).2
  rw [← hobj] at hfree
  have hla : load (alloc vm0.heap obj
      { type := OBJ_INT, marked := 0, next := vm0.firstObject, value := 0, head := 0,
        tail := 0 }) obj = some
      { type := OBJ_INT, marked := 0, next := vm0.firstObject, value := 0, head := 0,
        tail := 0 } := by
    rw [load_alloc _ hobj0]; simp
  simp only at hl hpush
  rw [hla] at hl
  cases hl
  obtain ⟨p0, p1, rfl⟩ := push_ok hpush
  simp only [STACK_MAX] at p1
  refine ⟨vm0, obj, hpre, hobj, hobj0, hfree, p0, p1, ⟨?_, rfl, rfl, rfl, rfl, rfl⟩⟩
  intro q
  show load (store _ obj _) q = _
  rw [load_store hla, load_alloc _ hobj0]
  by_cases hq : q = obj <;> simp [hq]

theorem pushInt_returns {malloc : Heap → Ptr} (hm : MallocOK malloc) {vm vm0 : VM}
    (hpre : BeforeAlloc vm vm0) (h1 : INT_MIN ≤ vm0.numObjects + 1)
    (h2 : vm0.numObjects + 1 ≤ INT_MAX) (hs0 : 0 ≤ vm0.stackSize) (hs1 : vm0.stackSize < 256)
    (n : Int) : ∃ vm2, pushInt malloc vm n = .ok vm2 := by
  have hnew := newObject_eq hm hpre h1 h2 OBJ_INT
  have hobj0 := (hm vm0.heap).1
  have hla : load (alloc vm0.heap (malloc vm0.heap)
      { type := OBJ_INT, marked := 0, next := vm0.firstObject, value := 0, head := 0,
        tail := 0 }) (malloc vm0.heap) = some
      { type := OBJ_INT, marked := 0, next := vm0.firstObject, value := 0, head := 0,
        tail := 0 } := by
    rw [load_alloc _ hobj0]; simp
  unfold pushInt
  rw [hnew]
  simp only
  rw [hla]
  simp only
  exact ⟨_, push_eq_of_lt (by exact hs0) (by show vm0.stackSize < STACK_MAX; exact hs1) _⟩

theorem pushPair_result {malloc : Heap → Ptr} (hm : MallocOK malloc) {vm vm6 : VM} {p : Ptr}
    (h : pushPair malloc vm = .ok (vm6, p)) :
    ∃ vm0, BeforeAlloc vm vm0 ∧ p = malloc vm0.heap ∧ p ≠ 0 ∧ load vm0.heap p = none ∧
      2 ≤ vm0.stackSize ∧ vm0.stackSize ≤ 256 ∧
      Pushed vm0 vm6 p
        { type := OBJ_PAIR, marked := 0, next := vm0.firstObject, value := 0,
          head := vm0.stack (vm0.stackSize - 2).toNat,
          tail := vm0.stack (vm0.stackSize - 1).toNat } (vm0.stackSize - 2) := by
  obtain ⟨vm1, vm2, t, o, vm4, hd, o1, hnew, hpop1, hl1, hpop2, hl2, hpush⟩ := pushPair_inv h
  obtain ⟨vm0, hpre, hobj, hobj0, _, _, rfl⟩ := newObject_pre hnew
  have hfree := (hm vm0.heap).2
  rw [← hobj] at hfree
  have hla : load (alloc vm0.heap p
      { type := OBJ_PAIR, marked := 0, next := vm0.firstObject, value := 0, head := 0,
        tail := 0 }) p = some
      { type := OBJ_PAIR, marked := 0, next := vm0.firstObject, value := 0, head := 0,
        tail := 0 } := by
    rw [load_alloc _ hobj0]; simp
  obtain ⟨q0, q1, rfl, rfl⟩ := pop_ok hpop1
  simp only at hl1 hpop2
  rw [hla] at hl1
  cases hl1
  obtain ⟨r0, r1, rfl, rfl⟩ := pop_ok hpop2
  simp only at hl2 hpush r0 q0 q1
  rw [load_store hla, if_pos rfl] at hl2
  cases hl2
  obtain ⟨s0, s1, rfl⟩ := push_ok hpush
  simp only [STACK_MAX] at q1
  have e2 : vm0.stackSize - 1 - 1 = vm0.stackSize - 2 := by ring
  refine ⟨vm0, hpre, hobj, hobj0, hfree, by omega, q1, ⟨?_, rfl, rfl, rfl, ?_, ?_⟩⟩
  · intro q
    show load (store (store _ p _) p _) q = _
    have hls : load (store (alloc vm0.heap p
        { type := OBJ_PAIR, marked := 0, next := vm0.firstObject, value := 0, head := 0,
          tail := 0 }) p
        { type := OBJ_PAIR, marked := 0, next := vm0.firstObject, value := 0, head := 0,
          tail := vm0.stack (vm0.stackSize - 1).toNat }) p = some
        { type := OBJ_PAIR, marked := 0, next := vm0.firstObject, value := 0, head := 0,
          tail := vm0.stack (vm0.stackSize - 1).toNat } := by
      rw [load_store hla, if_pos rfl]
    rw [load_store hls, load_store hla, load_alloc _ hobj0]
    by_cases hq : q = p
    · simp only [hq, if_true, e2]
    · simp only [hq, if_false]
  · show Function.update vm0.stack (vm0.stackSize - 1 - 1).toNat p = _
    rw [e2]
  · show vm0.stackSize - 1 - 1 + 1 = vm0.stackSize - 2 + 1
    rw [e2]

theorem pushPair_returns {malloc : Heap → Ptr} (hm : MallocOK malloc) {vm vm0 : VM}
    (hpre : BeforeAlloc vm vm0) (h1 : INT_MIN ≤ vm0.numObjects + 1)
    (h2 : vm0.numObjects + 1 ≤ INT_MAX) (hs0 : 2 ≤ vm0.stackSize) (hs1 : vm0.stackSize ≤ 256) :
    ∃ vm6 p, pushPair malloc vm = .ok (vm6, p) := by
  have hnew := newObject_eq hm hpre h1 h2 OBJ_PAIR
  have hobj0 := (hm vm0.heap).1
  have hla : load (alloc vm0.heap (malloc vm0.heap)
      { type := OBJ_PAIR, marked := 0, next := vm0.firstObject, value := 0, head := 0,
        tail := 0 }) (malloc vm0.heap) = some
      { type := OBJ_PAIR, marked := 0, next := vm0.firstObject, value := 0, head := 0,
        tail := 0 } := by
    rw [load_alloc _ hobj0]; simp
  have hpop : ∀ v : VM, 0 < v.stackSize → v.stackSize ≤ 256 →
      pop v = .ok ({ v with stackSize := v.stackSize - 1 }, v.stack (v.stackSize - 1).toNat) := by
    intro v h0 h1
    unfold pop assert
    have h3 : ¬ (STACK_MAX ≤ v.stackSize - 1) := by simp only [STACK_MAX]; omega
    simp only [gt_iff_lt, h0, decide_True, if_true, h3, if_false]
  unfold pushPair
  rw [hnew]
  simp only
  rw [hpop _ (by show 0 < vm0.stackSize; omega) (by show vm0.stackSize ≤ 256; exact hs1)]
  simp only
  rw [hla]
  simp only
  rw [hpop _ (by show 0 < vm0.stackSize - 1; omega) (by show vm0.stackSize - 1 ≤ 256; omega)]
  simp only
  rw [load_store hla, if_pos rfl]
  simp only
  rw [push_eq_of_lt (by show 0 ≤ vm0.stackSize - 1 - 1; omega)
    (by show vm0.stackSize - 1 - 1 < STACK_MAX; simp only [STACK_MAX]; omega)]
  exact ⟨_, _, rfl⟩

theorem Pushed.roots_after {vm0 vm6 : VM} {p : Nat} {o : Object} {k : Int}
    (hP : Pushed vm0 vm6 p o k) (hk : 0 ≤ k) :
    roots vm6 = (List.range k.toNat).map vm0.stack ++ [p] := by
  unfold roots
  rw [hP.stackSize_eq, hP.stack_eq]
  have hn : (k + 1).toNat = k.toNat + 1 := by omega
  rw [hn, List.range_succ, List.map_append]
  simp only [List.map_cons, List.map_nil, Function.update_same]
  congr 1
  apply List.map_congr_left
  intro i hi
  have : i ≠ k.toNat := by
    have := List.mem_range.1 hi
    omega
  simp [Function.update_noteq this]

/-- Allocating an unmarked object whose head and tail are in the arena list, and storing it in
a stack slot at or below the top, keeps the state closed and unmarked. -/
theorem Pushed.closed_after {vm0 vm6 : VM} {p : Nat} {o : Object} {k : Int}
    (hP : Pushed vm0 vm6 p o k) (hc : Closed vm0) (hu : Unmarked vm0) (hp0 : p ≠ 0)
    (hfree : load vm0.heap p = none) (hnext : o.next = vm0.firstObject) (hom : o.marked = 0)
    (hoc : o.type = OBJ_PAIR → o.head ∈ arena vm0 ∧ o.tail ∈ arena vm0)
    (hk0 : 0 ≤ k) (hk1 : k ≤ vm0.stackSize) (hk2 : k < 256) :
    Closed vm6 ∧ Unmarked vm6 ∧ arena vm6 = p :: arena vm0 := by
  obtain ⟨⟨hw, hnd, hnum⟩, ⟨hs0, hs1⟩, hroots, hch⟩ := hc
  have hl0 := arena_isList hw
  have hnot : p ∉ arena vm0 := by
    intro hp
    obtain ⟨o1, ho1⟩ := hl0.loaded p hp
    rw [hfree] at ho1
    cases ho1
  have hne : ∀ a ∈ arena vm0, a ≠ p := fun a ha hap => hnot (hap ▸ ha)
  have hsame : ∀ a ∈ arena vm0, load vm6.heap a = load vm0.heap a := by
    intro a ha
    rw [hP.loads, if_neg (hne a ha)]
  have hl1 : IsList vm6.heap vm0.firstObject (arena vm0) :=
    IsList.congr (fun a ha o1 ho1 => ⟨o1, by rw [hsame a ha]; exact ho1, rfl⟩) hl0
  have hlp : load vm6.heap p = some o := by rw [hP.loads, if_pos rfl]
  have hl6 : IsList vm6.heap vm6.firstObject (p :: arena vm0) := by
    rw [hP.firstObject_eq]
    exact ⟨rfl, hp0, o, hlp, by rw [hnext]; exact hl1⟩
  have hnd6 : (p :: arena vm0).Nodup := List.nodup_cons.2 ⟨hnot, hnd⟩
  have har : arena vm6 = p :: arena vm0 := arena_of_isList vm6 hl6 hnd6
  have ha6 : ArenaInv vm6 := (arenaInv_iff vm6).2 ⟨_, hl6, hnd6, by
    rw [hP.numObjects_eq, hnum]; simp⟩
  refine ⟨⟨ha6, ⟨?_, ?_⟩, ?_, ?_⟩, ?_, har⟩
  · rw [hP.stackSize_eq]; omega
  · rw [hP.stackSize_eq]; simp only [STACK_MAX]; omega
  · intro r hr
    rw [hP.roots_after hk0] at hr
    rw [har]
    rcases List.mem_append.1 hr with hr | hr
    · obtain ⟨j, hj, rfl⟩ := List.mem_map.1 hr
      have hj1 := List.mem_range.1 hj
      exact List.mem_cons_of_mem _ (hroots _ (mem_roots.2 ⟨j, by omega, rfl⟩))
    · simp only [List.mem_singleton] at hr
      rw [hr]
      exact List.mem_cons_self _ _
  · intro q hq o1 ho1 hty
    rw [har] at hq ⊢
    rcases List.mem_cons.1 hq with rfl | hq
    · rw [hlp] at ho1
      simp only [Option.mem_def, Option.some.injEq] at ho1
      subst ho1
      obtain ⟨c1, c2⟩ := hoc hty
      exact ⟨List.mem_cons_of_mem _ c1, List.mem_cons_of_mem _ c2⟩
    · rw [hsame q hq] at ho1
      obtain ⟨c1, c2⟩ := hch q hq o1 ho1 hty
      exact ⟨List.mem_cons_of_mem _ c1, List.mem_cons_of_mem _ c2⟩
  · intro q hq o1 ho1
    rw [har] at hq
    rcases List.mem_cons.1 hq with rfl | hq
    · rw [hlp] at ho1
      simp only [Option.mem_def, Option.some.injEq] at ho1
      subst ho1
      exact hom
    · rw [hsame q hq] at ho1
      exact hu q hq o1 ho1

theorem roots_two {vm : VM} {s : List Ptr} {x y : Ptr} (hr : roots vm = s ++ [x, y]) :
    vm.stackSize = s.length + 2 ∧ (List.range (vm.stackSize - 2).toNat).map vm.stack = s ∧
      vm.stack (vm.stackSize - 2).toNat = x ∧ vm.stack (vm.stackSize - 1).toNat = y := by
  have hlen : vm.stackSize.toNat = s.length + 2 := by
    have := congrArg List.length hr
    simpa [roots] using this
  have hsz : vm.stackSize = s.length + 2 := by omega
  have e2 : (vm.stackSize - 2).toNat = s.length := by omega
  have e1 : (vm.stackSize - 1).toNat = s.length + 1 := by omega
  unfold roots at hr
  rw [hlen, List.range_succ, List.range_succ, List.map_append, List.map_append,
    List.append_assoc] at hr
  obtain ⟨h1, h2⟩ := List.append_inj hr (by simp)
  simp only [List.map_cons, List.map_nil, List.singleton_append, List.cons.injEq,
    and_true] at h2
  rw [e2, e1]
  exact ⟨hsz, h1, h2.1, h2.2⟩

theorem pushPair_ok_of_closed {malloc : Heap → Ptr} (hm : MallocOK malloc) {vm : VM}
    (hc : Closed vm) (hb : vm.numObjects * 2 ≤ INT_MAX) (h2 : 2 ≤ vm.stackSize) :
    ∃ vm1 p, pushPair malloc vm = .ok (vm1, p) := by
  obtain ⟨vm0, hpre⟩ := beforeAlloc_exists hc hb
  obtain ⟨ha0, hle⟩ := hpre.keepsArena hc.1
  obtain ⟨_, hsz⟩ := hpre.stack_same
  have hnn := ha0.numObjects_nonneg
  have hs1 : vm.stackSize ≤ 256 := hc.2.1.2
  simp only [INT_MAX] at hb
  exact pushPair_returns hm hpre (by simp only [INT_MIN]; omega)
    (by simp only [INT_MAX]; omega) (by omega) (by omega)

theorem newObject_ok_of_closed {malloc : Heap → Ptr} (hm : MallocOK malloc) {vm : VM}
    (hc : Closed vm) (hb : vm.numObjects * 2 ≤ INT_MAX) (ty : ObjectType) :
    ∃ vm1 obj, newObject malloc vm ty = .ok (vm1, obj) := by
  obtain ⟨vm0, hpre⟩ := beforeAlloc_exists hc hb
  obtain ⟨ha0, hle⟩ := hpre.keepsArena hc.1
  have hnn := ha0.numObjects_nonneg
  simp only [INT_MAX] at hb
  exact ⟨_, _, newObject_eq hm hpre (by simp only [INT_MIN]; omega)
    (by simp only [INT_MAX]; omega) ty⟩

theorem reachable_twoInts :
    Reachable (stateOf (pushInt bumpMalloc (collected (stateOf (oneIntState bumpMalloc))) 2)) :=
  Reachable.step _ _ reachable_oneIntCollected
    (Step.pushInt bumpMalloc (collected (stateOf (oneIntState bumpMalloc))) _ 2
      mallocOK_bumpMalloc rfl)

theorem closed_newVM : Closed newVM ∧ Unmarked newVM := by
  constructor <;> decide

theorem closed_push {vm vm1 : VM} {v : Ptr} (hc : Closed vm) (hu : Unmarked vm)
    (hv : v ∈ arena vm) (h : push vm v = .ok vm1) : Closed vm1 ∧ Unmarked vm1 := by
  obtain ⟨h0, h1, rfl⟩ := push_ok h
  obtain ⟨ha, hs, hroots, hch⟩ := hc
  have har : arena { vm with stack := Function.update vm.stack vm.stackSize.toNat v,
                             stackSize := vm.stackSize + 1 } = arena vm := arena_congr rfl rfl
  refine ⟨⟨arenaInv_congr rfl rfl rfl ha, ⟨?_, ?_⟩, ?_, ?_⟩, ?_⟩
  · show 0 ≤ vm.stackSize + 1; omega
  · show vm.stackSize + 1 ≤ STACK_MAX; omega
  · intro r hr
    rw [roots_push vm h0 v] at hr
    rw [har]
    rcases List.mem_append.1 hr with hr | hr
    · exact hroots r hr
    · simp only [List.mem_singleton] at hr
      rw [hr]; exact hv
  · intro q hq
    rw [har] at hq ⊢
    exact hch q hq
  · intro q hq
    rw [har] at hq
    exact hu q hq

theorem closed_pop {vm vm1 : VM} {p : Ptr} (hc : Closed vm) (hu : Unmarked vm)
    (h : pop vm = .ok (vm1, p)) : Closed vm1 ∧ Unmarked vm1 := by
  obtain ⟨h0, h1, rfl, _⟩ := pop_ok h
  obtain ⟨ha, hs, hroots, hch⟩ := hc
  have har : arena { vm with stackSize := vm.stackSize - 1 } = arena vm := arena_congr rfl rfl
  refine ⟨⟨arenaInv_congr rfl rfl rfl ha, ⟨?_, ?_⟩, ?_, ?_⟩, ?_⟩
  · show 0 ≤ vm.stackSize - 1; omega
  · show vm.stackSize - 1 ≤ STACK_MAX; omega
  · intro r hr
    rw [har]
    apply hroots
    rw [roots_pop vm h0]
    exact List.mem_append_left _ hr
  · intro q hq
    rw [har] at hq ⊢
    exact hch q hq
  · intro q hq
    rw [har] at hq
    exact hu q hq

theorem closed_pushInt {malloc : Heap → Ptr} (hm : MallocOK malloc) {vm vm1 : VM} {n : Int}
    (hc : Closed vm) (hu : Unmarked vm) (h : pushInt malloc vm n = .ok vm1) :
    Closed vm1 ∧ Unmarked vm1 := by
  obtain ⟨vm0, obj, hpre, _, hobj0, hfree, hs0, hs1, hP⟩ := pushInt_result hm h
  obtain ⟨hc0, hu0, _, _⟩ := hpre.keepsClosed hc hu
  obtain ⟨h1, h2, _⟩ := hP.closed_after hc0 hu0 hobj0 hfree rfl rfl (fun hty => by cases hty)
    hs0 (le_refl _) hs1
  exact ⟨h1, h2⟩

theorem closed_pushPair {malloc : Heap → Ptr} (hm : MallocOK malloc) {vm vm1 : VM} {p : Ptr}
    (hc : Closed vm) (hu : Unmarked vm) (h : pushPair malloc vm = .ok (vm1, p)) :
    Closed vm1 ∧ Unmarked vm1 := by
  obtain ⟨vm0, hpre, _, hp0, hfree, h20, h256, hP⟩ := pushPair_result hm h
  obtain ⟨hc0, hu0, _, _⟩ := hpre.keepsClosed hc hu
  have hx0 : vm0.stack (vm0.stackSize - 2).toNat ∈ arena vm0 :=
    hc0.stack_mem _ (by omega)
  have hy0 : vm0.stack (vm0.stackSize - 1).toNat ∈ arena vm0 :=
    hc0.stack_mem _ (by omega)
  obtain ⟨h1, h2, _⟩ := hP.closed_after hc0 hu0 hp0 hfree rfl rfl (fun _ => ⟨hx0, hy0⟩)
    (by omega) (by omega) (by omega)
  exact ⟨h1, h2⟩

/-- Storing an object that differs from the old one in head and tail only, both in the arena
list when it is a pair, keeps the state closed and unmarked. -/
theorem closed_store {vm : VM} {p : Nat} {o o1 : Object} (hc : Closed vm) (hu : Unmarked vm)
    (hl : load vm.heap p = some o) (hn : o1.next = o.next) (hm : o1.marked = o.marked)
    (hch1 : p ∈ arena vm → o1.type = OBJ_PAIR → o1.head ∈ arena vm ∧ o1.tail ∈ arena vm) :
    Closed { vm with heap := store vm.heap p o1 } ∧
      Unmarked { vm with heap := store vm.heap p o1 } := by
  obtain ⟨ha, hs, hroots, hch⟩ := hc
  obtain ⟨ha1, har⟩ := arenaInv_store hl hn ha
  refine ⟨⟨ha1, hs, ?_, ?_⟩, ?_⟩
  · intro r hr
    rw [har]
    exact hroots r hr
  · intro q hq o2 ho2 hty
    rw [har] at hq ⊢
    have ho2' : load (store vm.heap p o1) q = some o2 := ho2
    rw [load_store hl] at ho2'
    by_cases hqp : q = p
    · rw [if_pos hqp] at ho2'
      cases ho2'
      exact hch1 (hqp ▸ hq) hty
    · rw [if_neg hqp] at ho2'
      exact hch q hq o2 ho2' hty
  · intro q hq o2 ho2
    rw [har] at hq
    have ho2' : load (store vm.heap p o1) q = some o2 := ho2
    rw [load_store hl] at ho2'
    by_cases hqp : q = p
    · rw [if_pos hqp] at ho2'
      cases ho2'
      rw [hm]
      exact hu p (hqp ▸ hq) o hl
    · rw [if_neg hqp] at ho2'
      exact hu q hq o2 ho2'

theorem closed_setHead {vm vm1 : VM} {p q : Ptr} (hc : Closed vm) (hu : Unmarked vm)
    (hq : q ∈ arena vm) (h : setHead vm p q = .ok vm1) : Closed vm1 ∧ Unmarked vm1 := by
  unfold setHead at h
  cases hl : load vm.heap p with
  | none => rw [hl] at h; simp at h
  | some o =>
    rw [hl] at h
    simp only [Except.ok.injEq] at h
    subst h
    refine closed_store hc hu hl rfl rfl ?_
    intro hp hty
    exact ⟨hq, (hc.2.2.2 p hp o hl hty).2⟩

theorem closed_setTail {vm vm1 : VM} {p q : Ptr} (hc : Closed vm) (hu : Unmarked vm)
    (hq : q ∈ arena vm) (h : setTail vm p q = .ok vm1) : Closed vm1 ∧ Unmarked vm1 := by
  unfold setTail at h
  cases hl : load vm.heap p with
  | none => rw [hl] at h; simp at h
  | some o =>
    rw [hl] at h
    simp only [Except.ok.injEq] at h
    subst h
    refine closed_store hc hu hl rfl rfl ?_
    intro hp hty
    exact ⟨(hc.2.2.2 p hp o hl hty).1, hq⟩

theorem closed_op {vm vm1 : VM} (hc : Closed vm) (hu : Unmarked vm) (hs : Op vm vm1) :
    Closed vm1 ∧ Unmarked vm1 := by
  cases hs with
  | push _ _ v hv h => exact closed_push hc hu hv h
  | pop _ _ p h => exact closed_pop hc hu h
  | pushInt malloc _ _ n hm h => exact closed_pushInt hm hc hu h
  | pushPair malloc _ _ p hm h => exact closed_pushPair hm hc hu h
  | gc _ _ r h =>
    have post := gc_post hc hu h
    exact ⟨post.wf.1, post.wf.2.1⟩
  | setHead _ _ p q hq h => exact closed_setHead hc hu hq h
  | setTail _ _ p q hq h => exact closed_setTail hc hu hq h

theorem attainable_closed {vm : VM} (hr : Attainable vm) : Closed vm ∧ Unmarked vm := by
  induction hr with
  | init => exact closed_newVM
  | step vm vm1 _ hs ih => exact closed_op ih.1 ih.2 hs

theorem attainable_test4 : Attainable (stateOf (test4State bumpMalloc)) := by
  have h1 := Attainable.step newVM _ Attainable.init
    (Op.pushInt bumpMalloc newVM _ 1 mallocOK_bumpMalloc rfl)
  have h2 := Attainable.step _ _ h1 (Op.pushInt bumpMalloc _ _ 2 mallocOK_bumpMalloc rfl)
  have h3 := Attainable.step _ _ h2 (Op.pushPair bumpMalloc _ _ _ mallocOK_bumpMalloc rfl)
  have h4 := Attainable.step _ _ h3 (Op.pushInt bumpMalloc _ _ 3 mallocOK_bumpMalloc rfl)
  have h5 := Attainable.step _ _ h4 (Op.pushInt bumpMalloc _ _ 4 mallocOK_bumpMalloc rfl)
  have h6 := Attainable.step _ _ h5 (Op.pushPair bumpMalloc _ _ _ mallocOK_bumpMalloc rfl)
  have h7 := Attainable.step _ _ h6 (Op.setTail _ _ 3 6 (by decide) rfl)
  have h8 := Attainable.step _ _ h7 (Op.setTail _ _ 6 3 (by decide) rfl)
  exact h8

theorem attainable_test4Collected :
    Attainable (collected (stateOf (test4State bumpMalloc))) :=
  Attainable.step _ _ attainable_test4
    (Op.gc (stateOf (test4State bumpMalloc)) _ { collected := 2, remaining := 4 } rfl)

/-- A collection of a state all of whose objects are on the stack frees nothing. -/
theorem gc_rooted {vm vm1 : VM} {r : Report} (hc : Closed vm) (hu : Unmarked vm)
    (hall : ∀ p ∈ arena vm, p ∈ roots vm) (hg : gc vm = .ok (vm1, r)) :
    arena vm1 = arena vm ∧ vm1.numObjects = vm.numObjects ∧ r.collected = 0 ∧
      roots vm1 = roots vm := by
  have post := gc_post hc hu hg
  have hsub : arena vm ⊆ arena vm1 := by
    intro p hp
    exact (post.mem_arena p).2 (Reach.root p (hall p hp))
  have hlen : (arena vm).length ≤ (arena vm1).length :=
    (List.Nodup.subperm hc.1.2.1 hsub).length_le
  have har : arena vm1 = arena vm := post.sublist.eq_of_length_le hlen
  have hnum : vm1.numObjects = vm.numObjects := by
    rw [post.numObjects_eq, hc.1.2.2, har]
  refine ⟨har, hnum, ?_, ?_⟩
  · rw [post.collected_eq, hnum]; simp
  · unfold roots
    rw [post.stack_eq, post.stackSize_eq]

theorem BeforeAlloc.rooted {vm vm0 : VM} (hpre : BeforeAlloc vm vm0) (hc : Closed vm)
    (hu : Unmarked vm) (hall : ∀ p ∈ arena vm, p ∈ roots vm) :
    (∀ p ∈ arena vm0, p ∈ roots vm0) ∧ vm0.numObjects = vm.numObjects := by
  rcases hpre with ⟨_, rfl⟩ | ⟨_, r, hg⟩
  · exact ⟨hall, rfl⟩
  · obtain ⟨h1, h2, _, h4⟩ := gc_rooted hc hu hall hg
    refine ⟨?_, h2⟩
    intro p hp
    rw [h4]
    rw [h1] at hp
    exact hall p hp

theorem pushInt_rooted {malloc : Heap → Ptr} (hm : MallocOK malloc) {vm : VM} {k : Nat}
    (hc : Closed vm) (hu : Unmarked vm) (hall : ∀ p ∈ arena vm, p ∈ roots vm)
    (hn : vm.numObjects = k) (hs : vm.stackSize = k) (hk : k < 256) (n : Int) :
    ∃ vm1, pushInt malloc vm n = .ok vm1 ∧ Closed vm1 ∧ Unmarked vm1 ∧
      (∀ p ∈ arena vm1, p ∈ roots vm1) ∧ vm1.numObjects = (k + 1 : Nat) ∧
      vm1.stackSize = (k + 1 : Nat) := by
  obtain ⟨vm0, hpre0⟩ := beforeAlloc_exists hc (by rw [hn]; simp only [INT_MAX]; omega)
  obtain ⟨_, hnum0⟩ := hpre0.rooted hc hu hall
  obtain ⟨_, hss0⟩ := hpre0.stack_same
  obtain ⟨vm1, h⟩ := pushInt_returns hm hpre0 (by rw [hnum0, hn]; simp only [INT_MIN]; omega)
    (by rw [hnum0, hn]; simp only [INT_MAX]; omega) (by rw [hss0, hs]; omega)
    (by rw [hss0, hs]; omega) n
  obtain ⟨vm0, obj, hpre, _, hobj0, hfree, hs0, hs1, hP⟩ := pushInt_result hm h
  obtain ⟨hc0, hu0, _, _⟩ := hpre.keepsClosed hc hu
  obtain ⟨hall0, hnum⟩ := hpre.rooted hc hu hall
  obtain ⟨_, hss⟩ := hpre.stack_same
  obtain ⟨h1, h2, har⟩ := hP.closed_after hc0 hu0 hobj0 hfree rfl rfl (fun hty => by cases hty)
    hs0 (le_refl _) hs1
  refine ⟨vm1, h, h1, h2, ?_, ?_, ?_⟩
  · intro p hp
    rw [hP.roots_after hs0]
    rw [har] at hp
    rcases List.mem_cons.1 hp with rfl | hp
    · simp
    · exact List.mem_append_left _ (hall0 p hp)
  · rw [hP.numObjects_eq, hnum, hn]; simp
  · rw [hP.stackSize_eq, hss, hs]; simp

theorem pushInts_rooted {malloc : Heap → Ptr} (hm : MallocOK malloc) :
    ∀ (vals : List Int) (vm : VM) (k : Nat), Closed vm → Unmarked vm →
      (∀ p ∈ arena vm, p ∈ roots vm) → vm.numObjects = k → vm.stackSize = k →
      k + vals.length ≤ 256 →
      ∃ vm1, pushInts malloc vm vals = .ok vm1 ∧ Closed vm1 ∧ Unmarked vm1 ∧
        (∀ p ∈ arena vm1, p ∈ roots vm1) ∧ vm1.numObjects = (k + vals.length : Nat) ∧
        vm1.stackSize = (k + vals.length : Nat) := by
  intro vals
  induction vals with
  | nil =>
    intro vm k hc hu hall hn hs _
    exact ⟨vm, rfl, hc, hu, hall, by simpa using hn, by simpa using hs⟩
  | cons n ns ih =>
    intro vm k hc hu hall hn hs hk
    simp only [List.length_cons] at hk
    obtain ⟨vm1, h, hc1, hu1, hall1, hn1, hs1⟩ := pushInt_rooted hm hc hu hall hn hs
      (by omega) n
    obtain ⟨vm2, h2, hc2, hu2, hall2, hn2, hs2⟩ := ih vm1 (k + 1) hc1 hu1 hall1 hn1 hs1
      (by omega)
    refine ⟨vm2, ?_, hc2, hu2, hall2, ?_, ?_⟩
    · simp only [pushInts, h]
      exact h2
    · rw [hn2]; simp only [List.length_cons]; congr 1; omega
    · rw [hs2]; simp only [List.length_cons]; congr 1; omega

theorem test1State_eq (malloc : Heap → Ptr) :
    test1State malloc = pushInts malloc newVM [1, 2] := by
  unfold test1State
  simp only [pushInts, bind, Except.bind, pure, Except.pure]
  cases pushInt malloc newVM 1 with
  | error e => rfl
  | ok v =>
    simp only
    cases pushInt malloc v 2 <;> rfl

/-! ## The claims -/

/-- C1: for every well-formed VM state (the arena list ends in `NULL` and has no duplicates,
`numObjects` is its length, every stack slot in use and every pair head/tail refers to an
object of the list, every mark is clear, the stack size is within capacity and twice
`numObjects` fits an `int`) `gc` returns, and afterwards the arena list ends in `NULL`, has no
duplicates and holds exactly the objects reachable from some stack slot through pair head/tail
links, and `numObjects` is the number of those objects. It is 7 after the sequence of `test3`
and 4 after the cycle of `test4`, whatever addresses `malloc` returns. -/
theorem gc_arena_eq_reachable :
    (∀ vm, WellFormed vm → ∃ vm1 r, gc vm = .ok (vm1, r) ∧
      (arenaWalk vm1).isSome ∧ (arena vm1).Nodup ∧ (∀ p, p ∈ arena vm1 ↔ Reach vm p) ∧
      (∀ p, Reach vm1 p ↔ Reach vm p) ∧
      vm1.numObjects = (arena vm1).length ∧
      vm1.numObjects = ((Set.ncard {p | Reach vm p} : Nat) : Int)) ∧
    (∀ malloc, MallocOK malloc → ∃ vm1 r, test3Run malloc = .ok (vm1, r) ∧
      vm1.numObjects = 7 ∧ (arena vm1).length = 7) ∧
    (∀ malloc, MallocOK malloc → ∃ vm1 r, test4Run malloc = .ok (vm1, r) ∧
      vm1.numObjects = 4 ∧ (arena vm1).length = 4) := by
  refine ⟨?_, ?_, ?_⟩
  · intro vm hw
    obtain ⟨vm1, r, hg, post⟩ := gc_wellFormed hw
    refine ⟨vm1, r, hg, post.wf.1.1.1, post.wf.1.1.2.1, post.mem_arena,
      fun p => ⟨fun h => (post.mem_arena p).1 (post.wf.1.reach_mem h), post.reach⟩,
      post.numObjects_eq, ?_⟩
    rw [post.numObjects_eq]
    have hset : {p | Reach vm p} = ((arena vm1).toFinset : Set Ptr) := by
      ext p
      simp [post.mem_arena p]
    rw [hset, Set.ncard_coe_Finset, List.toFinset_card_of_nodup post.wf.1.1.2.1]
  · intro malloc hm
    obtain ⟨vm1, r, h1, h2, h3, _⟩ := test3Run_count hm
    exact ⟨vm1, r, h1, h2, h3⟩
  · intro malloc hm
    obtain ⟨vm1, r, h1, h2, h3, _⟩ := test4Run_count hm
    exact ⟨vm1, r, h1, h2, h3⟩

theorem gc_arena_eq_reachable_witness :
    test4State bumpMalloc = .ok (stateOf (test4State bumpMalloc)) ∧
    WellFormed (stateOf (test4State bumpMalloc)) ∧
      (∃ vm1 r, test3Run firstFit = .ok (vm1, r) ∧ vm1.numObjects = 7 ∧
        (arena vm1).length = 7) ∧
      ∃ vm1 r, gc (stateOf (test4State bumpMalloc)) = .ok (vm1, r) ∧
        (arenaWalk vm1).isSome ∧ (arena vm1).Nodup ∧
        (∀ p, p ∈ arena vm1 ↔ Reach (stateOf (test4State bumpMalloc)) p) ∧
        (∀ p, Reach vm1 p ↔ Reach (stateOf (test4State bumpMalloc)) p) ∧
        vm1.numObjects = (arena vm1).length ∧
        vm1.numObjects =
          ((Set.ncard {p | Reach (stateOf (test4State bumpMalloc)) p} : Nat) : Int) :=
  ⟨rfl, by decide, gc_arena_eq_reachable.2.1 firstFit mallocOK_firstFit,
    gc_arena_eq_reachable.1 _ (by decide)⟩

/-- C2: for every closed VM state (the arena list ends in `NULL`, every stack slot in use and
every pair head/tail refers to an object of it) in which every object of the arena list has
`marked = 0`, `markAll` returns, and afterwards every object reachable from some stack slot
through head/tail links has `marked = 1` and every object of the arena list that is not
reachable still has `marked = 0`. -/
theorem markAll_marks_reachable (vm : VM) (hc : Closed vm) (hu : Unmarked vm) :
    ∃ vm1, markAll vm = .ok vm1 ∧
      (∀ p, Reach vm p → ∃ o, load vm1.heap p = some o ∧ o.marked = 1) ∧
      (∀ p ∈ arena vm, ¬ Reach vm p → ∃ o, load vm1.heap p = some o ∧ o.marked = 0) := by
  obtain ⟨h1, w, e, hf⟩ := markAllLoop_closed hc
  have hreach := markAllLoop_reach hc hu e
  refine ⟨{ vm with heap := h1 }, markAll_eq e, ?_, ?_⟩
  · intro p hp
    obtain ⟨o, hl, _⟩ := hc.open_of_mem hu p (hc.reach_mem hp)
    refine ⟨{ o with marked := 1 }, ?_, rfl⟩
    show load h1 p = _
    rw [hf.load_eq p, if_pos ((hreach p).2 hp), hl]
    rfl
  · intro p hp hnr
    obtain ⟨o, hl, hm⟩ := hc.open_of_mem hu p hp
    refine ⟨o, ?_, hm⟩
    show load h1 p = _
    rw [hf.load_eq p, if_neg (fun hpw => hnr ((hreach p).1 hpw)), hl]

theorem markAll_marks_reachable_witness :
    test4State bumpMalloc = .ok (stateOf (test4State bumpMalloc)) ∧
    Closed (stateOf (test4State bumpMalloc)) ∧ Unmarked (stateOf (test4State bumpMalloc)) ∧
      ∃ vm1, markAll (stateOf (test4State bumpMalloc)) = .ok vm1 ∧
        (∀ p, Reach (stateOf (test4State bumpMalloc)) p →
          ∃ o, load vm1.heap p = some o ∧ o.marked = 1) ∧
        (∀ p ∈ arena (stateOf (test4State bumpMalloc)),
          ¬ Reach (stateOf (test4State bumpMalloc)) p →
          ∃ o, load vm1.heap p = some o ∧ o.marked = 0) :=
  ⟨rfl, by decide, by decide, markAll_marks_reachable _ (by decide) (by decide)⟩

/-- C3: `mark` terminates on every heap: the depth of its recursion never exceeds the number
of objects whose mark is clear, each call that returns has set the mark of as many objects as
that number has dropped by, each of them once and only when its mark was clear, and `gc` does
not run out of steps either. On a heap whose stack slots and head/tail links all refer to
objects of the arena list, cyclic or not, `mark`, `markAll` and `gc` return, and no object has
its mark set twice in one collection; so it is for the cycle of `test4` and for a pair that is
its own head and tail, whatever addresses `malloc` returns. -/
theorem mark_terminates :
    (∀ h p, mark h p ≠ .error .outOfFuel) ∧
    (∀ vm, gc vm ≠ .error .outOfFuel) ∧
    (∀ h p h1 w, mark h p = .ok (h1, w) →
      unmarkedCount h1 + w.length = unmarkedCount h ∧ w.Nodup ∧ ∀ q ∈ w, Open h q) ∧
    (∀ vm vm1 w, markAllLog vm = .ok (vm1, w) →
      markAll vm = .ok vm1 ∧ w.Nodup ∧ ∀ q ∈ w, Open vm.heap q) ∧
    (∀ vm, Closed vm → ∀ p ∈ arena vm, ∃ h1 w, mark vm.heap p = .ok (h1, w) ∧ w.Nodup) ∧
    (∀ vm, Closed vm → ∃ vm1 w, markAllLog vm = .ok (vm1, w) ∧ w.Nodup) ∧
    (∀ vm, Closed vm → vm.numObjects * 2 ≤ INT_MAX → ∃ vm1 r, gc vm = .ok (vm1, r)) ∧
    (∀ malloc, MallocOK malloc → ∃ vm1 r, test4Run malloc = .ok (vm1, r) ∧
      vm1.numObjects = 4) ∧
    (∀ malloc, MallocOK malloc → ∃ vm1 r, selfPairRun malloc = .ok (vm1, r) ∧
      vm1.numObjects = 1) := by
  refine ⟨mark_ne_outOfFuel, gc_ne_outOfFuel, ?_, ?_, ?_, ?_, fun vm hc hb => gc_ok hc hb,
    ?_, ?_⟩
  · intro h p h1 w hm
    have hf := markAux_frame _ _ _ _ _ hm
    exact ⟨markAux_unmarkedCount _ _ _ _ _ hm, hf.nodup, hf.opened⟩
  · intro vm vm1 w hm
    unfold markAllLog at hm
    cases e : markAllLoop vm.stack vm.stackSize.toNat 0 vm.heap with
    | error x => rw [e] at hm; simp at hm
    | ok pr =>
      obtain ⟨h1, w1⟩ := pr
      rw [e] at hm
      simp only [Except.ok.injEq, Prod.mk.injEq] at hm
      obtain ⟨rfl, rfl⟩ := hm
      have hf := markAllLoop_frame _ _ _ _ _ _ e
      exact ⟨markAll_eq e, hf.nodup, hf.opened⟩
  · intro vm hc p hp
    obtain ⟨h1, w, hm⟩ := mark_ok hc.graph hp
    exact ⟨h1, w, hm, (markAux_frame _ _ _ _ _ hm).nodup⟩
  · intro vm hc
    obtain ⟨h1, w, e, hf⟩ := markAllLoop_closed hc
    exact ⟨{ vm with heap := h1 }, w, by simp [markAllLog, e], hf.nodup⟩
  · intro malloc hm
    obtain ⟨vm1, r, h1, h2, _⟩ := test4Run_count hm
    exact ⟨vm1, r, h1, h2⟩
  · intro malloc hm
    obtain ⟨vm1, r, h1, h2, _⟩ := selfPairRun_count hm
    exact ⟨vm1, r, h1, h2⟩

theorem mark_terminates_witness :
    selfPairState bumpMalloc = .ok (stateOf (selfPairState bumpMalloc)) ∧
    Closed (stateOf (selfPairState bumpMalloc)) ∧
      (∃ vm1 w, markAllLog (stateOf (selfPairState bumpMalloc)) = .ok (vm1, w) ∧ w.Nodup) ∧
      (∃ vm1 r, gc (stateOf (selfPairState bumpMalloc)) = .ok (vm1, r)) ∧
      ∃ vm1 r, selfPairRun firstFit = .ok (vm1, r) ∧ vm1.numObjects = 1 :=
  ⟨rfl, by decide, mark_terminates.2.2.2.2.2.1 _ (by decide),
    mark_terminates.2.2.2.2.2.2.1 _ (by decide) (by decide),
    mark_terminates.2.2.2.2.2.2.2.2 firstFit mallocOK_firstFit⟩

/-- C4: for every well-formed VM state `gc` returns and every object left in the arena has
`marked = 0`; a second `gc` right afterwards, with the same stack, returns too, reports
`collected = 0`, changes no cell of the heap (it frees nothing) and leaves the arena list,
`firstObject`, `numObjects` and `maxObjects` as they were. -/
theorem gc_twice (vm : VM) (hw : WellFormed vm) :
    ∃ vm1 r1, gc vm = .ok (vm1, r1) ∧ (arenaWalk vm1).isSome ∧
      (∀ p ∈ arena vm1, ∃ o, load vm1.heap p = some o ∧ o.marked = 0) ∧
      ∃ vm2 r2, gc vm1 = .ok (vm2, r2) ∧ r2.collected = 0 ∧
        (∀ p, load vm2.heap p = load vm1.heap p) ∧ arena vm2 = arena vm1 ∧
        vm2.firstObject = vm1.firstObject ∧ vm2.numObjects = vm1.numObjects ∧
        vm2.maxObjects = vm1.maxObjects ∧ vm2.stack = vm1.stack ∧
        vm2.stackSize = vm1.stackSize := by
  obtain ⟨vm1, r1, hg1, post1⟩ := gc_wellFormed hw
  obtain ⟨vm2, r2, hg2, post2⟩ := gc_wellFormed post1.wf
  obtain ⟨i1, i2, i3, i4, i5, i6⟩ := post1.idem post2
  refine ⟨vm1, r1, hg1, post1.wf.1.1.1, ?_, vm2, r2, hg2, i6, i2, i1, i3, i4, i5,
    post2.stack_eq, post2.stackSize_eq⟩
  intro p hp
  obtain ⟨o, hl, hm⟩ := post1.wf.1.open_of_mem post1.wf.2.1 p hp
  exact ⟨o, hl, hm⟩

theorem gc_twice_witness :
    test4State bumpMalloc = .ok (stateOf (test4State bumpMalloc)) ∧
    WellFormed (stateOf (test4State bumpMalloc)) ∧
      ∃ vm1 r1, gc (stateOf (test4State bumpMalloc)) = .ok (vm1, r1) ∧
        (arenaWalk vm1).isSome ∧
        (∀ p ∈ arena vm1, ∃ o, load vm1.heap p = some o ∧ o.marked = 0) ∧
        ∃ vm2 r2, gc vm1 = .ok (vm2, r2) ∧ r2.collected = 0 ∧
          (∀ p, load vm2.heap p = load vm1.heap p) ∧ arena vm2 = arena vm1 ∧
          vm2.firstObject = vm1.firstObject ∧ vm2.numObjects = vm1.numObjects ∧
          vm2.maxObjects = vm1.maxObjects ∧ vm2.stack = vm1.stack ∧
          vm2.stackSize = vm1.stackSize :=
  ⟨rfl, by decide, gc_twice _ (by decide)⟩

/-- C5: in every state reachable from `newVM` by calls of `push`, `pop`, `pushInt`, `pushPair`
and `gc` that return, the walk from `firstObject` through `next` links ends in `NULL` and
`numObjects` is the number of nodes it meets. -/
theorem numObjects_eq_arena_length (vm : VM) (hr : Reachable vm) :
    (arenaWalk vm).isSome ∧ vm.numObjects = (arena vm).length :=
  ⟨(reachable_inv hr).1.1, (reachable_inv hr).1.2.2⟩

theorem numObjects_eq_arena_length_witness :
    Reachable (collected (stateOf (oneIntState bumpMalloc))) ∧
      (arenaWalk (collected (stateOf (oneIntState bumpMalloc)))).isSome ∧
      (collected (stateOf (oneIntState bumpMalloc))).numObjects =
        (arena (collected (stateOf (oneIntState bumpMalloc)))).length :=
  ⟨reachable_oneIntCollected, numObjects_eq_arena_length _ reachable_oneIntCollected⟩

/-- C6: a fresh VM has `maxObjects = 8`; for every state, when `gc` returns leaving
`numObjects = K` (the count it reports as remaining), `maxObjects` is `2 * K` when `K > 0` and
8 when `K = 0`. -/
theorem gc_threshold :
    newVM.maxObjects = 8 ∧
    ∀ vm vm1 r, gc vm = .ok (vm1, r) →
      r.remaining = vm1.numObjects ∧
      (0 < vm1.numObjects → vm1.maxObjects = 2 * vm1.numObjects) ∧
      (vm1.numObjects = 0 → vm1.maxObjects = 8) := by
  refine ⟨rfl, ?_⟩
  intro vm vm1 r hg
  obtain ⟨hmax, hrem, _⟩ := gc_maxObjects hg
  refine ⟨hrem, ?_, ?_⟩
  · intro hpos
    rw [hmax, if_neg (by omega)]
    ring
  · intro h0
    rw [hmax, if_pos h0]
    rfl

theorem gc_threshold_witness :
    (∃ vm1 r, test1Run bumpMalloc = .ok (vm1, r) ∧ r.remaining = 2 ∧ vm1.numObjects = 2 ∧
      vm1.maxObjects = 4) ∧
    (∃ vm1 r, gc newVM = .ok (vm1, r) ∧ vm1.numObjects = 0 ∧ vm1.maxObjects = 8) := by
  refine ⟨⟨_, _, rfl, by decide, by decide, ?_⟩, ⟨_, _, rfl, by decide, ?_⟩⟩
  · exact ((gc_threshold.2 (stateOf (test1State bumpMalloc)) _ _ rfl).2.1 (by decide)).trans
      (by decide)
  · exact (gc_threshold.2 newVM _ _ rfl).2.2 (by decide)

/-- C7, as the claim states it, fails: after one integer is pushed on a fresh VM, `gc` leaves
`numObjects = 1` and sets `maxObjects = 2`, which is not `max(8, 2 * 1) = 8`. -/
theorem gc_threshold_not_max :
    pushInt bumpMalloc newVM 1 = .ok (stateOf (oneIntState bumpMalloc)) ∧
    ∃ vm1 r, gc (stateOf (oneIntState bumpMalloc)) = .ok (vm1, r) ∧ vm1.numObjects = 1 ∧
      vm1.maxObjects = 2 ∧ vm1.maxObjects ≠ max 8 (2 * vm1.numObjects) :=
  ⟨rfl, _, _, rfl, by decide, by decide, by decide⟩

/-- C7, amended: for every state, when `gc` returns, the new threshold `maxObjects` is 8 when
`numObjects`, the live count after sweep, is 0, and `2 * numObjects` otherwise; that is
`max(8, 2 * numObjects)` exactly when `numObjects` is 0 or at least 4. -/
theorem gc_threshold_formula (vm vm1 : VM) (r : Report) (hg : gc vm = .ok (vm1, r)) :
    vm1.maxObjects = (if vm1.numObjects = 0 then 8 else 2 * vm1.numObjects) ∧
      (vm1.maxObjects = max 8 (2 * vm1.numObjects) ↔
        vm1.numObjects = 0 ∨ 4 ≤ vm1.numObjects) := by
  obtain ⟨hmax, _, _⟩ := gc_maxObjects hg
  have h1 : vm1.maxObjects = (if vm1.numObjects = 0 then 8 else 2 * vm1.numObjects) := by
    rw [hmax]
    split
    · rfl
    · ring
  refine ⟨h1, ?_⟩
  rw [h1]
  split
  · rename_i h0
    simp [h0]
  · rename_i h0
    constructor
    · intro h
      right
      have := le_max_left (8 : Int) (2 * vm1.numObjects)
      omega
    · rintro (h | h)
      · exact absurd h h0
      · rw [max_eq_right (by omega)]

theorem gc_threshold_formula_witness :
    ∃ vm1 r, test3Run bumpMalloc = .ok (vm1, r) ∧ vm1.numObjects = 7 ∧ vm1.maxObjects = 14 ∧
      (vm1.maxObjects = max 8 (2 * vm1.numObjects) ↔
        vm1.numObjects = 0 ∨ 4 ≤ vm1.numObjects) :=
  ⟨_, _, rfl, by decide, by decide,
    (gc_threshold_formula (stateOf (test3State bumpMalloc)) _ _ rfl).2⟩

/-- C8, as the claim states it, fails: pushing one integer on a fresh VM and collecting is a
reachable state whose threshold `maxObjects` is 2, below the initial value 8. -/
theorem threshold_below_initial :
    Reachable (collected (stateOf (oneIntState bumpMalloc))) ∧
      (collected (stateOf (oneIntState bumpMalloc))).maxObjects = 2 ∧
      ¬ (INITIAL_OBJ_MAX ≤ (collected (stateOf (oneIntState bumpMalloc))).maxObjects) :=
  ⟨reachable_oneIntCollected, by decide, by decide⟩

/-- C8, amended: in every state reachable from `newVM` by calls of `push`, `pop`, `pushInt`,
`pushPair` and `gc` that return, the threshold `maxObjects` is at least 2. -/
theorem threshold_ge_two (vm : VM) (hr : Reachable vm) : 2 ≤ vm.maxObjects :=
  (reachable_inv hr).2.2.1

theorem threshold_ge_two_witness :
    Reachable (collected (stateOf (oneIntState bumpMalloc))) ∧
      2 ≤ (collected (stateOf (oneIntState bumpMalloc))).maxObjects :=
  ⟨reachable_oneIntCollected, threshold_ge_two _ reachable_oneIntCollected⟩

/-- C9: in every state reachable from `newVM` by calls of `push`, `pop`, `pushInt`, `pushPair`
and `gc` that return, `0 ≤ stackSize ≤ 256`, and no access of `push`, `pop` or `markAll` to
the stack falls outside the 256 slots of the array. -/
theorem stack_in_bounds (vm : VM) (hr : Reachable vm) :
    0 ≤ vm.stackSize ∧ vm.stackSize ≤ 256 ∧
      (∀ v, push vm v ≠ .error .outOfBounds) ∧ pop vm ≠ .error .outOfBounds ∧
      markAllLog vm ≠ .error .outOfBounds ∧ markAll vm ≠ .error .outOfBounds := by
  obtain ⟨h0, h1⟩ := (reachable_inv hr).2.1
  have h1' : vm.stackSize ≤ 256 := h1
  have hmark : ∀ e, markAllLoop vm.stack vm.stackSize.toNat 0 vm.heap = .error e →
      e ≠ .outOfBounds := by
    intro e he
    rcases markAllLoop_error _ _ _ _ _ he with h | ⟨_, h⟩
    · rw [h]; simp
    · omega
  refine ⟨h0, h1', ?_, ?_, ?_, ?_⟩
  · intro v
    unfold push assert
    by_cases hlt : vm.stackSize < STACK_MAX
    · simp [hlt, not_lt.2 h0]
    · simp [hlt]
  · unfold pop assert
    by_cases hgt : vm.stackSize > 0
    · have : ¬ (STACK_MAX ≤ vm.stackSize - 1) := by simp only [STACK_MAX]; omega
      simp [hgt, this]
    · simp [hgt]
  · unfold markAllLog
    cases e : markAllLoop vm.stack vm.stackSize.toNat 0 vm.heap with
    | error x =>
      simp only [ne_eq, Except.error.injEq]
      exact hmark x e
    | ok pr => simp
  · unfold markAll markAllLog
    cases e : markAllLoop vm.stack vm.stackSize.toNat 0 vm.heap with
    | error x =>
      simp only [ne_eq, Except.error.injEq]
      exact hmark x e
    | ok pr => simp

theorem stack_in_bounds_witness :
    Reachable (stateOf (oneIntState bumpMalloc)) ∧
      0 ≤ (stateOf (oneIntState bumpMalloc)).stackSize ∧
      (stateOf (oneIntState bumpMalloc)).stackSize ≤ 256 ∧
      (∀ v, push (stateOf (oneIntState bumpMalloc)) v ≠ .error .outOfBounds) ∧
      pop (stateOf (oneIntState bumpMalloc)) ≠ .error .outOfBounds ∧
      markAllLog (stateOf (oneIntState bumpMalloc)) ≠ .error .outOfBounds ∧
      markAll (stateOf (oneIntState bumpMalloc)) ≠ .error .outOfBounds :=
  ⟨reachable_oneInt, stack_in_bounds _ reachable_oneInt⟩

/-- C10: in a state whose stack size is within `0 .. 256`, as it is in every reachable state,
`push` fails if and only if `stackSize = 256`, with the fatal message "Stack overflow!", and
otherwise stores the value at index `stackSize` and increments `stackSize`; `pop` fails if and
only if `stackSize = 0`, with the fatal message "Stack underflow!", and otherwise returns the
entry at index `stackSize - 1` and decrements `stackSize`. After any 256 pushes on a fresh VM a
further push fails, and `pop` on a fresh VM fails. -/
theorem push_pop_faults :
    (∀ vm, Reachable vm → StackInv vm) ∧
    (∀ vm, StackInv vm → ∀ v,
      ((∃ e, push vm v = .error e) ↔ vm.stackSize = 256) ∧
      (vm.stackSize = 256 → push vm v = .error (.fatal "Stack overflow!")) ∧
      (vm.stackSize ≠ 256 → push vm v = .ok { vm with
        stack := Function.update vm.stack vm.stackSize.toNat v,
        stackSize := vm.stackSize + 1 })) ∧
    (∀ vm, StackInv vm →
      ((∃ e, pop vm = .error e) ↔ vm.stackSize = 0) ∧
      (vm.stackSize = 0 → pop vm = .error (.fatal "Stack underflow!")) ∧
      (vm.stackSize ≠ 0 → pop vm =
        .ok ({ vm with stackSize := vm.stackSize - 1 }, vm.stack (vm.stackSize - 1).toNat))) ∧
    (∀ vs v, vs.length = 256 → ∃ vm1, pushAll newVM vs = .ok vm1 ∧ vm1.stackSize = 256 ∧
      push vm1 v = .error (.fatal "Stack overflow!")) ∧
    pop newVM = .error (.fatal "Stack underflow!") := by
  have hpush : ∀ vm : VM, vm.stackSize = 256 → ∀ v,
      push vm v = .error (.fatal "Stack overflow!") := by
    intro vm h v
    unfold push assert
    simp [h, STACK_MAX]
  have hpop : ∀ vm : VM, vm.stackSize = 0 → pop vm = .error (.fatal "Stack underflow!") := by
    intro vm h
    unfold pop assert
    simp [h]
  refine ⟨fun vm hr => (reachable_inv hr).2.1, ?_, ?_, ?_, hpop newVM rfl⟩
  · intro vm hs v
    obtain ⟨h0, h1⟩ := hs
    simp only [STACK_MAX] at h1
    have hok : vm.stackSize ≠ 256 → push vm v = .ok { vm with
        stack := Function.update vm.stack vm.stackSize.toNat v,
        stackSize := vm.stackSize + 1 } := by
      intro hne
      exact push_eq_of_lt h0 (by simp only [STACK_MAX]; omega) v
    refine ⟨⟨?_, fun h => ⟨_, hpush vm h v⟩⟩, fun h => hpush vm h v, hok⟩
    rintro ⟨e, he⟩
    by_contra hne
    rw [hok hne] at he
    cases he
  · intro vm hs
    obtain ⟨h0, h1⟩ := hs
    simp only [STACK_MAX] at h1
    have hok : vm.stackSize ≠ 0 → pop vm =
        .ok ({ vm with stackSize := vm.stackSize - 1 }, vm.stack (vm.stackSize - 1).toNat) := by
      intro hne
      unfold pop assert
      have h2 : vm.stackSize > 0 := by omega
      have h3 : ¬ (STACK_MAX ≤ vm.stackSize - 1) := by simp only [STACK_MAX]; omega
      simp [h2, h3]
    refine ⟨⟨?_, fun h => ⟨_, hpop vm h⟩⟩, hpop vm, hok⟩
    rintro ⟨e, he⟩
    by_contra hne
    rw [hok hne] at he
    cases he
  · intro vs v hlen
    obtain ⟨vm1, e1, e2⟩ := pushAll_ok vs newVM (by decide) (by
      show (0 : Int) + _ ≤ STACK_MAX
      rw [hlen]; decide)
    have h256 : vm1.stackSize = 256 := by
      rw [e2, hlen]; rfl
    exact ⟨vm1, e1, h256, hpush vm1 h256 v⟩

theorem push_pop_faults_witness :
    test1State bumpMalloc = .ok (stateOf (test1State bumpMalloc)) ∧
    StackInv (stateOf (test1State bumpMalloc)) ∧
      (pop (stateOf (test1State bumpMalloc))).isOk = true ∧
      ((∃ e, pop (stateOf (test1State bumpMalloc)) = .error e) ↔
        (stateOf (test1State bumpMalloc)).stackSize = 0) ∧
      ((∃ e, push (stateOf (test1State bumpMalloc)) 0 = .error e) ↔
        (stateOf (test1State bumpMalloc)).stackSize = 256) :=
  ⟨rfl, by decide, rfl, (push_pop_faults.2.2.1 _ (by decide)).1,
    (push_pop_faults.2.1 _ (by decide) 0).1⟩

/-- C11: for every VM whose stack is `s ++ [x, y]`, `y` on top, a call of `pushPair` that
returns has created a pair object `p` at a non-null address that was not allocated when it was
created, with `tail = y` (the first value popped) and `head = x` (the second value popped); it
leaves the stack as `s ++ [p]`, one entry shorter, and returns `p`, which is the new top of
the stack. The call returns on every closed state whose object count can be doubled in an
`int`, and on every state where no collection is due and `numObjects + 1` is an `int`. -/
theorem pushPair_pops_two (malloc : Heap → Ptr) (hm : MallocOK malloc) (vm : VM)
    (s : List Ptr) (x y : Ptr) (hr : roots vm = s ++ [x, y]) :
    (∀ vm1 p, pushPair malloc vm = .ok (vm1, p) →
      p ≠ NULL ∧ (∃ vm0, BeforeAlloc vm vm0 ∧ load vm0.heap p = none) ∧
      (∃ o, load vm1.heap p = some o ∧ o.type = OBJ_PAIR ∧ o.marked = 0 ∧ o.tail = y ∧
        o.head = x) ∧
      roots vm1 = s ++ [p] ∧ vm1.stackSize = vm.stackSize - 1 ∧
      vm1.stack (vm1.stackSize - 1).toNat = p ∧ vm1.firstObject = p) ∧
    (Closed vm → vm.numObjects * 2 ≤ INT_MAX → ∃ vm1 p, pushPair malloc vm = .ok (vm1, p)) ∧
    (vm.numObjects ≠ vm.maxObjects → INT_MIN ≤ vm.numObjects + 1 →
      vm.numObjects + 1 ≤ INT_MAX → vm.stackSize ≤ 256 →
      ∃ vm1 p, pushPair malloc vm = .ok (vm1, p)) := by
  obtain ⟨hsz, hmap, hx, hy⟩ := roots_two hr
  refine ⟨?_, ?_, ?_⟩
  · intro vm1 p h
    obtain ⟨vm0, hpre, _, hp0, hfree, h2, _, hP⟩ := pushPair_result hm h
    obtain ⟨hst, hss⟩ := hpre.stack_same
    rw [hst, hss] at hP
    refine ⟨hp0, ⟨vm0, hpre, hfree⟩, ⟨_, by rw [hP.loads, if_pos rfl], rfl, rfl, hy, hx⟩,
      ?_, ?_, ?_, hP.firstObject_eq⟩
    · rw [hP.roots_after (by omega), hst, hmap]
    · rw [hP.stackSize_eq]; ring
    · rw [hP.stackSize_eq, hP.stack_eq]
      have : vm.stackSize - 2 + 1 - 1 = vm.stackSize - 2 := by ring
      rw [this]
      simp
  · intro hc hb
    exact pushPair_ok_of_closed hm hc hb (by omega)
  · intro hne h1 h2 h3
    exact pushPair_returns hm (Or.inl ⟨hne, rfl⟩) h1 h2 (by omega) h3

theorem pushPair_pops_two_witness :
    test1State bumpMalloc = .ok (stateOf (test1State bumpMalloc)) ∧
    roots (stateOf (test1State bumpMalloc)) = [] ++ [1, 2] ∧
      ∃ vm1 p, pushPair bumpMalloc (stateOf (test1State bumpMalloc)) = .ok (vm1, p) ∧
        p ≠ NULL ∧
        (∃ vm0, BeforeAlloc (stateOf (test1State bumpMalloc)) vm0 ∧ load vm0.heap p = none) ∧
        (∃ o, load vm1.heap p = some o ∧ o.type = OBJ_PAIR ∧ o.marked = 0 ∧ o.tail = 2 ∧
          o.head = 1) ∧
        roots vm1 = [] ++ [p] ∧
        vm1.stackSize = (stateOf (test1State bumpMalloc)).stackSize - 1 ∧
        vm1.stack (vm1.stackSize - 1).toNat = p ∧ vm1.firstObject = p :=
  ⟨rfl, by decide, _, _, rfl,
    (pushPair_pops_two bumpMalloc mallocOK_bumpMalloc (stateOf (test1State bumpMalloc)) []
      1 2 (by decide)).1 _ _ rfl⟩

/-- C12, as the claim states it, fails: after `pushInt 1` and `pushInt 2` on a fresh VM the
object holding 2, pushed last, is on top of the stack; `pushPair` makes it the `tail` of the
new pair, and the `head` is the object holding 1, which is not the entry that was on top. -/
theorem pushPair_head_not_top :
    test1State bumpMalloc = .ok (stateOf (test1State bumpMalloc)) ∧
    roots (stateOf (test1State bumpMalloc)) = [1, 2] ∧
    (stateOf (test1State bumpMalloc)).stack
      ((stateOf (test1State bumpMalloc)).stackSize - 1).toNat = 2 ∧
    (load (stateOf (test1State bumpMalloc)).heap 1).map Object.value = some 1 ∧
    (load (stateOf (test1State bumpMalloc)).heap 2).map Object.value = some 2 ∧
    ∃ vm1 p o, pushPair bumpMalloc (stateOf (test1State bumpMalloc)) = .ok (vm1, p) ∧
      load vm1.heap p = some o ∧ o.head = 1 ∧ o.tail = 2 ∧
      o.head ≠ (stateOf (test1State bumpMalloc)).stack
        ((stateOf (test1State bumpMalloc)).stackSize - 1).toNat :=
  ⟨rfl, by decide, by decide, by decide, by decide, _, _, _, rfl, rfl, by decide, by decide,
    by decide⟩

/-- C12, amended: for every VM with at least two stack entries, after a call of `pushPair`
that returns, the `head` of the new pair is the entry just below the top of the stack (the
value pushed second to last before the call) and its `tail` is the entry that was on top (the
value pushed last); so the `head` is the entry that was on top only when the two top entries
are the same reference. The call returns on every closed state with two stack entries whose
object count can be doubled in an `int`. -/
theorem pushPair_head_below_top (malloc : Heap → Ptr) (hm : MallocOK malloc) (vm : VM)
    (h2 : 2 ≤ vm.stackSize) :
    (∀ vm1 p, pushPair malloc vm = .ok (vm1, p) →
      ∃ o, load vm1.heap p = some o ∧ o.head = vm.stack (vm.stackSize - 2).toNat ∧
        o.tail = vm.stack (vm.stackSize - 1).toNat ∧
        (o.head = vm.stack (vm.stackSize - 1).toNat ↔
          vm.stack (vm.stackSize - 2).toNat = vm.stack (vm.stackSize - 1).toNat)) ∧
    (Closed vm → vm.numObjects * 2 ≤ INT_MAX → ∃ vm1 p, pushPair malloc vm = .ok (vm1, p)) := by
  refine ⟨?_, fun hc hb => pushPair_ok_of_closed hm hc hb h2⟩
  intro vm1 p h
  obtain ⟨vm0, hpre, _, _, _, _, _, hP⟩ := pushPair_result hm h
  obtain ⟨hst, hss⟩ := hpre.stack_same
  rw [hst, hss] at hP
  exact ⟨_, by rw [hP.loads, if_pos rfl], rfl, rfl, Iff.rfl⟩

theorem pushPair_head_below_top_witness :
    test1State bumpMalloc = .ok (stateOf (test1State bumpMalloc)) ∧
    2 ≤ (stateOf (test1State bumpMalloc)).stackSize ∧
      ∃ vm1 p, pushPair bumpMalloc (stateOf (test1State bumpMalloc)) = .ok (vm1, p) ∧
        ∃ o, load vm1.heap p = some o ∧
          o.head = (stateOf (test1State bumpMalloc)).stack
            ((stateOf (test1State bumpMalloc)).stackSize - 2).toNat ∧
          o.tail = (stateOf (test1State bumpMalloc)).stack
            ((stateOf (test1State bumpMalloc)).stackSize - 1).toNat ∧
          (o.head = (stateOf (test1State bumpMalloc)).stack
              ((stateOf (test1State bumpMalloc)).stackSize - 1).toNat ↔
            (stateOf (test1State bumpMalloc)).stack
                ((stateOf (test1State bumpMalloc)).stackSize - 2).toNat =
              (stateOf (test1State bumpMalloc)).stack
                ((stateOf (test1State bumpMalloc)).stackSize - 1).toNat) :=
  ⟨rfl, by decide, _, _, rfl,
    (pushPair_head_below_top bumpMalloc mallocOK_bumpMalloc (stateOf (test1State bumpMalloc))
      (by decide)).1 _ _ rfl⟩

/-- C13: a call of `newObject` that returns has allocated in the state `vm0` that is the
state on entry when `numObjects ≠ maxObjects` (no collection) and the state left by `gc` when
`numObjects = maxObjects` (and when that `gc` faults, so does `newObject`). The returned
address is not null and was not allocated in `vm0`, so the new object did not exist during
the collection; the new object has the requested type, `marked = 0` and `next` equal to the
list head of `vm0`; it is the new `firstObject`, the arena list is the new object followed by
the arena list of `vm0`, and `numObjects` is that of `vm0` plus one; no other cell, nor the
stack, is changed by the allocation. On a well-formed state where a collection is due the
arena list afterwards is the new object followed by exactly the reachable objects.
`newObject` returns on every closed state whose object count can be doubled in an `int`. -/
theorem newObject_collects_first (malloc : Heap → Ptr) (hm : MallocOK malloc) (vm : VM)
    (ty : ObjectType) :
    (∀ vm1 obj, newObject malloc vm ty = .ok (vm1, obj) →
      ∃ vm0, ((vm.numObjects ≠ vm.maxObjects ∧ vm0 = vm) ∨
          (vm.numObjects = vm.maxObjects ∧ ∃ r, gc vm = .ok (vm0, r))) ∧
        obj ≠ NULL ∧ load vm0.heap obj = none ∧
        (∃ o, load vm1.heap obj = some o ∧ o.type = ty ∧ o.marked = 0 ∧
          o.next = vm0.firstObject) ∧
        (∀ q, q ≠ obj → load vm1.heap q = load vm0.heap q) ∧
        vm1.firstObject = obj ∧ vm1.numObjects = vm0.numObjects + 1 ∧
        vm1.maxObjects = vm0.maxObjects ∧ vm1.stack = vm.stack ∧
        vm1.stackSize = vm.stackSize ∧
        (ArenaInv vm → (arenaWalk vm1).isSome ∧ arena vm1 = obj :: arena vm0 ∧
          obj ∉ arena vm0 ∧ vm1.numObjects = (arena vm0).length + 1) ∧
        (WellFormed vm → vm.numObjects = vm.maxObjects →
          ∀ p, p ∈ arena vm1 ↔ p = obj ∨ Reach vm p)) ∧
    (vm.numObjects = vm.maxObjects → ∀ e, gc vm = .error e →
      newObject malloc vm ty = .error e) ∧
    (vm.numObjects ≠ vm.maxObjects → INT_MIN ≤ vm.numObjects + 1 →
      vm.numObjects + 1 ≤ INT_MAX → ∃ vm1 obj, newObject malloc vm ty = .ok (vm1, obj)) ∧
    (Closed vm → vm.numObjects * 2 ≤ INT_MAX →
      ∃ vm1 obj, newObject malloc vm ty = .ok (vm1, obj)) := by
  refine ⟨?_, ?_, ?_, fun hc hb => newObject_ok_of_closed hm hc hb ty⟩
  · intro vm1 obj h
    obtain ⟨vm0, hpre, hobj, hobj0, _, _, rfl⟩ := newObject_pre h
    have hfree := (hm vm0.heap).2
    rw [← hobj] at hfree
    obtain ⟨hst, hss⟩ := hpre.stack_same
    have har : ArenaInv vm → arena { vm0 with
        heap := alloc vm0.heap obj
          { type := ty, marked := 0, next := vm0.firstObject, value := 0, head := 0,
            tail := 0 },
        firstObject := obj, numObjects := vm0.numObjects + 1 } = obj :: arena vm0 :=
      fun ha => (arenaInv_alloc _ hobj0 hfree rfl (hpre.keepsArena ha).1).2
    refine ⟨vm0, hpre, hobj0, hfree,
      ⟨{ type := ty, marked := 0, next := vm0.firstObject, value := 0, head := 0, tail := 0 },
        ?_, rfl, rfl, rfl⟩, ?_, rfl, rfl, rfl, hst, hss, ?_, ?_⟩
    · show load (alloc vm0.heap obj _) obj = _
      rw [load_alloc _ hobj0, if_pos rfl]
    · intro q hq
      show load (alloc vm0.heap obj _) q = _
      rw [load_alloc _ hobj0, if_neg hq]
    · intro ha
      obtain ⟨ha0, _⟩ := hpre.keepsArena ha
      obtain ⟨ha1, _⟩ := arenaInv_alloc
        { type := ty, marked := 0, next := vm0.firstObject, value := 0, head := 0, tail := 0 }
        hobj0 hfree rfl ha0
      refine ⟨ha1.1, har ha, ?_, ?_⟩
      · intro hmem
        obtain ⟨o, ho⟩ := (arena_isList ha0.1).loaded obj hmem
        rw [hfree] at ho
        cases ho
      · show vm0.numObjects + 1 = _
        rw [ha0.2.2]
    · intro hw heq p
      rw [har hw.1.1, List.mem_cons]
      rcases hpre with ⟨hne, _⟩ | ⟨_, r, hg⟩
      · exact absurd heq hne
      · have post := gc_post hw.1 hw.2.1 hg
        rw [post.mem_arena]
  · intro heq e he
    unfold newObject
    rw [if_pos heq, he]
    rfl
  · intro hne h1 h2
    exact ⟨_, _, newObject_eq hm (Or.inl ⟨hne, rfl⟩) h1 h2 ty⟩

theorem newObject_collects_first_witness :
    fullState firstFit = .ok (stateOf (fullState firstFit)) ∧
    (stateOf (fullState firstFit)).numObjects = (stateOf (fullState firstFit)).maxObjects ∧
    arena (stateOf (fullState firstFit)) = [8, 7, 6, 5, 4, 3, 2, 1] ∧
    roots (stateOf (fullState firstFit)) = [1, 2, 3, 4, 5, 6] ∧
      ∃ vm1 obj, newObject firstFit (stateOf (fullState firstFit)) OBJ_PAIR = .ok (vm1, obj) ∧
        arena vm1 = [7, 6, 5, 4, 3, 2, 1] ∧ obj = 7 ∧ vm1.numObjects = 7 ∧
        ∃ vm0, (((stateOf (fullState firstFit)).numObjects ≠
              (stateOf (fullState firstFit)).maxObjects ∧ vm0 = stateOf (fullState firstFit)) ∨
            ((stateOf (fullState firstFit)).numObjects =
              (stateOf (fullState firstFit)).maxObjects ∧
              ∃ r, gc (stateOf (fullState firstFit)) = .ok (vm0, r))) ∧
          obj ≠ NULL ∧ load vm0.heap obj = none ∧
          (∃ o, load vm1.heap obj = some o ∧ o.type = OBJ_PAIR ∧ o.marked = 0 ∧
            o.next = vm0.firstObject) ∧
          (∀ q, q ≠ obj → load vm1.heap q = load vm0.heap q) ∧
          vm1.firstObject = obj ∧ vm1.numObjects = vm0.numObjects + 1 ∧
          vm1.maxObjects = vm0.maxObjects ∧
          vm1.stack = (stateOf (fullState firstFit)).stack ∧
          vm1.stackSize = (stateOf (fullState firstFit)).stackSize ∧
          (ArenaInv (stateOf (fullState firstFit)) →
            (arenaWalk vm1).isSome ∧ arena vm1 = obj :: arena vm0 ∧
            obj ∉ arena vm0 ∧ vm1.numObjects = (arena vm0).length + 1) ∧
          (WellFormed (stateOf (fullState firstFit)) →
            (stateOf (fullState firstFit)).numObjects =
              (stateOf (fullState firstFit)).maxObjects →
            ∀ p, p ∈ arena vm1 ↔ p = obj ∨ Reach (stateOf (fullState firstFit)) p) :=
  ⟨rfl, by decide, by decide, by decide, _, _, rfl, by decide, rfl, by decide,
    (newObject_collects_first firstFit mallocOK_firstFit (stateOf (fullState firstFit))
      OBJ_PAIR).1 _ _ rfl⟩

/-- C14: for every list of at most 256 `int` values, calling `pushInt` for each of them on a
fresh VM returns, the collections its allocations run on the way included, and leaves
`numObjects` and `stackSize` equal to the number of values; `gc` then returns too, collects
nothing and leaves `numObjects` and `stackSize` equal to that number (2 in `test1`). -/
theorem pushInts_gc_keeps_all (malloc : Heap → Ptr) (hm : MallocOK malloc) (vals : List Int)
    (hlen : vals.length ≤ 256) :
    ∃ vm vm1 r, pushInts malloc newVM vals = .ok vm ∧ vm.numObjects = vals.length ∧
      vm.stackSize = vals.length ∧ gc vm = .ok (vm1, r) ∧ vm1.numObjects = vals.length ∧
      vm1.stackSize = vals.length ∧ (arena vm1).length = vals.length ∧
      r.collected = 0 ∧ r.remaining = vals.length ∧
      (vals = [1, 2] → test1Run malloc = .ok (vm1, r)) := by
  obtain ⟨vm, h, hc, hu, hall, hn, hs⟩ := pushInts_rooted hm vals newVM 0 closed_newVM.1
    closed_newVM.2 (by intro p hp; simp [arena, arenaWalk, walk, newVM, NULL] at hp) rfl rfl
    (by omega)
  simp only [Nat.zero_add] at hn hs
  obtain ⟨vm1, r, hg⟩ := gc_ok hc (by rw [hn]; simp only [INT_MAX]; omega)
  obtain ⟨h1, h2, h3, _⟩ := gc_rooted hc hu hall hg
  have post := gc_post hc hu hg
  refine ⟨vm, vm1, r, h, hn, hs, hg, by rw [h2, hn], by rw [post.stackSize_eq, hs], ?_, h3,
    by rw [post.remaining_eq, h2, hn], ?_⟩
  · have := post.numObjects_eq
    rw [h2, hn] at this
    exact_mod_cast this.symm
  · intro hv
    subst hv
    simp only [test1Run, test1State_eq, h]
    exact hg

theorem pushInts_gc_keeps_all_witness :
    ∃ vm vm1 r, pushInts firstFit newVM [1, 2] = .ok vm ∧ vm.numObjects = 2 ∧
      vm.stackSize = 2 ∧ gc vm = .ok (vm1, r) ∧ vm1.numObjects = 2 ∧
      vm1.stackSize = 2 ∧ (arena vm1).length = 2 ∧ r.collected = 0 ∧ r.remaining = 2 ∧
      (([1, 2] : List Int) = [1, 2] → test1Run firstFit = .ok (vm1, r)) :=
  pushInts_gc_keeps_all firstFit mallocOK_firstFit [1, 2] (by decide)

/-- C15: for every VM state whose arena list ends in `NULL` with `numObjects` its length (an
`int`) and whose arena objects all have `marked = 0`, `gc` with an empty stack returns and
reclaims every object: afterwards `firstObject` is `NULL`, `numObjects = 0`, `maxObjects = 8`,
every cell of the former arena list is released, and the reported collected count is the
previous `numObjects`. So it is for `freeVM`, which clears the stack first, whatever the stack
held, and for `test2`, which pops everything first, whatever addresses `malloc` returns. -/
theorem gc_empty_stack_reclaims_all :
    (∀ vm, ArenaInv vm → Unmarked vm → vm.numObjects ≤ INT_MAX → vm.stackSize = 0 →
      ∃ vm1 r, gc vm = .ok (vm1, r) ∧ vm1.firstObject = NULL ∧ vm1.numObjects = 0 ∧
        vm1.maxObjects = 8 ∧ r.collected = vm.numObjects ∧ r.remaining = 0 ∧
        arena vm1 = [] ∧ ∀ p ∈ arena vm, load vm1.heap p = none) ∧
    (∀ vm, ArenaInv vm → Unmarked vm → vm.numObjects ≤ INT_MAX →
      ∃ vm1 r, freeVM vm = .ok (vm1, r) ∧ vm1.firstObject = NULL ∧ vm1.numObjects = 0 ∧
        vm1.maxObjects = 8 ∧ r.collected = vm.numObjects ∧ r.remaining = 0 ∧
        arena vm1 = [] ∧ ∀ p ∈ arena vm, load vm1.heap p = none) ∧
    (∀ malloc, MallocOK malloc → ∃ vm1 r, test2Run malloc = .ok (vm1, r) ∧
      vm1.numObjects = 0 ∧ vm1.firstObject = NULL ∧ r.collected = 2) := by
  refine ⟨?_, ?_, ?_⟩
  · intro vm ha hu hn h0
    obtain ⟨vm1, r, hg, h1, h2, h3, h4, h5, h6, _, h8, _⟩ := gc_empty ha hu h0 hn
    exact ⟨vm1, r, hg, h1, h2, h3, h4, h5, h6, h8⟩
  · intro vm ha hu hn
    have ha0 : ArenaInv { vm with stackSize := 0 } := arenaInv_congr rfl rfl rfl ha
    have har : arena { vm with stackSize := 0 } = arena vm := arena_congr rfl rfl
    have hu0 : Unmarked { vm with stackSize := 0 } := by
      intro p hp
      rw [har] at hp
      exact hu p hp
    obtain ⟨vm1, r, hg, h1, h2, h3, h4, h5, h6, _, h8, _⟩ := gc_empty ha0 hu0 rfl hn
    refine ⟨vm1, r, hg, h1, h2, h3, h4, h5, h6, ?_⟩
    intro p hp
    exact h8 p (by rw [har]; exact hp)
  · intro malloc hm
    obtain ⟨vm1, r, h1, h2, h3, h4, _⟩ := test2Run_count hm
    exact ⟨vm1, r, h1, h2, h3, h4⟩

theorem gc_empty_stack_reclaims_all_witness :
    test3State bumpMalloc = .ok (stateOf (test3State bumpMalloc)) ∧
    ArenaInv (stateOf (test3State bumpMalloc)) ∧ Unmarked (stateOf (test3State bumpMalloc)) ∧
      (stateOf (test3State bumpMalloc)).numObjects = 7 ∧
      (∃ vm1 r, freeVM (stateOf (test3State bumpMalloc)) = .ok (vm1, r) ∧
        vm1.firstObject = NULL ∧ vm1.numObjects = 0 ∧ vm1.maxObjects = 8 ∧
        r.collected = (stateOf (test3State bumpMalloc)).numObjects ∧ r.remaining = 0 ∧
        arena vm1 = [] ∧ ∀ p ∈ arena (stateOf (test3State bumpMalloc)), load vm1.heap p = none) ∧
      ∃ vm1 r, test2Run firstFit = .ok (vm1, r) ∧ vm1.numObjects = 0 ∧
        vm1.firstObject = NULL ∧ r.collected = 2 :=
  ⟨rfl, by decide, by decide, by decide,
    gc_empty_stack_reclaims_all.2.1 _ (by decide) (by decide) (by decide),
    gc_empty_stack_reclaims_all.2.2 firstFit mallocOK_firstFit⟩

/-- C16: for every state whose arena list ends in `NULL`, whatever the mark bits, a `sweep`
that returns leaves in the arena list exactly the objects whose mark was set, in their
original order, each with its mark reset to 0 and nothing but its `next` link changed
besides; it releases exactly the objects whose mark was clear; it lowers `numObjects` by the
number of objects it released; and it touches no cell outside the list. It returns whenever
`numObjects` stays an `int` while it is lowered. -/
theorem sweep_keeps_marked (vm : VM) (hw : (arenaWalk vm).isSome) :
    (∀ vm1, sweep vm = .ok vm1 →
      (arenaWalk vm1).isSome ∧
      arena vm1 = (arena vm).filter (keep vm.heap) ∧
      List.Sublist (arena vm1) (arena vm) ∧
      (∀ p ∈ arena vm, ∃ o, load vm.heap p = some o ∧
        (o.marked ≠ 0 → p ∈ arena vm1 ∧
          ∃ n, load vm1.heap p = some { o with marked := 0, next := n }) ∧
        (o.marked = 0 → p ∉ arena vm1 ∧ load vm1.heap p = none)) ∧
      (∀ p, p ∉ arena vm → load vm1.heap p = load vm.heap p) ∧
      vm1.numObjects =
        vm.numObjects - ((arena vm).filter (fun p => !keep vm.heap p)).length ∧
      (arena vm1).length + ((arena vm).filter (fun p => !keep vm.heap p)).length =
        (arena vm).length ∧
      vm1.stack = vm.stack ∧ vm1.stackSize = vm.stackSize ∧
      vm1.maxObjects = vm.maxObjects) ∧
    (INT_MIN + (arena vm).length ≤ vm.numObjects → vm.numObjects ≤ INT_MAX →
      ∃ vm1, sweep vm = .ok vm1) := by
  have hl := arena_isList hw
  have hnd := arena_nodup hw
  refine ⟨?_, (sweep_spec vm (arena vm) hl hnd).2⟩
  intro vm1 hs
  obtain ⟨hw1, har1, post⟩ := sweep_post hw hs
  have hcnt := countP_not_keep vm.heap (arena vm)
  rw [List.countP_eq_length_filter] at hcnt
  refine ⟨hw1, har1, ?_, ?_, ?_, ?_, ?_, post.stack_eq, post.stackSize_eq, post.maxObjects_eq⟩
  · rw [har1]; exact List.filter_sublist _
  · intro p hp
    obtain ⟨o, ho⟩ := hl.loaded p hp
    refine ⟨o, ho, ?_, ?_⟩
    · intro hm
      refine ⟨?_, post.kept p hp o ho hm⟩
      rw [har1, List.mem_filter]
      exact ⟨hp, keep_eq_true.2 ⟨o, ho, hm⟩⟩
    · intro hm
      have hk := keep_eq_false_of ho hm
      refine ⟨?_, post.freed p hp hk⟩
      rw [har1, List.mem_filter]
      intro h
      rw [hk] at h
      exact absurd h.2 (by simp)
  · intro p hp
    exact post.other p hp (by simp)
  · have := post.numObjects_eq
    rw [List.countP_eq_length_filter] at this
    exact this
  · rw [har1]
    omega

theorem sweep_keeps_marked_witness :
    test4State bumpMalloc = .ok (stateOf (test4State bumpMalloc)) ∧
    (arenaWalk (markedState (stateOf (test4State bumpMalloc)))).isSome ∧
      arena (markedState (stateOf (test4State bumpMalloc))) = [6, 5, 4, 3, 2, 1] ∧
      ∃ vm1, sweep (markedState (stateOf (test4State bumpMalloc))) = .ok vm1 ∧
        arena vm1 = [6, 4, 3, 1] ∧
        arena vm1 = (arena (markedState (stateOf (test4State bumpMalloc)))).filter
          (keep (markedState (stateOf (test4State bumpMalloc))).heap) :=
  ⟨rfl, by decide, by decide, _, rfl, by decide,
    ((sweep_keeps_marked (markedState (stateOf (test4State bumpMalloc))) (by decide)).1 _
      rfl).2.1⟩

/-- C17: in every state reached from `newVM` by calls that return of `push` (of a reference in
the arena list), `pop`, `pushInt`, `pushPair` and `gc` and by assignments of a reference in the
arena list to a head or a tail, the arena list ends in `NULL`, all its objects are allocated,
every stack slot below `stackSize` refers to an object of the arena list, and so do the head
and the tail of every pair of the arena list; hence everything reachable from the stack is an
allocated object of the arena list. -/
theorem roots_and_links_in_arena (vm : VM) (hr : Attainable vm) :
    (arenaWalk vm).isSome ∧
    (∀ i : Nat, (i : Int) < vm.stackSize → vm.stack i ∈ arena vm) ∧
    (∀ p ∈ arena vm, ∃ o, load vm.heap p = some o ∧
      (o.type = OBJ_PAIR → o.head ∈ arena vm ∧ o.tail ∈ arena vm)) ∧
    (∀ p, Reach vm p → p ∈ arena vm ∧ ∃ o, load vm.heap p = some o) := by
  obtain ⟨hc, _⟩ := attainable_closed hr
  refine ⟨hc.1.1, ?_, ?_, ?_⟩
  · intro i hi
    exact hc.stack_mem i (by omega)
  · intro p hp
    obtain ⟨o, ho⟩ := hc.isList_arena.loaded p hp
    exact ⟨o, ho, hc.2.2.2 p hp o ho⟩
  · intro p hp
    have hmem := hc.reach_mem hp
    exact ⟨hmem, hc.isList_arena.loaded p hmem⟩

theorem roots_and_links_in_arena_witness :
    Attainable (collected (stateOf (test4State bumpMalloc))) ∧
    arena (collected (stateOf (test4State bumpMalloc))) = [6, 4, 3, 1] ∧
      (arenaWalk (collected (stateOf (test4State bumpMalloc)))).isSome ∧
      (∀ i : Nat, (i : Int) < (collected (stateOf (test4State bumpMalloc))).stackSize →
        (collected (stateOf (test4State bumpMalloc))).stack i ∈
          arena (collected (stateOf (test4State bumpMalloc)))) ∧
      (∀ p ∈ arena (collected (stateOf (test4State bumpMalloc))),
        ∃ o, load (collected (stateOf (test4State bumpMalloc))).heap p = some o ∧
          (o.type = OBJ_PAIR →
            o.head ∈ arena (collected (stateOf (test4State bumpMalloc))) ∧
            o.tail ∈ arena (collected (stateOf (test4State bumpMalloc))))) ∧
      (∀ p, Reach (collected (stateOf (test4State bumpMalloc))) p →
        p ∈ arena (collected (stateOf (test4State bumpMalloc))) ∧
        ∃ o, load (collected (stateOf (test4State bumpMalloc))).heap p = some o) :=
  ⟨attainable_test4Collected, by decide,
    roots_and_links_in_arena _ attainable_test4Collected⟩

/-- C18: for every well-formed VM with at least two stack entries, `pushPair` returns, also
when `numObjects = maxObjects` and its allocation runs a collection first; the `head` and the
`tail` of the new pair are the two top entries of the stack as it was on entry, they were in
the arena list before the call and are in it afterwards (in the collected state too, when
there is a collection), their cells still hold what they held but for the `next` link, and
the state afterwards is closed with every mark clear. -/
theorem pushPair_operands_survive (malloc : Heap → Ptr) (hm : MallocOK malloc) (vm : VM)
    (hw : WellFormed vm) (h2 : 2 ≤ vm.stackSize) :
    ∃ vm1 p o, pushPair malloc vm = .ok (vm1, p) ∧ load vm1.heap p = some o ∧
      o.type = OBJ_PAIR ∧ o.head = vm.stack (vm.stackSize - 2).toNat ∧
      o.tail = vm.stack (vm.stackSize - 1).toNat ∧
      o.head ∈ arena vm ∧ o.tail ∈ arena vm ∧ o.head ∈ arena vm1 ∧ o.tail ∈ arena vm1 ∧
      (∀ q, q = o.head ∨ q = o.tail → ∃ oq n, load vm.heap q = some oq ∧
        load vm1.heap q = some { oq with next := n }) ∧
      (vm.numObjects = vm.maxObjects → ∃ vm0 r, gc vm = .ok (vm0, r) ∧
        o.head ∈ arena vm0 ∧ o.tail ∈ arena vm0 ∧ arena vm1 = p :: arena vm0) ∧
      Closed vm1 ∧ Unmarked vm1 := by
  obtain ⟨hc, hu, hb⟩ := hw
  obtain ⟨vm1, p, h⟩ := pushPair_ok_of_closed hm hc hb h2
  obtain ⟨vm0, hpre, _, hp0, hfree, h20, h256, hP⟩ := pushPair_result hm h
  obtain ⟨hst, hss⟩ := hpre.stack_same
  obtain ⟨hc0, hu0, hsub, hsurv⟩ := hpre.keepsClosed hc hu
  have hx0 : vm0.stack (vm0.stackSize - 2).toNat ∈ arena vm0 :=
    hc0.stack_mem _ (by omega)
  have hy0 : vm0.stack (vm0.stackSize - 1).toNat ∈ arena vm0 :=
    hc0.stack_mem _ (by omega)
  obtain ⟨hc1, hu1, har1⟩ := hP.closed_after hc0 hu0 hp0 hfree rfl rfl (fun _ => ⟨hx0, hy0⟩)
    (by omega) (by omega) (by omega)
  have hne : ∀ q ∈ arena vm0, q ≠ p := by
    intro q hq hqp
    obtain ⟨o1, ho1⟩ := hc0.isList_arena.loaded q hq
    rw [hqp, hfree] at ho1
    cases ho1
  have hcell : ∀ q ∈ arena vm0, ∃ oq n, load vm.heap q = some oq ∧
      load vm1.heap q = some { oq with next := n } := by
    intro q hq
    obtain ⟨oq, hoq⟩ := hc.isList_arena.loaded q (hsub.subset hq)
    obtain ⟨n, hn⟩ := hsurv q hq oq hoq
    exact ⟨oq, n, hoq, by rw [hP.loads, if_neg (hne q hq)]; exact hn⟩
  rw [hst, hss] at hx0 hy0
  refine ⟨vm1, p, _, h, by rw [hP.loads, if_pos rfl], rfl, by rw [hst, hss],
    by rw [hst, hss], ?_, ?_, ?_, ?_, ?_, ?_, hc1, hu1⟩
  · show vm0.stack (vm0.stackSize - 2).toNat ∈ arena vm
    rw [hst, hss]; exact hsub.subset hx0
  · show vm0.stack (vm0.stackSize - 1).toNat ∈ arena vm
    rw [hst, hss]; exact hsub.subset hy0
  · show vm0.stack (vm0.stackSize - 2).toNat ∈ arena vm1
    rw [hst, hss, har1]; exact List.mem_cons_of_mem _ hx0
  · show vm0.stack (vm0.stackSize - 1).toNat ∈ arena vm1
    rw [hst, hss, har1]; exact List.mem_cons_of_mem _ hy0
  · intro q hq
    have hq' : q = vm.stack (vm.stackSize - 2).toNat ∨
        q = vm.stack (vm.stackSize - 1).toNat := by
      rw [← hst, ← hss]; exact hq
    rcases hq' with rfl | rfl
    · exact hcell _ hx0
    · exact hcell _ hy0
  · intro heq
    rcases hpre with ⟨hne1, _⟩ | ⟨_, r, hg⟩
    · exact absurd heq hne1
    · refine ⟨vm0, r, hg, ?_, ?_, har1⟩
      · show vm0.stack (vm0.stackSize - 2).toNat ∈ arena vm0
        rw [hst, hss]; exact hx0
      · show vm0.stack (vm0.stackSize - 1).toNat ∈ arena vm0
        rw [hst, hss]; exact hy0

theorem pushPair_operands_survive_witness :
    fullState bumpMalloc = .ok (stateOf (fullState bumpMalloc)) ∧
    WellFormed (stateOf (fullState bumpMalloc)) ∧
    2 ≤ (stateOf (fullState bumpMalloc)).stackSize ∧
    (stateOf (fullState bumpMalloc)).numObjects = (stateOf (fullState bumpMalloc)).maxObjects ∧
      ∃ vm1 p o, pushPair bumpMalloc (stateOf (fullState bumpMalloc)) = .ok (vm1, p) ∧
        load vm1.heap p = some o ∧ o.type = OBJ_PAIR ∧
        o.head = (stateOf (fullState bumpMalloc)).stack
          ((stateOf (fullState bumpMalloc)).stackSize - 2).toNat ∧
        o.tail = (stateOf (fullState bumpMalloc)).stack
          ((stateOf (fullState bumpMalloc)).stackSize - 1).toNat ∧
        o.head ∈ arena (stateOf (fullState bumpMalloc)) ∧
        o.tail ∈ arena (stateOf (fullState bumpMalloc)) ∧
        o.head ∈ arena vm1 ∧ o.tail ∈ arena vm1 ∧
        (∀ q, q = o.head ∨ q = o.tail → ∃ oq n,
          load (stateOf (fullState bumpMalloc)).heap q = some oq ∧
          load vm1.heap q = some { oq with next := n }) ∧
        ((stateOf (fullState bumpMalloc)).numObjects =
            (stateOf (fullState bumpMalloc)).maxObjects →
          ∃ vm0 r, gc (stateOf (fullState bumpMalloc)) = .ok (vm0, r) ∧
            o.head ∈ arena vm0 ∧ o.tail ∈ arena vm0 ∧ arena vm1 = p :: arena vm0) ∧
        Closed vm1 ∧ Unmarked vm1 :=
  ⟨rfl, by decide, by decide, by decide,
    pushPair_operands_survive bumpMalloc mallocOK_bumpMalloc _ (by decide) (by decide)⟩

/-- C19: in every state reachable from `newVM` by calls of `push`, `pop`, `pushInt`,
`pushPair` and `gc` that return, `numObjects ≤ maxObjects`; so whenever `numObjects` is not
below `maxObjects` it is equal to it, the test `numObjects == maxObjects` of `newObject` then
holds and the allocation collects first; and after any allocation from such a state
`numObjects ≤ maxObjects` still holds. -/
theorem numObjects_le_maxObjects (vm : VM) (hr : Reachable vm) :
    vm.numObjects ≤ vm.maxObjects ∧
    (¬ vm.numObjects < vm.maxObjects → vm.numObjects = vm.maxObjects) ∧
    ∀ malloc ty vm1 obj, MallocOK malloc → newObject malloc vm ty = .ok (vm1, obj) →
      vm1.numObjects ≤ vm1.maxObjects ∧
      ((vm.numObjects < vm.maxObjects ∧ vm1.numObjects = vm.numObjects + 1 ∧
          vm1.maxObjects = vm.maxObjects) ∨
        (vm.numObjects = vm.maxObjects ∧ ∃ vm0 r, gc vm = .ok (vm0, r) ∧
          vm0.numObjects < vm0.maxObjects ∧ vm1.numObjects = vm0.numObjects + 1 ∧
          vm1.maxObjects = vm0.maxObjects)) := by
  have hi := reachable_inv hr
  have hle := hi.2.2.2
  refine ⟨hle, fun h => by omega, ?_⟩
  intro malloc ty vm1 obj hm h
  obtain ⟨hi1, _⟩ := inv_newObject hm hi h
  refine ⟨hi1.2.2.2, ?_⟩
  obtain ⟨vm0, hpre, _, _, _, _, rfl⟩ := newObject_pre h
  rcases hpre with ⟨hne, rfl⟩ | ⟨heq, r, hg⟩
  · left
    exact ⟨by omega, rfl, rfl⟩
  · right
    refine ⟨heq, vm0, r, hg, ?_, rfl, rfl⟩
    obtain ⟨ha0, _, _, hmax, _⟩ := gc_frame hi.1 hg
    have hnn := ha0.numObjects_nonneg
    rw [hmax]
    split
    · rename_i h0; rw [h0]; simp [INITIAL_OBJ_MAX]
    · omega

theorem numObjects_le_maxObjects_witness :
    Reachable (stateOf (pushInt bumpMalloc (collected (stateOf (oneIntState bumpMalloc))) 2)) ∧
    (stateOf (pushInt bumpMalloc (collected (stateOf (oneIntState bumpMalloc))) 2)).numObjects
      = 2 ∧
    (stateOf (pushInt bumpMalloc (collected (stateOf (oneIntState bumpMalloc))) 2)).maxObjects
      = 2 ∧
    ∀ malloc ty vm1 obj, MallocOK malloc →
      newObject malloc
        (stateOf (pushInt bumpMalloc (collected (stateOf (oneIntState bumpMalloc))) 2))
        ty = .ok (vm1, obj) →
      vm1.numObjects ≤ vm1.maxObjects :=
  ⟨reachable_twoInts, by decide, by decide, fun malloc ty vm1 obj hm h =>
    ((numObjects_le_maxObjects _ reachable_twoInts).2.2 malloc ty vm1 obj hm h).1⟩

/-- C20: for every well-formed VM state `gc` returns and leaves `stackSize` and every stack
slot unchanged; every object that survives (is in the arena list afterwards) was in the arena
list before and keeps its `type`, `value`, `head` and `tail` (and its mark, clear before and
after), only its `next` link may differ; and no cell outside the former arena list is
touched. -/
theorem gc_preserves_survivors (vm : VM) (hw : WellFormed vm) :
    ∃ vm1 r, gc vm = .ok (vm1, r) ∧ vm1.stackSize = vm.stackSize ∧
      (∀ i, vm1.stack i = vm.stack i) ∧
      (∀ p ∈ arena vm1, p ∈ arena vm ∧ ∃ o o1, load vm.heap p = some o ∧
        load vm1.heap p = some o1 ∧ o1.type = o.type ∧ o1.value = o.value ∧
        o1.head = o.head ∧ o1.tail = o.tail ∧ o1.marked = o.marked ∧
        o1 = { o with next := o1.next }) ∧
      (∀ p, p ∉ arena vm → load vm1.heap p = load vm.heap p) := by
  obtain ⟨vm1, r, hg, post⟩ := gc_wellFormed hw
  refine ⟨vm1, r, hg, post.stackSize_eq, fun i => by rw [post.stack_eq], ?_, post.other⟩
  intro p hp
  have hmem : p ∈ arena vm := post.sublist.subset hp
  obtain ⟨o, ho⟩ := hw.1.isList_arena.loaded p hmem
  obtain ⟨n, hn⟩ := post.survivor p hp o ho
  exact ⟨hmem, o, _, ho, hn, rfl, rfl, rfl, rfl, rfl, rfl⟩

theorem gc_preserves_survivors_witness :
    test4State bumpMalloc = .ok (stateOf (test4State bumpMalloc)) ∧
    WellFormed (stateOf (test4State bumpMalloc)) ∧
      ∃ vm1 r, gc (stateOf (test4State bumpMalloc)) = .ok (vm1, r) ∧
        vm1.stackSize = (stateOf (test4State bumpMalloc)).stackSize ∧
        (∀ i, vm1.stack i = (stateOf (test4State bumpMalloc)).stack i) ∧
        (∀ p ∈ arena vm1, p ∈ arena (stateOf (test4State bumpMalloc)) ∧ ∃ o o1,
          load (stateOf (test4State bumpMalloc)).heap p = some o ∧
          load vm1.heap p = some o1 ∧ o1.type = o.type ∧ o1.value = o.value ∧
          o1.head = o.head ∧ o1.tail = o.tail ∧ o1.marked = o.marked ∧
          o1 = { o with next := o1.next }) ∧
        (∀ p, p ∉ arena (stateOf (test4State bumpMalloc)) →
          load vm1.heap p = load (stateOf (test4State bumpMalloc)).heap p) :=
  ⟨rfl, by decide, gc_preserves_survivors _ (by decide)⟩

end GC
